import Mathlib

/-!
Verification development for the disco-data-logger core: a shallow embedding
of the periodic reducer (`src/data_logger/periodic.py`), the batch buffer and
collector (`src/data_logger/collector.py`), and the completion waiter,
together with theorems checking the specification's claims against them.

Modelling conventions:
* Python floats (epochs, values) are embedded as rationals `ℚ`; the claims
  under scrutiny only involve arithmetic, comparison and `floor`, all exact.
* A `graphblas.Vector` is embedded by its coordinate content as returned by
  `to_coo()`: a list of `(index, value)` pairs with strictly increasing
  indices.  `Vector.from_coo` (no `dup_op`) raises on duplicate indices, per
  the library contract; element-wise `+` is union-with-sum, per the library
  contract and the repository specification of sparse addition.  Vector
  `dup()` is a deep copy, which is the identity on values.
* `while` loops are written as structurally recursive functions on an explicit
  iteration budget; the top-level wrappers pass a budget large enough that the
  loop guard, not the budget, ends the recursion (proved in the lemmas about
  the loop bodies), so the functions compute exactly what the Python loops do.
* numpy arrays are mutable objects; where aliasing matters (the batch buffer)
  arrays are modelled as references into a store, elsewhere by their contents.
-/

namespace DataLogger

/-- Coordinate form of a `graphblas.Vector`, as produced by `to_coo()`:
`(index, value)` pairs, indices strictly increasing. -/
abbrev SparseVec := List (ℕ × ℚ)

/-- Indices of a sparse vector (the first components of its coo pairs). -/
def svIndices (v : SparseVec) : List ℕ := v.map Prod.fst

/-- Value stored at index `n`, `0` when the index is absent. -/
def lookupVal (n : ℕ) (v : SparseVec) : ℚ :=
  ((v.find? (fun p => p.1 == n)).map Prod.snd).getD 0

/-- Sortedness of a coo list: indices strictly increasing. -/
def svSorted (v : SparseVec) : Prop := v.Chain' (fun p q => p.1 < q.1)

/-- One merge step per unit of budget: element-wise addition of two sorted coo
lists (union of indices, sum at common indices).  This is the behaviour of
graphblas element-wise `+` used by `accumulator += vector` ON EQUAL-SIZED
vectors, as documented by the library and by the repository spec ("Sparse
addition semantics"); on vectors of different sizes the library raises
`DimensionMismatch` instead.  This size-erased function is therefore only
used for the state kind and under the equal-size side condition; the sized
model (`recordAccumulatorStepS` below) keeps the size check and the error
channel. -/
def mergeAddGo : ℕ → SparseVec → SparseVec → SparseVec
  | 0, xs, ys => xs ++ ys
  | fuel + 1, xs, ys =>
    match xs, ys with
    | [], ys => ys
    | xs, [] => xs
    | (i, a) :: xs, (j, b) :: ys =>
      if i < j then (i, a) :: mergeAddGo fuel xs ((j, b) :: ys)
      else if j < i then (j, b) :: mergeAddGo fuel ((i, a) :: xs) ys
      else (i, a + b) :: mergeAddGo fuel xs ys

/-- Element-wise sparse addition; the budget `|xs| + |ys|` is enough for the
merge to run to completion. -/
def mergeAdd (xs ys : SparseVec) : SparseVec :=
  mergeAddGo (xs.length + ys.length) xs ys

/-- Stable insertion into a list sorted by index: a new pair goes before any
pair with a strictly larger index and after pairs with smaller-or-equal index.
-/
def stableInsert (p : ℕ × ℚ) : List (ℕ × ℚ) → List (ℕ × ℚ)
  | [] => [p]
  | q :: rest => if q.1 < p.1 then q :: stableInsert p rest else p :: q :: rest

/-- Stable ascending sort of `(index, value)` pairs by index.  This is the
(unique) stable sort, hence the function computed by
`np.argsort(indices, kind="stable")` followed by fancy indexing in
`PeriodicStream.record`. -/
def stableSortPairs (l : List (ℕ × ℚ)) : List (ℕ × ℚ) :=
  l.foldr stableInsert []

/-- Boolean test `np.all(indices[1:] > indices[:-1])`: strictly increasing. -/
def strictlyIncreasingB : List ℕ → Bool
  | [] => true
  | [_] => true
  | a :: b :: t => a < b && strictlyIncreasingB (b :: t)

/-- Boolean sortedness test on coo pairs (strictly increasing indices). -/
def pairsStrictIncB : List (ℕ × ℚ) → Bool
  | [] => true
  | [_] => true
  | p :: q :: t => p.1 < q.1 && pairsStrictIncB (q :: t)

/-- Model of `graphblas.Vector.from_coo` on an index-sorted pair list (the
call sites only pass sorted lists): without a `dup_op` the library raises on
duplicate indices, otherwise the vector holds exactly the given pairs. -/
def fromCoo (l : List (ℕ × ℚ)) : Option SparseVec :=
  if pairsStrictIncB l then some l else none

/-- The two reducer kinds of `PeriodicStream`. -/
inductive RKind where
  | state
  | accumulator
deriving DecidableEq, Repr

/-- One emission to the underlying raw logger: the period index `k` (the
loop counter of the emitting loop), the boundary epoch `k * P` passed to
`logger.record`, and the emitted coo payload. -/
structure Emission where
  k : ℕ
  boundary : ℚ
  vec : SparseVec
deriving DecidableEq, Repr

/-- The mutable fields of `PeriodicStream` (constructor-validated `P > 0`
appears as a hypothesis of the theorems). -/
structure PeriodicStream where
  periodicity : ℚ
  kind : RKind
  nextStatePeriod : ℕ
  stateVector : Option SparseVec
  nextAccPeriod : ℕ
  accCurrentPeriod : Option ℤ
  accumulatorVector : Option SparseVec
deriving DecidableEq, Repr

/-- A freshly constructed stream (`__init__` with valid arguments). -/
def mkStream (P : ℚ) (kind : RKind) : PeriodicStream :=
  { periodicity := P
    kind := kind
    nextStatePeriod := 0
    stateVector := none
    nextAccPeriod := 0
    accCurrentPeriod := none
    accumulatorVector := none }

/-- One iteration of the `while True` loop of `_emit_state_up_to` per unit of
budget: `boundary := next * P`; break when `boundary > epoch` or (not
`include_equal` and `boundary == epoch`); otherwise emit the cached state at
`boundary` and increment `next`. -/
def emitStateGo (P epoch : ℚ) (includeEqual : Bool) (vec : SparseVec) :
    ℕ → ℕ → List Emission
  | 0, _ => []
  | fuel + 1, next =>
    let boundary : ℚ := (next : ℚ) * P
    if epoch < boundary ∨ (includeEqual = false ∧ boundary = epoch) then []
    else ⟨next, boundary, vec⟩ :: emitStateGo P epoch includeEqual vec fuel (next + 1)

/-- Iteration budget for `_emit_state_up_to`; with `0 < P` the loop guard
fails at or before exhaustion, so the budget never cuts the loop short. -/
def stateLoopFuel (P epoch : ℚ) (next : ℕ) : ℕ :=
  (⌊epoch / P⌋ + 1 - next).toNat

/-- `PeriodicStream._emit_state_up_to`: no-op when no state is cached, else
flush the cached state for each completed period, advancing
`_next_state_period` once per emission. -/
def emitStateUpTo (s : PeriodicStream) (epoch : ℚ) (includeEqual : Bool) :
    List Emission × PeriodicStream :=
  match s.stateVector with
  | none => ([], s)
  | some vec =>
    let ems := emitStateGo s.periodicity epoch includeEqual vec
      (stateLoopFuel s.periodicity epoch s.nextStatePeriod) s.nextStatePeriod
    (ems, { s with nextStatePeriod := s.nextStatePeriod + ems.length })

/-- `PeriodicStream._record_state`: flush completed periods (strict
comparison), then cache a copy of the incoming vector. -/
def recordStateStep (s : PeriodicStream) (epoch : ℚ) (vec : SparseVec) :
    List Emission × PeriodicStream :=
  let r := emitStateUpTo s epoch false
  (r.1, { r.2 with stateVector := some vec })

/-- `PeriodicStream._materialize_accumulator`: the accumulated vector, or the
empty vector when nothing was accumulated. -/
def materializeAccumulator (acc : Option SparseVec) : SparseVec := acc.getD []

/-- One iteration of the `while self._next_acc_period < period_index` loop of
`_emit_acc_periods_before` per unit of budget: emit the accumulator for the
period being closed when `_acc_current_period` equals it (clearing both
accumulator fields), else emit the empty vector; then advance. -/
def emitAccGo (P : ℚ) (kIn : ℤ) :
    ℕ → ℕ → Option ℤ → Option SparseVec →
      List Emission × (ℕ × Option ℤ × Option SparseVec)
  | 0, next, cur, acc => ([], (next, cur, acc))
  | fuel + 1, next, cur, acc =>
    if (next : ℤ) < kIn then
      let step : SparseVec × Option ℤ × Option SparseVec :=
        if cur = some (next : ℤ) then (materializeAccumulator acc, none, none)
        else ([], cur, acc)
      let rest := emitAccGo P kIn fuel (next + 1) step.2.1 step.2.2
      (⟨next, (next : ℚ) * P, step.1⟩ :: rest.1, rest.2)
    else ([], (next, cur, acc))

/-- Iteration budget for `_emit_acc_periods_before`; it is exactly the number
of loop iterations, so the budget never cuts the loop short. -/
def accLoopFuel (kIn : ℤ) (next : ℕ) : ℕ := (kIn - next).toNat

/-- `PeriodicStream._emit_acc_periods_before`. -/
def emitAccPeriodsBefore (s : PeriodicStream) (kIn : ℤ) :
    List Emission × PeriodicStream :=
  let r := emitAccGo s.periodicity kIn (accLoopFuel kIn s.nextAccPeriod)
    s.nextAccPeriod s.accCurrentPeriod s.accumulatorVector
  (r.1, { s with
            nextAccPeriod := r.2.1
            accCurrentPeriod := r.2.2.1
            accumulatorVector := r.2.2.2 })

/-- `PeriodicStream._record_accumulator` with vector sizes erased: drain
completed bins, then either open the bin `floor(epoch / P)` with (a copy of)
the input, or fold the input into the open bin by element-wise addition;
empty inputs leave the accumulator field absent or unchanged.  The source's
`+=` branch raises `DimensionMismatch` when the input's size differs from
the accumulator's; this total function is the size-erased projection of the
faithful `recordAccumulatorStepS` below and agrees with it exactly on runs
that do not raise (`recordVectorS_erase`). -/
def recordAccumulatorStep (s : PeriodicStream) (epoch : ℚ) (vec : SparseVec) :
    List Emission × PeriodicStream :=
  let kIn : ℤ := ⌊epoch / s.periodicity⌋
  let r := emitAccPeriodsBefore s kIn
  let s1 := r.2
  if s1.accCurrentPeriod ≠ some kIn then
    (r.1, { s1 with
              accCurrentPeriod := some kIn
              accumulatorVector := if vec.length ≠ 0 then some vec else none })
  else if vec.length = 0 then (r.1, s1)
  else
    match s1.accumulatorVector with
    | none => (r.1, { s1 with accumulatorVector := some vec })
    | some acc => (r.1, { s1 with accumulatorVector := some (mergeAdd acc vec) })

/-- `PeriodicStream.record_vector`: dispatch on the reducer kind. -/
def recordVector (s : PeriodicStream) (epoch : ℚ) (vec : SparseVec) :
    List Emission × PeriodicStream :=
  match s.kind with
  | .state => recordStateStep s epoch vec
  | .accumulator => recordAccumulatorStep s epoch vec

/-- `PeriodicStream.close`: flush pending data up to `final_epoch`; the state
kind includes the boundary equal to `final_epoch`, the accumulator kind drains
strictly below `floor(final_epoch / P)`. -/
def closeStream (s : PeriodicStream) (finalEpoch : ℚ) :
    List Emission × PeriodicStream :=
  match s.kind with
  | .state => emitStateUpTo s finalEpoch true
  | .accumulator => emitAccPeriodsBefore s ⌊finalEpoch / s.periodicity⌋

/-- `PeriodicStream.record` on arrays, sizes erased: reject length mismatch;
stably sort the pairs by index when the indices are not strictly increasing
(more than one element); build the vector with `from_coo`, which raises on
duplicate indices; then `record_vector`.  The sized `recordArraysS` below
additionally computes `size = max index + 1` as the source does and keeps
the `DimensionMismatch` channel of the accumulator kind. -/
def recordArrays (s : PeriodicStream) (epoch : ℚ)
    (indices : List ℕ) (values : List ℚ) :
    Except String (List Emission × PeriodicStream) :=
  if indices.length ≠ values.length then
    .error "indices and values must have the same length"
  else
    let pairs := indices.zip values
    let sorted :=
      if 1 < indices.length ∧ strictlyIncreasingB indices = false then
        stableSortPairs pairs
      else pairs
    match fromCoo sorted with
    | none => .error "duplicate indices require a dup_op"
    | some vec => .ok (recordVector s epoch vec)

/-- One call made to a periodic stream. -/
inductive StreamOp where
  | record (epoch : ℚ) (vec : SparseVec)
  | close (epoch : ℚ)
deriving DecidableEq, Repr

/-- Run a sequence of `record_vector` / `close` calls, concatenating the
emissions in call order. -/
def runOps (s : PeriodicStream) : List StreamOp → List Emission × PeriodicStream
  | [] => ([], s)
  | op :: rest =>
    let r := match op with
      | .record e v => recordVector s e v
      | .close e => closeStream s e
    let r2 := runOps r.2 rest
    (r.1 ++ r2.1, r2.2)

/-- Run a sequence of `record_vector` calls. -/
def recPhase (s : PeriodicStream) :
    List (ℚ × SparseVec) → List Emission × PeriodicStream
  | [] => ([], s)
  | p :: rest =>
    let r := recordVector s p.1 p.2
    let r2 := recPhase r.2 rest
    (r.1 ++ r2.1, r2.2)

/-- A full stream lifetime: the record calls, then `close(E)`. -/
def runWithClose (s : PeriodicStream) (inputs : List (ℚ × SparseVec)) (E : ℚ) :
    List Emission :=
  let r := recPhase s inputs
  r.1 ++ (closeStream r.2 E).1

/-! Specification-side functions, used to state the claims about the reducer.
They are written from the claims' words, not from the code. -/

/-- Number of boundaries flushed by the state loop once the epoch is reached:
boundaries `k * P` with `k * P < epoch` (record) or `k * P ≤ epoch` (close). -/
def stateTarget (P epoch : ℚ) (includeEqual : Bool) : ℕ :=
  (if includeEqual then ⌊epoch / P⌋ + 1 else ⌈epoch / P⌉).toNat

/-- The measurement latched at boundary `k * P`: the latest input whose epoch
is at most the boundary, defaulting to the first input ever received. -/
def latchedAt (P : ℚ) (inputs : List (ℚ × SparseVec)) (k : ℕ) : SparseVec :=
  ((((inputs.filter (fun p => p.1 ≤ (k : ℚ) * P)).getLast?).or
    inputs.head?).map Prod.snd).getD []

/-- The bin index `floor(epoch / P)` of a measurement. -/
def binIndex (P epoch : ℚ) : ℤ := ⌊epoch / P⌋

/-- The inputs falling in bin `k`. -/
def binInputs (P : ℚ) (inputs : List (ℚ × SparseVec)) (k : ℕ) :
    List (ℚ × SparseVec) :=
  inputs.filter (fun p => binIndex P p.1 = (k : ℤ))

/-- Element-wise sum of all inputs in bin `k`. -/
def binVec (P : ℚ) (inputs : List (ℚ × SparseVec)) (k : ℕ) : SparseVec :=
  (binInputs P inputs k).foldl (fun acc p => mergeAdd acc p.2) []

/-- Largest bin index reached by the inputs or the close epoch. -/
def binMax (P : ℚ) (E : ℚ) (inputs : List (ℚ × SparseVec)) : ℤ :=
  inputs.foldr (fun p m => max (binIndex P p.1) m) (binIndex P E)

/-! The batch buffer (`collector.py`, `_BatchBuffer`).  numpy arrays are
mutable objects, so they are modelled as references into a store mapping each
array identity to its current contents; `append` stores what the source
stores (`self.indices.append(indices)` stores the array object itself), and
`to_arrow_arrays` reads contents at drain time. -/

/-- Identity of a numpy array object. -/
abbrev ArrRef := ℕ

/-- Contents of every live array at one instant: integer arrays (indices) and
float arrays (values) by identity. -/
structure Store where
  ints : ArrRef → List ℤ
  rats : ArrRef → List ℚ

/-- A label map (stream metadata as seen by `meta.get`). -/
abbrev LabelMap := List (String × String)

/-- `meta.get(col)`: the value bound to `col`, if any. -/
def metaGet (meta : LabelMap) (col : String) : Option String :=
  (meta.find? (fun p => p.1 == col)).map Prod.snd

/-- Arguments of one `_BatchBuffer.append` call.  The index and value arrays
are passed by reference. -/
structure AppendCall where
  sid : ℕ
  epoch : ℚ
  idxRef : ArrRef
  valRef : ArrRef
  meta : LabelMap
deriving DecidableEq, Repr

/-- The buffer's column lists; `extras` holds one cell list per configured
extra column, in configured order (Python dict preserves insertion order). -/
structure BatchBuffer where
  columns : List String
  capacity : ℕ
  streamIds : List ℕ
  epochs : List ℚ
  indices : List ArrRef
  values : List ArrRef
  extras : List (String × List (Option String))
deriving DecidableEq, Repr

/-- A freshly constructed buffer (`__post_init__` seeds one empty cell list
per configured column). -/
def emptyBuffer (columns : List String) (capacity : ℕ) : BatchBuffer :=
  { columns := columns
    capacity := capacity
    streamIds := []
    epochs := []
    indices := []
    values := []
    extras := columns.map (fun c => (c, [])) }

/-- `_BatchBuffer.append`: push the row onto each column list; the index and
value arrays are stored as passed (no copy is taken). -/
def BatchBuffer.append (b : BatchBuffer) (c : AppendCall) : BatchBuffer :=
  { b with
      streamIds := b.streamIds ++ [c.sid]
      epochs := b.epochs ++ [c.epoch]
      indices := b.indices ++ [c.idxRef]
      values := b.values ++ [c.valRef]
      extras := b.extras.map (fun e => (e.1, e.2 ++ [metaGet c.meta e.1])) }

/-- A sequence of `append` calls. -/
def appendAll (b : BatchBuffer) : List AppendCall → BatchBuffer
  | [] => b
  | c :: rest => appendAll (b.append c) rest

/-- The column arrays materialised by `to_arrow_arrays`: array contents are
read from the store at drain time. -/
structure ArrowColumns where
  streamIds : List ℕ
  epochs : List ℚ
  indices : List (List ℤ)
  values : List (List ℚ)
  extras : List (String × List (Option String))
deriving DecidableEq, Repr

/-- `_BatchBuffer.to_arrow_arrays` under store `σ`. -/
def toArrowArrays (σ : Store) (b : BatchBuffer) : ArrowColumns :=
  { streamIds := b.streamIds
    epochs := b.epochs
    indices := b.indices.map σ.ints
    values := b.values.map σ.rats
    extras := b.extras }

/-- One row of a record batch. -/
structure OutRow where
  sid : ℕ
  epoch : ℚ
  idx : List ℤ
  vals : List ℚ
  cells : List (Option String)
deriving DecidableEq, Repr

/-- The rows of a record batch built from the column arrays (row `i` is the
`i`-th entry of every column). -/
def rowsOfColumns (a : ArrowColumns) : List OutRow :=
  (List.range a.streamIds.length).map (fun i =>
    { sid := a.streamIds.getD i 0
      epoch := a.epochs.getD i 0
      idx := a.indices.getD i []
      vals := a.values.getD i []
      cells := a.extras.map (fun e => e.2.getD i none) })

/-- The row an `append` call denotes at store `σ` with extra columns `cols`:
its scalar fields, the contents of its arrays at that instant, and one cell
per configured column. -/
def interpRow (σ : Store) (cols : List String) (c : AppendCall) : OutRow :=
  { sid := c.sid
    epoch := c.epoch
    idx := σ.ints c.idxRef
    vals := σ.rats c.valRef
    cells := cols.map (metaGet c.meta) }

/-! The completion waiter (`Collector._wait_for_done`).  Time is measured in
milliseconds from the first poll; each sleep advances it by the backoff.
`doneAt p t` tells whether `p/_DONE` exists at time `t`. -/

/-- One poll of the waiter loop per unit of budget: drop the ready paths;
succeed when none are pending; fail when a finite deadline has passed; else
sleep and poll again.  A `none` result means the budget ran out with the
loop still polling. -/
def waitGo (doneAt : ℕ → ℕ → Bool) (backoff : ℕ) (deadline : Option ℕ) :
    ℕ → List ℕ → ℕ → Option Bool
  | 0, _, _ => none
  | fuel + 1, pending, now =>
    let pending2 := pending.filter (fun p => !doneAt p now)
    if pending2.isEmpty then some true
    else if (deadline.map (fun d => decide (d ≤ now))).getD false then some false
    else waitGo doneAt backoff deadline fuel pending2 (now + backoff)

/-- `Collector._wait_for_done`: immediate success on no paths; negative
backoff and timeout are clamped to zero; the deadline exists only when a
timeout was given. -/
def waitForDone (doneAt : ℕ → ℕ → Bool) (paths : List ℕ)
    (backoff : ℤ) (timeout : Option ℤ) (fuel : ℕ) : Option Bool :=
  if paths.isEmpty then some true
  else waitGo doneAt backoff.toNat (timeout.map Int.toNat) fuel paths 0

/-- The default of `Collector.collect`'s `timeout` parameter
(`timeout: int | None = 60_000`). -/
def collectTimeoutDefault : Option ℤ := some 60000

/-- The default of `Collector.collect`'s `backoff` parameter. -/
def collectBackoffDefault : ℤ := 100

/-! The collector (`Collector.collect`) up to its writer output.  Stream
metadata descriptors and already-decoded segment contents stand in for the
`streams/*.json` files and the segment decoder (the decoder is an external
contract: a lazy sequence of `(stream_id, epoch, indices, values)` rows per
file, in file order). -/

/-- One `streams/<id>.json` descriptor: `stream_id` plus optional scales and
the label map.  A scale field is `none` when the JSON lacks the key. -/
structure StreamMeta where
  streamId : ℕ
  epochScale : Option ℚ
  valueScale : Option ℚ
  labels : LabelMap
deriving DecidableEq, Repr

/-- One decoded segment row. -/
structure SegRow where
  sid : ℕ
  epoch : ℚ
  idx : List ℤ
  vals : List ℚ
deriving DecidableEq, Repr

/-- One logger directory: its path identity, its descriptors in sorted file
order, its decoded segment files in lexicographic order, and whether its
`_DONE` marker exists (the filesystem is quiescent during one collect). -/
structure LoggerDir where
  path : ℕ
  streams : List StreamMeta
  segments : List (List SegRow)
  hasDone : Bool
deriving DecidableEq, Repr

/-- Errors `collect` can raise. -/
inductive CollectErr where
  | missingScales (sid : ℕ)
  | noMetadata (path : ℕ)
deriving DecidableEq, Repr

deriving instance DecidableEq for Except

/-- Whether the label rule keeps a descriptor (`label_selector.select`
contract); no rule keeps everything. -/
def selectedBy (rule : Option (LabelMap → Bool)) (m : StreamMeta) : Bool :=
  match rule with
  | none => true
  | some r => r m.labels

/-- Deduplicate preserving first occurrence (`dict.fromkeys` and the
grouping of selected streams by path). -/
def dedupFirst {α : Type} [DecidableEq α] (l : List α) : List α :=
  l.foldl (fun acc x => if x ∈ acc then acc else acc ++ [x]) []

/-- The directory registered under a path (paths are unique across the
configured directories). -/
def dirFor (dirs : List LoggerDir) (p : ℕ) : Option LoggerDir :=
  dirs.find? (fun d => d.path == p)

/-- `Collector._scale_pairs`: building the scale map raises at the first
descriptor of the map that lacks either scale. -/
def scalePairsCheck (metas : List StreamMeta) : Except CollectErr Unit :=
  match metas.find? (fun m => m.epochScale.isNone || m.valueScale.isNone) with
  | some m => .error (.missingScales m.streamId)
  | none => .ok ()

/-- `Collector._decode_logger` for one directory: skip when no stream of the
directory is selected; raise when the directory has no metadata; validate the
scale map over every descriptor of the directory; then decode each segment
file in order, keeping rows of selected streams that have a descriptor. -/
def decodeLogger (d : LoggerDir) (selectedIds : List ℕ)
    (columns : List String) : Except CollectErr (List OutRow) :=
  if selectedIds.isEmpty then .ok []
  else if d.streams.isEmpty then .error (.noMetadata d.path)
  else
    match scalePairsCheck d.streams with
    | .error e => .error e
    | .ok _ =>
      .ok ((d.segments.flatMap id).filterMap (fun r =>
        if r.sid ∈ selectedIds then
          match d.streams.find? (fun m => m.streamId == r.sid) with
          | some m => some
              { sid := r.sid
                epoch := r.epoch
                idx := r.idx
                vals := r.vals
                cells := columns.map (metaGet m.labels) }
          | none => none
        else none))

/-- The decode loop of `collect` over the selected directories in grouping
order, stopping at the first error. -/
def decodeAllDirs (dirs : List LoggerDir)
    (selected : List (ℕ × StreamMeta)) (columns : List String) :
    List ℕ → Except CollectErr (List OutRow)
  | [] => .ok []
  | p :: rest =>
    let ids := (selected.filter (fun q => q.1 == p)).map (fun q => q.2.streamId)
    match dirFor dirs p with
    | none => decodeAllDirs dirs selected columns rest
    | some d =>
      match decodeLogger d ids columns with
      | .error e => .error e
      | .ok rows =>
        match decodeAllDirs dirs selected columns rest with
        | .error e => .error e
        | .ok more => .ok (rows ++ more)

/-- `Collector.collect` against a static filesystem, up to the rows that
reach the writer (batching by the shared buffer preserves the row sequence;
see the batch-buffer theorems).  The result is `none` when the waiter's poll
budget ran out with the loop still polling (with no timeout and a missing
marker the Python loop never returns), else the boolean result or the raised
error. -/
def collectModel (dirs : List LoggerDir) (rule : Option (LabelMap → Bool))
    (columns : List String) (backoff : ℤ) (timeout : Option ℤ) (fuel : ℕ) :
    Option (Except CollectErr (Bool × List OutRow)) :=
  let allStreams := dirs.flatMap (fun d => d.streams.map (fun m => (d.path, m)))
  let selected := allStreams.filter (fun q => selectedBy rule q.2)
  if selected.isEmpty then some (.ok (true, []))
  else
    let dedupedColumns := dedupFirst columns
    let paths := dedupFirst (selected.map Prod.fst)
    match waitForDone (fun p _ => ((dirFor dirs p).map LoggerDir.hasDone).getD false)
        paths backoff timeout fuel with
    | none => none
    | some false => some (.ok (false, []))
    | some true =>
      match decodeAllDirs dirs selected dedupedColumns paths with
      | .error e => some (.error e)
      | .ok rows => some (.ok (true, rows))

/-- The counter of the next unemitted period index for the stream's kind
(`_next_state_period` or `_next_acc_period`). -/
def streamCounter (s : PeriodicStream) : ℕ :=
  match s.kind with
  | .state => s.nextStatePeriod
  | .accumulator => s.nextAccPeriod

/-- Whether the drain loop from `next` up to `kIn` passes (and therefore
clears) the currently accumulating period. -/
def accCurConsumedB (kIn : ℤ) (next : ℕ) (cur : Option ℤ) : Bool :=
  match cur with
  | some c => decide ((next : ℤ) ≤ c) && decide (c < kIn)
  | none => false

/-! The reducer again, with vector sizes.  The `SparseVec` embedding above
erases the `size` attribute of a `graphblas.Vector`.  That is faithful for
the state kind and for the emitting loops (they only call `to_coo()`), but
`accumulator += vector` is graphblas element-wise addition, which requires
the two vectors to have EQUAL sizes and raises `DimensionMismatch`
otherwise.  The sized model below keeps each vector as a `(size, coo)` pair
and gives `_record_accumulator` its error channel; `eraseSized` forgets the
sizes and recovers the model above on runs that do not raise. -/

/-- A `graphblas.Vector`: its `size` and its `to_coo()` content. -/
abbrev SizedVec := ℕ × SparseVec

/-- The mutable fields of `PeriodicStream`, with sized vectors. -/
structure PeriodicStreamS where
  periodicity : ℚ
  kind : RKind
  nextStatePeriod : ℕ
  stateVector : Option SizedVec
  nextAccPeriod : ℕ
  accCurrentPeriod : Option ℤ
  accumulatorVector : Option SizedVec
deriving DecidableEq, Repr

/-- A freshly constructed stream. -/
def mkStreamS (P : ℚ) (kind : RKind) : PeriodicStreamS :=
  { periodicity := P
    kind := kind
    nextStatePeriod := 0
    stateVector := none
    nextAccPeriod := 0
    accCurrentPeriod := none
    accumulatorVector := none }

/-- `_emit_state_up_to` over sized vectors; the emitted payload is the
cached vector's `to_coo()`. -/
def emitStateUpToS (s : PeriodicStreamS) (epoch : ℚ) (includeEqual : Bool) :
    List Emission × PeriodicStreamS :=
  match s.stateVector with
  | none => ([], s)
  | some vec =>
    let ems := emitStateGo s.periodicity epoch includeEqual vec.2
      (stateLoopFuel s.periodicity epoch s.nextStatePeriod) s.nextStatePeriod
    (ems, { s with nextStatePeriod := s.nextStatePeriod + ems.length })

/-- `_record_state` over sized vectors (never raises: `dup()` only). -/
def recordStateStepS (s : PeriodicStreamS) (epoch : ℚ) (vec : SizedVec) :
    List Emission × PeriodicStreamS :=
  let r := emitStateUpToS s epoch false
  (r.1, { r.2 with stateVector := some vec })

/-- `_materialize_accumulator` over sized vectors: the emitted payload is the
vector's `to_coo()` (the `_empty_vector` when nothing is accumulated). -/
def materializeAccumulatorS (acc : Option SizedVec) : SparseVec :=
  (acc.map Prod.snd).getD []

/-- One iteration of the `_emit_acc_periods_before` loop over sized
vectors. -/
def emitAccGoS (P : ℚ) (kIn : ℤ) :
    ℕ → ℕ → Option ℤ → Option SizedVec →
      List Emission × (ℕ × Option ℤ × Option SizedVec)
  | 0, next, cur, acc => ([], (next, cur, acc))
  | fuel + 1, next, cur, acc =>
    if (next : ℤ) < kIn then
      let step : SparseVec × Option ℤ × Option SizedVec :=
        if cur = some (next : ℤ) then (materializeAccumulatorS acc, none, none)
        else ([], cur, acc)
      let rest := emitAccGoS P kIn fuel (next + 1) step.2.1 step.2.2
      (⟨next, (next : ℚ) * P, step.1⟩ :: rest.1, rest.2)
    else ([], (next, cur, acc))

/-- `_emit_acc_periods_before` over sized vectors. -/
def emitAccPeriodsBeforeS (s : PeriodicStreamS) (kIn : ℤ) :
    List Emission × PeriodicStreamS :=
  let r := emitAccGoS s.periodicity kIn (accLoopFuel kIn s.nextAccPeriod)
    s.nextAccPeriod s.accCurrentPeriod s.accumulatorVector
  (r.1, { s with
            nextAccPeriod := r.2.1
            accCurrentPeriod := r.2.2.1
            accumulatorVector := r.2.2.2 })

/-- `_record_accumulator` with the graphblas size check: drain completed
bins, then open the bin `floor(epoch / P)` with (a copy of) the input, or
fold the input into the open bin by `+=`, which raises `DimensionMismatch`
when the accumulator's size and the input's size differ. -/
def recordAccumulatorStepS (s : PeriodicStreamS) (epoch : ℚ)
    (vec : SizedVec) : Except String (List Emission × PeriodicStreamS) :=
  let kIn : ℤ := ⌊epoch / s.periodicity⌋
  let r := emitAccPeriodsBeforeS s kIn
  let s1 := r.2
  if s1.accCurrentPeriod ≠ some kIn then
    .ok (r.1, { s1 with
                  accCurrentPeriod := some kIn
                  accumulatorVector :=
                    if vec.2.length ≠ 0 then some vec else none })
  else if vec.2.length = 0 then .ok (r.1, s1)
  else
    match s1.accumulatorVector with
    | none => .ok (r.1, { s1 with accumulatorVector := some vec })
    | some acc =>
      if acc.1 ≠ vec.1 then .error "DimensionMismatch"
      else .ok (r.1,
        { s1 with accumulatorVector := some (acc.1, mergeAdd acc.2 vec.2) })

/-- `record_vector` over sized vectors: the state kind never raises. -/
def recordVectorS (s : PeriodicStreamS) (epoch : ℚ) (vec : SizedVec) :
    Except String (List Emission × PeriodicStreamS) :=
  match s.kind with
  | .state => .ok (recordStateStepS s epoch vec)
  | .accumulator => recordAccumulatorStepS s epoch vec

/-- `close` over sized vectors (total: the drains only read `to_coo()`). -/
def closeStreamS (s : PeriodicStreamS) (finalEpoch : ℚ) :
    List Emission × PeriodicStreamS :=
  match s.kind with
  | .state => emitStateUpToS s finalEpoch true
  | .accumulator => emitAccPeriodsBeforeS s ⌊finalEpoch / s.periodicity⌋

/-- `size = int(indices.max()) + 1 if indices.size else 0`. -/
def cooSize (indices : List ℕ) : ℕ :=
  match indices with
  | [] => 0
  | _ => indices.foldr max 0 + 1

/-- `PeriodicStream.record` with the vector size the code computes: reject
length mismatch; stably sort the pairs when the indices are not strictly
increasing; build the vector with `from_coo(…, size=max+1)`, which raises
on duplicate indices; then `record_vector`, which can itself raise
`DimensionMismatch` on an accumulator stream. -/
def recordArraysS (s : PeriodicStreamS) (epoch : ℚ)
    (indices : List ℕ) (values : List ℚ) :
    Except String (List Emission × PeriodicStreamS) :=
  if indices.length ≠ values.length then
    .error "indices and values must have the same length"
  else
    let pairs := indices.zip values
    let sorted :=
      if 1 < indices.length ∧ strictlyIncreasingB indices = false then
        stableSortPairs pairs
      else pairs
    let size := cooSize (sorted.map Prod.fst)
    match fromCoo sorted with
    | none => .error "duplicate indices require a dup_op"
    | some vec => recordVectorS s epoch (size, vec)

/-- A sequence of `record_vector` calls, stopping at the first raise. -/
def recPhaseS (s : PeriodicStreamS) :
    List (ℚ × SizedVec) → Except String (List Emission × PeriodicStreamS)
  | [] => .ok ([], s)
  | p :: rest =>
    match recordVectorS s p.1 p.2 with
    | .error err => .error err
    | .ok r =>
      match recPhaseS r.2 rest with
      | .error err => .error err
      | .ok r2 => .ok (r.1 ++ r2.1, r2.2)

/-- A full stream lifetime over sized vectors: the record calls, then
`close(E)`; a raise aborts the run. -/
def runWithCloseS (s : PeriodicStreamS) (inputs : List (ℚ × SizedVec))
    (E : ℚ) : Except String (List Emission) :=
  match recPhaseS s inputs with
  | .error err => .error err
  | .ok r => .ok (r.1 ++ (closeStreamS r.2 E).1)

/-- Forget the sizes: the size-erased stream state. -/
def eraseSized (s : PeriodicStreamS) : PeriodicStream :=
  { periodicity := s.periodicity
    kind := s.kind
    nextStatePeriod := s.nextStatePeriod
    stateVector := s.stateVector.map Prod.snd
    nextAccPeriod := s.nextAccPeriod
    accCurrentPeriod := s.accCurrentPeriod
    accumulatorVector := s.accumulatorVector.map Prod.snd }

/-- Forget the sizes of a run's inputs. -/
def unsize (inputs : List (ℚ × SizedVec)) : List (ℚ × SparseVec) :=
  inputs.map (fun p => (p.1, p.2.2))

/-- The accumulator-size invariant of a run over `inputs`: whenever a bin
is open with a cached vector, some input of the run contributed a nonempty
vector of the cached vector's size to that bin. -/
def accSizeInv (P : ℚ) (inputs : List (ℚ × SizedVec))
    (s : PeriodicStreamS) : Prop :=
  ∀ a c, s.accumulatorVector = some a → s.accCurrentPeriod = some c →
    ∃ p ∈ inputs, binIndex P p.1 = c ∧ p.2.2 ≠ [] ∧ p.2.1 = a.1

/-! Theorems.  First the bridges between boundary comparisons and floor /
ceiling of `epoch / P`, then closed forms for the two emitting loops, then
the claim theorems. -/

theorem boundary_le_iff (P E : ℚ) (hP : 0 < P) (n : ℕ) :
    (n : ℚ) * P ≤ E ↔ (n : ℤ) ≤ ⌊E / P⌋ := by
  rw [Int.le_floor]
  push_cast
  rw [le_div_iff₀ hP]

theorem boundary_lt_iff (P E : ℚ) (hP : 0 < P) (n : ℕ) :
    (n : ℚ) * P < E ↔ (n : ℤ) < ⌈E / P⌉ := by
  rw [Int.lt_ceil]
  push_cast
  rw [lt_div_iff₀ hP]

theorem state_guard_iff (P E : ℚ) (hP : 0 < P) (b : Bool) (next : ℕ) :
    (E < (next : ℚ) * P ∨ (b = false ∧ (next : ℚ) * P = E)) ↔
      stateTarget P E b ≤ next := by
  have hle := boundary_le_iff P E hP next
  have hlt := boundary_lt_iff P E hP next
  cases b with
  | false =>
    unfold stateTarget
    rw [if_neg (by simp)]
    constructor
    · rintro (h | ⟨-, h⟩)
      · have : ¬ (next : ℚ) * P < E := not_lt.mpr h.le
        rw [hlt] at this
        omega
      · have : ¬ (next : ℚ) * P < E := not_lt.mpr h.ge
        rw [hlt] at this
        omega
    · intro h
      have : ¬ (next : ℤ) < ⌈E / P⌉ := by omega
      rw [← hlt] at this
      rcases lt_or_eq_of_le (not_lt.mp this) with h2 | h2
      · exact .inl h2
      · exact .inr ⟨rfl, h2.symm⟩
  | true =>
    unfold stateTarget
    rw [if_pos (by simp)]
    constructor
    · rintro (h | ⟨h, -⟩)
      · have : ¬ (next : ℚ) * P ≤ E := not_le.mpr h
        rw [hle] at this
        omega
      · exact absurd h (by simp)
    · intro h
      have : ¬ (next : ℤ) ≤ ⌊E / P⌋ := by omega
      rw [← hle] at this
      exact .inl (not_le.mp this)

theorem emitStateGo_closed (P E : ℚ) (hP : 0 < P) (b : Bool) (v : SparseVec) :
    ∀ fuel next, stateTarget P E b - next ≤ fuel →
      emitStateGo P E b v fuel next =
        (List.range' next (stateTarget P E b - next)).map
          (fun k => ⟨k, (k : ℚ) * P, v⟩) := by
  intro fuel
  induction fuel with
  | zero =>
    intro next h
    have h0 : stateTarget P E b - next = 0 := by omega
    rw [h0]
    rfl
  | succ fuel ih =>
    intro next h
    by_cases hn : stateTarget P E b ≤ next
    · have h0 : stateTarget P E b - next = 0 := by omega
      rw [h0]
      unfold emitStateGo
      rw [if_pos ((state_guard_iff P E hP b next).mpr hn)]
      rfl
    · have hlt : next < stateTarget P E b := not_le.mp hn
      have h1 : stateTarget P E b - next = (stateTarget P E b - (next + 1)) + 1 := by
        omega
      rw [h1, List.range'_succ, List.map_cons]
      unfold emitStateGo
      rw [if_neg (fun hg => hn ((state_guard_iff P E hP b next).mp hg))]
      rw [ih (next + 1) (by omega)]

theorem stateLoopFuel_adequate (P E : ℚ) (b : Bool) (next : ℕ) :
    stateTarget P E b - next ≤ stateLoopFuel P E next := by
  have hcf : ⌈E / P⌉ ≤ ⌊E / P⌋ + 1 := Int.ceil_le_floor_add_one (E / P)
  unfold stateTarget stateLoopFuel
  cases b with
  | false => simp only [if_neg (by simp : ¬ (false = true))]; omega
  | true => simp only [if_pos rfl]; omega

theorem emitStateUpTo_closed (s : PeriodicStream) (hP : 0 < s.periodicity)
    (v : SparseVec) (hv : s.stateVector = some v) (E : ℚ) (b : Bool) :
    emitStateUpTo s E b =
      ((List.range' s.nextStatePeriod
          (stateTarget s.periodicity E b - s.nextStatePeriod)).map
        (fun k => ⟨k, (k : ℚ) * s.periodicity, v⟩),
       { s with nextStatePeriod := max s.nextStatePeriod (stateTarget s.periodicity E b) }) := by
  unfold emitStateUpTo
  rw [hv]
  simp only
  rw [emitStateGo_closed s.periodicity E hP b v _ _
    (stateLoopFuel_adequate s.periodicity E b s.nextStatePeriod)]
  have hlen : ((List.range' s.nextStatePeriod
      (stateTarget s.periodicity E b - s.nextStatePeriod)).map
        (fun k => (⟨k, (k : ℚ) * s.periodicity, v⟩ : Emission))).length =
      stateTarget s.periodicity E b - s.nextStatePeriod := by
    rw [List.length_map, List.length_range']
  rw [hlen]
  have : s.nextStatePeriod + (stateTarget s.periodicity E b - s.nextStatePeriod) =
      max s.nextStatePeriod (stateTarget s.periodicity E b) := by omega
  rw [this]

theorem accCurConsumedB_stop (kIn : ℤ) (next : ℕ) (cur : Option ℤ)
    (h : kIn ≤ (next : ℤ)) : accCurConsumedB kIn next cur = false := by
  cases cur with
  | none => rfl
  | some c =>
    simp only [accCurConsumedB, Bool.and_eq_false_iff, decide_eq_false_iff_not]
    omega

theorem accCurConsumedB_shift (kIn : ℤ) (next : ℕ) (cur : Option ℤ)
    (h : cur ≠ some (next : ℤ)) :
    accCurConsumedB kIn (next + 1) cur = accCurConsumedB kIn next cur := by
  cases cur with
  | none => rfl
  | some c =>
    have hc : c ≠ (next : ℤ) := fun he => h (by rw [he])
    simp only [accCurConsumedB]
    have hcast : ((next + 1 : ℕ) : ℤ) = (next : ℤ) + 1 := by push_cast; ring
    have hiff : ((next : ℤ) + 1 ≤ c) ↔ ((next : ℤ) ≤ c) := by omega
    rw [hcast, decide_eq_decide.mpr hiff]

theorem emitAccGo_closed (P : ℚ) (kIn : ℤ) :
    ∀ (fuel next : ℕ) (cur : Option ℤ) (acc : Option SparseVec),
      (kIn - (next : ℤ)).toNat ≤ fuel →
      emitAccGo P kIn fuel next cur acc =
        ((List.range' next (kIn - (next : ℤ)).toNat).map
          (fun k => ⟨k, (k : ℚ) * P,
            if cur = some (k : ℤ) then materializeAccumulator acc else []⟩),
         (next + (kIn - (next : ℤ)).toNat,
          if accCurConsumedB kIn next cur then none else cur,
          if accCurConsumedB kIn next cur then none else acc)) := by
  intro fuel
  induction fuel with
  | zero =>
    intro next cur acc h
    have h0 : (kIn - (next : ℤ)).toNat = 0 := by omega
    rw [h0, accCurConsumedB_stop kIn next cur (by omega)]
    simp [emitAccGo]
  | succ fuel ih =>
    intro next cur acc h
    by_cases hlt : (next : ℤ) < kIn
    · have hm : (kIn - (next : ℤ)).toNat = (kIn - ((next : ℕ) + 1 : ℕ)).toNat + 1 := by
        push_cast
        omega
      unfold emitAccGo
      rw [if_pos hlt]
      by_cases hcur : cur = some (next : ℤ)
      · subst hcur
        have hcons : accCurConsumedB kIn next (some (next : ℤ)) = true := by
          simp only [accCurConsumedB, Bool.and_eq_true, decide_eq_true_eq]
          omega
        simp only [eq_self_iff_true, if_true]
        rw [ih (next + 1) none none (by omega)]
        simp only [hcons, eq_self_iff_true, if_true, ite_self]
        refine congrArg₂ Prod.mk ?_ (congrArg₂ Prod.mk (by omega) rfl)
        rw [hm, List.range'_succ, List.map_cons]
        simp only [eq_self_iff_true, if_true]
        refine congrArg _ ?_
        refine List.map_congr_left ?_
        intro k hk
        rw [List.mem_range'_1] at hk
        have hne : ¬ (some ((next : ℕ) : ℤ) = some ((k : ℕ) : ℤ)) := by
          intro he
          have h2 : ((next : ℕ) : ℤ) = ((k : ℕ) : ℤ) := by injection he
          omega
        rw [if_neg (by simp), if_neg hne]
      · simp only [if_neg hcur]
        rw [ih (next + 1) cur acc (by omega)]
        rw [accCurConsumedB_shift kIn next cur hcur]
        refine congrArg₂ Prod.mk ?_ (congrArg₂ Prod.mk (by omega) rfl)
        rw [hm, List.range'_succ, List.map_cons]
        rw [if_neg hcur]
    · have h0 : (kIn - (next : ℤ)).toNat = 0 := by omega
      rw [h0, accCurConsumedB_stop kIn next cur (by omega)]
      unfold emitAccGo
      rw [if_neg hlt]
      simp

theorem emitAccPeriodsBefore_closed (s : PeriodicStream) (kIn : ℤ) :
    emitAccPeriodsBefore s kIn =
      ((List.range' s.nextAccPeriod (kIn - (s.nextAccPeriod : ℤ)).toNat).map
        (fun k => ⟨k, (k : ℚ) * s.periodicity,
          if s.accCurrentPeriod = some (k : ℤ) then
            materializeAccumulator s.accumulatorVector
          else []⟩),
       { s with
          nextAccPeriod := s.nextAccPeriod + (kIn - (s.nextAccPeriod : ℤ)).toNat
          accCurrentPeriod :=
            if accCurConsumedB kIn s.nextAccPeriod s.accCurrentPeriod then none
            else s.accCurrentPeriod
          accumulatorVector :=
            if accCurConsumedB kIn s.nextAccPeriod s.accCurrentPeriod then none
            else s.accumulatorVector }) := by
  unfold emitAccPeriodsBefore accLoopFuel
  rw [emitAccGo_closed s.periodicity kIn _ _ _ _ (le_refl _)]

theorem emitStateGo_ks (P E : ℚ) (b : Bool) (v : SparseVec) :
    ∀ fuel next,
      ((emitStateGo P E b v fuel next).map Emission.k =
        List.range' next (emitStateGo P E b v fuel next).length) ∧
      (∀ em ∈ emitStateGo P E b v fuel next, em.boundary = (em.k : ℚ) * P) := by
  intro fuel
  induction fuel with
  | zero => intro next; simp [emitStateGo]
  | succ fuel ih =>
    intro next
    unfold emitStateGo
    by_cases hg : E < (next : ℚ) * P ∨ (b = false ∧ (next : ℚ) * P = E)
    · rw [if_pos hg]
      simp
    · rw [if_neg hg]
      refine ⟨?_, ?_⟩
      · rw [List.map_cons, List.length_cons, List.range'_succ, (ih (next + 1)).1]
      · intro em hm
        rcases List.mem_cons.mp hm with he | he
        · rw [he]
        · exact (ih (next + 1)).2 em he

theorem emitAccGo_ks (P : ℚ) (kIn : ℤ) :
    ∀ (fuel next : ℕ) (cur : Option ℤ) (acc : Option SparseVec),
      ((emitAccGo P kIn fuel next cur acc).1.map Emission.k =
        List.range' next (emitAccGo P kIn fuel next cur acc).1.length) ∧
      ((emitAccGo P kIn fuel next cur acc).2.1 =
        next + (emitAccGo P kIn fuel next cur acc).1.length) ∧
      (∀ em ∈ (emitAccGo P kIn fuel next cur acc).1,
        em.boundary = (em.k : ℚ) * P) := by
  intro fuel
  induction fuel with
  | zero => intro next cur acc; simp [emitAccGo]
  | succ fuel ih =>
    intro next cur acc
    unfold emitAccGo
    by_cases hg : (next : ℤ) < kIn
    · rw [if_pos hg]
      by_cases hcur : cur = some (next : ℤ)
      · simp only [hcur, eq_self_iff_true, if_true]
        refine ⟨?_, ?_, ?_⟩
        · rw [List.map_cons, List.length_cons, List.range'_succ,
            (ih (next + 1) none none).1]
        · rw [List.length_cons, (ih (next + 1) none none).2.1]
          omega
        · intro em hm
          rcases List.mem_cons.mp hm with he | he
          · rw [he]
          · exact (ih (next + 1) none none).2.2 em he
      · simp only [if_neg hcur]
        refine ⟨?_, ?_, ?_⟩
        · rw [List.map_cons, List.length_cons, List.range'_succ,
            (ih (next + 1) cur acc).1]
        · rw [List.length_cons, (ih (next + 1) cur acc).2.1]
          omega
        · intro em hm
          rcases List.mem_cons.mp hm with he | he
          · rw [he]
          · exact (ih (next + 1) cur acc).2.2 em he
    · rw [if_neg hg]
      simp

theorem streamCounter_state (t : PeriodicStream) (h : t.kind = .state) :
    streamCounter t = t.nextStatePeriod := by
  unfold streamCounter
  rw [h]

theorem streamCounter_accumulator (t : PeriodicStream)
    (h : t.kind = .accumulator) : streamCounter t = t.nextAccPeriod := by
  unfold streamCounter
  rw [h]

theorem emitStateUpTo_shape (s : PeriodicStream) (E : ℚ) (b : Bool) :
    ((emitStateUpTo s E b).1.map Emission.k =
      List.range' s.nextStatePeriod (emitStateUpTo s E b).1.length) ∧
    ((emitStateUpTo s E b).2.nextStatePeriod =
      s.nextStatePeriod + (emitStateUpTo s E b).1.length) ∧
    ((emitStateUpTo s E b).2.kind = s.kind) ∧
    ((emitStateUpTo s E b).2.periodicity = s.periodicity) ∧
    ((emitStateUpTo s E b).2.stateVector = s.stateVector) ∧
    (∀ em ∈ (emitStateUpTo s E b).1, em.boundary = (em.k : ℚ) * s.periodicity) := by
  unfold emitStateUpTo
  cases hv : s.stateVector with
  | none => simp [hv]
  | some w =>
    have h := emitStateGo_ks s.periodicity E b w
      (stateLoopFuel s.periodicity E s.nextStatePeriod) s.nextStatePeriod
    exact ⟨h.1, rfl, rfl, rfl, rfl, h.2⟩

theorem emitAccPeriodsBefore_shape (s : PeriodicStream) (kIn : ℤ) :
    ((emitAccPeriodsBefore s kIn).1.map Emission.k =
      List.range' s.nextAccPeriod (emitAccPeriodsBefore s kIn).1.length) ∧
    ((emitAccPeriodsBefore s kIn).2.nextAccPeriod =
      s.nextAccPeriod + (emitAccPeriodsBefore s kIn).1.length) ∧
    ((emitAccPeriodsBefore s kIn).2.kind = s.kind) ∧
    ((emitAccPeriodsBefore s kIn).2.periodicity = s.periodicity) ∧
    (∀ em ∈ (emitAccPeriodsBefore s kIn).1,
      em.boundary = (em.k : ℚ) * s.periodicity) := by
  have h := emitAccGo_ks s.periodicity kIn (accLoopFuel kIn s.nextAccPeriod)
    s.nextAccPeriod s.accCurrentPeriod s.accumulatorVector
  exact ⟨h.1, h.2.1, rfl, rfl, h.2.2⟩

theorem recordAccumulatorStep_proj (s : PeriodicStream) (e : ℚ) (v : SparseVec) :
    ((recordAccumulatorStep s e v).1 =
      (emitAccPeriodsBefore s ⌊e / s.periodicity⌋).1) ∧
    ((recordAccumulatorStep s e v).2.nextAccPeriod =
      (emitAccPeriodsBefore s ⌊e / s.periodicity⌋).2.nextAccPeriod) ∧
    ((recordAccumulatorStep s e v).2.kind =
      (emitAccPeriodsBefore s ⌊e / s.periodicity⌋).2.kind) ∧
    ((recordAccumulatorStep s e v).2.periodicity =
      (emitAccPeriodsBefore s ⌊e / s.periodicity⌋).2.periodicity) := by
  unfold recordAccumulatorStep
  dsimp only
  split
  · exact ⟨rfl, rfl, rfl, rfl⟩
  · split
    · exact ⟨rfl, rfl, rfl, rfl⟩
    · split
      · exact ⟨rfl, rfl, rfl, rfl⟩
      · exact ⟨rfl, rfl, rfl, rfl⟩

theorem recordVector_shape (s : PeriodicStream) (e : ℚ) (v : SparseVec) :
    ((recordVector s e v).1.map Emission.k =
      List.range' (streamCounter s) (recordVector s e v).1.length) ∧
    (streamCounter (recordVector s e v).2 =
      streamCounter s + (recordVector s e v).1.length) ∧
    ((recordVector s e v).2.kind = s.kind) ∧
    ((recordVector s e v).2.periodicity = s.periodicity) ∧
    (∀ em ∈ (recordVector s e v).1, em.boundary = (em.k : ℚ) * s.periodicity) := by
  cases hk : s.kind with
  | state =>
    obtain ⟨h1, h2, h3, h4, h5, h6⟩ := emitStateUpTo_shape s e false
    have hred : recordVector s e v = recordStateStep s e v := by
      unfold recordVector
      rw [hk]
    rw [hred]
    unfold recordStateStep
    rw [streamCounter_state s hk]
    refine ⟨h1, ?_, ?_, ?_, h6⟩
    · rw [streamCounter_state _ (by dsimp only; rw [h3]; exact hk)]
      dsimp only
      rw [h2]
    · dsimp only
      rw [h3]
      exact hk
    · dsimp only
      rw [h4]
  | accumulator =>
    obtain ⟨p1, p2, p3, p4⟩ := recordAccumulatorStep_proj s e v
    obtain ⟨a1, a2, a3, a4, a5⟩ := emitAccPeriodsBefore_shape s ⌊e / s.periodicity⌋
    have hred : recordVector s e v = recordAccumulatorStep s e v := by
      unfold recordVector
      rw [hk]
    rw [hred]
    rw [streamCounter_accumulator s hk]
    refine ⟨?_, ?_, ?_, ?_, ?_⟩
    · rw [p1, a1]
    · rw [streamCounter_accumulator _ (by rw [p3, a3]; exact hk)]
      rw [p2, a2, p1]
    · rw [p3, a3]
      exact hk
    · rw [p4, a4]
    · intro em hm
      rw [p1] at hm
      exact a5 em hm

theorem closeStream_shape (s : PeriodicStream) (E : ℚ) :
    ((closeStream s E).1.map Emission.k =
      List.range' (streamCounter s) (closeStream s E).1.length) ∧
    (streamCounter (closeStream s E).2 =
      streamCounter s + (closeStream s E).1.length) ∧
    ((closeStream s E).2.kind = s.kind) ∧
    ((closeStream s E).2.periodicity = s.periodicity) ∧
    (∀ em ∈ (closeStream s E).1, em.boundary = (em.k : ℚ) * s.periodicity) := by
  cases hk : s.kind with
  | state =>
    obtain ⟨h1, h2, h3, h4, h5, h6⟩ := emitStateUpTo_shape s E true
    have hred : closeStream s E = emitStateUpTo s E true := by
      unfold closeStream
      rw [hk]
    rw [hred]
    rw [streamCounter_state s hk]
    refine ⟨h1, ?_, ?_, ?_, h6⟩
    · rw [streamCounter_state _ (by rw [h3]; exact hk)]
      exact h2
    · rw [h3]
      exact hk
    · exact h4
  | accumulator =>
    obtain ⟨a1, a2, a3, a4, a5⟩ := emitAccPeriodsBefore_shape s ⌊E / s.periodicity⌋
    have hred : closeStream s E = emitAccPeriodsBefore s ⌊E / s.periodicity⌋ := by
      unfold closeStream
      rw [hk]
    rw [hred]
    rw [streamCounter_accumulator s hk]
    refine ⟨a1, ?_, ?_, a4, a5⟩
    · rw [streamCounter_accumulator _ (by rw [a3]; exact hk)]
      exact a2
    · rw [a3]
      exact hk

theorem runOps_shape :
    ∀ (ops : List StreamOp) (s : PeriodicStream),
      ((runOps s ops).1.map Emission.k =
        List.range' (streamCounter s) (runOps s ops).1.length) ∧
      (streamCounter (runOps s ops).2 =
        streamCounter s + (runOps s ops).1.length) ∧
      ((runOps s ops).2.kind = s.kind) ∧
      ((runOps s ops).2.periodicity = s.periodicity) ∧
      (∀ em ∈ (runOps s ops).1, em.boundary = (em.k : ℚ) * s.periodicity) := by
  intro ops
  induction ops with
  | nil => intro s; simp [runOps]
  | cons op rest ih =>
    intro s
    cases op with
    | record e v =>
      have hr := recordVector_shape s e v
      have h2 := ih (recordVector s e v).2
      simp only [runOps]
      refine ⟨?_, ?_, ?_, ?_, ?_⟩
      · rw [List.map_append, hr.1, h2.1, hr.2.1, List.range'_append_1,
          List.length_append, Nat.add_comm (recordVector s e v).1.length]
      · rw [h2.2.1, hr.2.1, List.length_append]
        omega
      · rw [h2.2.2.1, hr.2.2.1]
      · rw [h2.2.2.2.1, hr.2.2.2.1]
      · intro em hm
        rcases List.mem_append.mp hm with he | he
        · exact hr.2.2.2.2 em he
        · have := h2.2.2.2.2 em he
          rw [hr.2.2.2.1] at this
          exact this
    | close e =>
      have hr := closeStream_shape s e
      have h2 := ih (closeStream s e).2
      simp only [runOps]
      refine ⟨?_, ?_, ?_, ?_, ?_⟩
      · rw [List.map_append, hr.1, h2.1, hr.2.1, List.range'_append_1,
          List.length_append, Nat.add_comm (closeStream s e).1.length]
      · rw [h2.2.1, hr.2.1, List.length_append]
        omega
      · rw [h2.2.2.1, hr.2.2.1]
      · rw [h2.2.2.2.1, hr.2.2.2.1]
      · intro em hm
        rcases List.mem_append.mp hm with he | he
        · exact hr.2.2.2.2 em he
        · have := h2.2.2.2.2 em he
          rw [hr.2.2.2.1] at this
          exact this

theorem recPhase_eq_runOps :
    ∀ (inputs : List (ℚ × SparseVec)) (s : PeriodicStream),
      recPhase s inputs =
        runOps s (inputs.map (fun p => StreamOp.record p.1 p.2)) := by
  intro inputs
  induction inputs with
  | nil => intro s; rfl
  | cons p rest ih =>
    intro s
    simp only [recPhase, runOps, List.map_cons]
    rw [ih]

/-- C6 (confirmed): for both reducer kinds and every sequence of record and
close calls on a freshly constructed `PeriodicStream` with positive
periodicity, the emitted period indices are exactly `0, 1, 2, ...` in order
(strictly increasing starting at `0`, at most one emission per index), and
every emission's boundary epoch equals `k * P` for its period index `k`. -/
theorem emissions_monotone_boundaries (P : ℚ) (hP : 0 < P) (kind : RKind)
    (ops : List StreamOp) :
    ((runOps (mkStream P kind) ops).1.map Emission.k =
      List.range (runOps (mkStream P kind) ops).1.length) ∧
    (∀ em ∈ (runOps (mkStream P kind) ops).1,
      em.boundary = (em.k : ℚ) * P) := by
  have h := runOps_shape ops (mkStream P kind)
  have hc : streamCounter (mkStream P kind) = 0 := by
    cases kind <;> rfl
  constructor
  · rw [h.1, hc]
    exact (List.range_eq_range' _).symm
  · exact h.2.2.2.2

/-- C6 witness: the theorem applied at `P = 1`, accumulator kind, with one
record and one close call. -/
theorem emissions_monotone_boundaries_witness :
    (0 : ℚ) < 1 ∧
    (((runOps (mkStream 1 .accumulator)
        [.record 2.5 [(0, 1)], .close 3]).1.map Emission.k =
      List.range (runOps (mkStream 1 .accumulator)
        [.record 2.5 [(0, 1)], .close 3]).1.length) ∧
    (∀ em ∈ (runOps (mkStream 1 .accumulator)
        [.record 2.5 [(0, 1)], .close 3]).1,
      em.boundary = (em.k : ℚ) * 1)) :=
  ⟨by norm_num,
   emissions_monotone_boundaries 1 (by norm_num) .accumulator
     [.record 2.5 [(0, 1)], .close 3]⟩

/-- C4 (confirmed): on `close(final_epoch)` an accumulator-kind stream emits
exactly the not-yet-emitted bins with index strictly below
`floor(final_epoch / P)`: the record phase has emitted exactly the period
indices `0, ..., next-1` where `next` is the stream's `_next_acc_period`, the
close call emits exactly the consecutive indices from `next` up to (and
excluding) `floor(final_epoch / P)`, and in particular the bin containing
`final_epoch` is never emitted at close. -/
theorem accumulator_close_drains (P : ℚ) (hP : 0 < P)
    (inputs : List (ℚ × SparseVec)) (E : ℚ) :
    ((recPhase (mkStream P .accumulator) inputs).1.map Emission.k =
      List.range (recPhase (mkStream P .accumulator) inputs).1.length) ∧
    ((recPhase (mkStream P .accumulator) inputs).2.nextAccPeriod =
      (recPhase (mkStream P .accumulator) inputs).1.length) ∧
    ((closeStream (recPhase (mkStream P .accumulator) inputs).2 E).1.map
        Emission.k =
      List.range' (recPhase (mkStream P .accumulator) inputs).2.nextAccPeriod
        (⌊E / P⌋ -
          ((recPhase (mkStream P .accumulator) inputs).2.nextAccPeriod : ℤ)).toNat) ∧
    (∀ em ∈ (closeStream (recPhase (mkStream P .accumulator) inputs).2 E).1,
      (em.k : ℤ) < ⌊E / P⌋) := by
  rw [recPhase_eq_runOps]
  obtain ⟨m1, m2, m3, m4, m5⟩ :=
    runOps_shape (inputs.map (fun p => StreamOp.record p.1 p.2))
      (mkStream P .accumulator)
  have hkind : (runOps (mkStream P .accumulator)
      (inputs.map (fun p => StreamOp.record p.1 p.2))).2.kind = .accumulator := m3
  have hper : (runOps (mkStream P .accumulator)
      (inputs.map (fun p => StreamOp.record p.1 p.2))).2.periodicity = P := m4
  have hc : streamCounter (mkStream P .accumulator) = 0 := rfl
  have hnext : (runOps (mkStream P .accumulator)
      (inputs.map (fun p => StreamOp.record p.1 p.2))).2.nextAccPeriod =
      (runOps (mkStream P .accumulator)
        (inputs.map (fun p => StreamOp.record p.1 p.2))).1.length := by
    rw [← streamCounter_accumulator _ hkind, m2, hc]
    exact Nat.zero_add _
  have hclose : closeStream (runOps (mkStream P .accumulator)
      (inputs.map (fun p => StreamOp.record p.1 p.2))).2 E =
      emitAccPeriodsBefore (runOps (mkStream P .accumulator)
        (inputs.map (fun p => StreamOp.record p.1 p.2))).2 ⌊E / P⌋ := by
    unfold closeStream
    rw [hkind, hper]
  refine ⟨?_, hnext, ?_, ?_⟩
  · rw [m1, hc]
    exact (List.range_eq_range' _).symm
  · rw [hclose, emitAccPeriodsBefore_closed]
    simp only [List.map_map]
    have : ∀ k ∈ List.range'
        (runOps (mkStream P .accumulator)
          (inputs.map (fun p => StreamOp.record p.1 p.2))).2.nextAccPeriod
        (⌊E / P⌋ - ((runOps (mkStream P .accumulator)
          (inputs.map (fun p => StreamOp.record p.1 p.2))).2.nextAccPeriod : ℤ)).toNat,
        (Emission.k ∘ fun k => (⟨k, (k : ℚ) *
          (runOps (mkStream P .accumulator)
            (inputs.map (fun p => StreamOp.record p.1 p.2))).2.periodicity,
          if (runOps (mkStream P .accumulator)
            (inputs.map (fun p => StreamOp.record p.1 p.2))).2.accCurrentPeriod =
              some (k : ℤ) then
            materializeAccumulator (runOps (mkStream P .accumulator)
              (inputs.map (fun p => StreamOp.record p.1 p.2))).2.accumulatorVector
          else []⟩ : Emission)) k = id k := by
      intro k hk
      rfl
    rw [List.map_congr_left this, List.map_id]
  · intro em hm
    rw [hclose, emitAccPeriodsBefore_closed] at hm
    simp only [List.mem_map] at hm
    obtain ⟨k, hk, he⟩ := hm
    rw [List.mem_range'_1] at hk
    rw [← he]
    simp only
    omega

/-- C4 witness: the theorem applied at scenario S4 (`P = 1`, records at
`0.1` and `0.9`, close at `1.0`), together with the concrete S4 emission:
one record at boundary `0.0` with indices `[1]` and values `[5.0]`. -/
theorem accumulator_close_drains_witness :
    (0 : ℚ) < 1 ∧
    ((closeStream (recPhase (mkStream 1 .accumulator)
        [(0.1, [(1, 2)]), (0.9, [(1, 3)])]).2 1).1 = [⟨0, 0, [(1, 5)]⟩]) ∧
    (∀ em ∈ (closeStream (recPhase (mkStream 1 .accumulator)
        [(0.1, [(1, 2)]), (0.9, [(1, 3)])]).2 1).1,
      (em.k : ℤ) < ⌊(1 : ℚ) / 1⌋) := by
  refine ⟨by norm_num, ?_, (accumulator_close_drains 1 (by norm_num)
    [(0.1, [(1, 2)]), (0.9, [(1, 3)])] 1).2.2.2⟩
  have h1 : recordVector (mkStream 1 .accumulator) 0.1 [(1, 2)] =
      ([], { mkStream 1 .accumulator with
              accCurrentPeriod := some 0
              accumulatorVector := some [(1, 2)] }) := by
    norm_num [recordVector, recordAccumulatorStep, mkStream, emitAccPeriodsBefore,
      accLoopFuel, emitAccGo, accCurConsumedB]
  have h2 : recordVector
      { mkStream 1 .accumulator with
          accCurrentPeriod := some 0
          accumulatorVector := some [(1, 2)] } 0.9 [(1, 3)] =
      ([], { mkStream 1 .accumulator with
              accCurrentPeriod := some 0
              accumulatorVector := some [(1, 5)] }) := by
    norm_num [recordVector, recordAccumulatorStep, mkStream, emitAccPeriodsBefore,
      accLoopFuel, emitAccGo, accCurConsumedB, mergeAdd, mergeAddGo]
  have h3 : closeStream
      { mkStream 1 .accumulator with
          accCurrentPeriod := some 0
          accumulatorVector := some [(1, 5)] } 1 =
      ([⟨0, 0, [(1, 5)]⟩], { mkStream 1 .accumulator with nextAccPeriod := 1 }) := by
    norm_num [closeStream, mkStream, emitAccPeriodsBefore, accLoopFuel, emitAccGo,
      accCurConsumedB, materializeAccumulator]
  simp [recPhase, h1, h2, h3]

/-- C5 (confirmed): for an accumulator-kind stream with `P = 1.0`, the inputs
`record(0.5, [0], [1.0])`, `record(2.5, [0], [1.0])` followed by `close(3.0)`
emit exactly `(0.0, [0], [1.0])`, `(1.0, [], [])`, `(2.0, [0], [1.0])` in
order: the bin with no input yields a zero-length record at its boundary. -/
theorem accumulator_skipped_bin_scenario :
    runWithClose (mkStream 1 .accumulator) [(0.5, [(0, 1)]), (2.5, [(0, 1)])] 3 =
      [⟨0, 0, [(0, 1)]⟩, ⟨1, 1, []⟩, ⟨2, 2, [(0, 1)]⟩] := by
  have h1 : recordVector (mkStream 1 .accumulator) 0.5 [(0, 1)] =
      ([], { mkStream 1 .accumulator with
              accCurrentPeriod := some 0
              accumulatorVector := some [(0, 1)] }) := by
    norm_num [recordVector, recordAccumulatorStep, mkStream, emitAccPeriodsBefore,
      accLoopFuel, emitAccGo, accCurConsumedB]
  have h2 : recordVector
      { mkStream 1 .accumulator with
          accCurrentPeriod := some 0
          accumulatorVector := some [(0, 1)] } 2.5 [(0, 1)] =
      ([⟨0, 0, [(0, 1)]⟩, ⟨1, 1, []⟩],
       { mkStream 1 .accumulator with
          nextAccPeriod := 2
          accCurrentPeriod := some 2
          accumulatorVector := some [(0, 1)] }) := by
    norm_num [recordVector, recordAccumulatorStep, mkStream, emitAccPeriodsBefore,
      accLoopFuel, emitAccGo, accCurConsumedB, materializeAccumulator]
  have h3 : closeStream
      { mkStream 1 .accumulator with
          nextAccPeriod := 2
          accCurrentPeriod := some 2
          accumulatorVector := some [(0, 1)] } 3 =
      ([⟨2, 2, [(0, 1)]⟩],
       { mkStream 1 .accumulator with nextAccPeriod := 3 }) := by
    norm_num [closeStream, mkStream, emitAccPeriodsBefore, accLoopFuel, emitAccGo,
      accCurConsumedB, materializeAccumulator]
  simp [runWithClose, recPhase, h1, h2, h3]

theorem appendAll_columns :
    ∀ (rs : List AppendCall) (b : BatchBuffer),
      ((appendAll b rs).streamIds = b.streamIds ++ rs.map AppendCall.sid) ∧
      ((appendAll b rs).epochs = b.epochs ++ rs.map AppendCall.epoch) ∧
      ((appendAll b rs).indices = b.indices ++ rs.map AppendCall.idxRef) ∧
      ((appendAll b rs).values = b.values ++ rs.map AppendCall.valRef) ∧
      ((appendAll b rs).extras = b.extras.map (fun e =>
        (e.1, e.2 ++ rs.map (fun c => metaGet c.meta e.1)))) := by
  intro rs
  induction rs with
  | nil =>
    intro b
    refine ⟨by simp [appendAll], by simp [appendAll], by simp [appendAll],
      by simp [appendAll], ?_⟩
    simp [appendAll]
  | cons c rest ih =>
    intro b
    obtain ⟨i1, i2, i3, i4, i5⟩ := ih (b.append c)
    refine ⟨?_, ?_, ?_, ?_, ?_⟩
    · rw [show appendAll b (c :: rest) = appendAll (b.append c) rest from rfl, i1]
      simp [BatchBuffer.append]
    · rw [show appendAll b (c :: rest) = appendAll (b.append c) rest from rfl, i2]
      simp [BatchBuffer.append]
    · rw [show appendAll b (c :: rest) = appendAll (b.append c) rest from rfl, i3]
      simp [BatchBuffer.append]
    · rw [show appendAll b (c :: rest) = appendAll (b.append c) rest from rfl, i4]
      simp [BatchBuffer.append]
    · rw [show appendAll b (c :: rest) = appendAll (b.append c) rest from rfl, i5]
      simp only [BatchBuffer.append, List.map_map, List.map_cons]
      refine List.map_congr_left ?_
      intro e he
      simp

/-- C9 (confirmed): for every store, configured column list, capacity, and
sequence of `append` calls on a fresh `_BatchBuffer`, the rows of the batch
obtained by draining the buffer (`to_arrow_arrays`) are exactly the appended
rows in append order (hence equal as multisets as well), each row carrying
the scalar fields, the array contents, and one `meta.get(col)` cell per
configured column. -/
theorem batch_rows_match_appends (σ : Store) (cols : List String) (cap : ℕ)
    (rs : List AppendCall) :
    rowsOfColumns (toArrowArrays σ (appendAll (emptyBuffer cols cap) rs)) =
      rs.map (interpRow σ cols) := by
  obtain ⟨c1, c2, c3, c4, c5⟩ := appendAll_columns rs (emptyBuffer cols cap)
  unfold rowsOfColumns toArrowArrays
  simp only [c1, c2, c3, c4, c5]
  simp only [emptyBuffer, List.nil_append, List.map_map]
  refine List.ext_getElem (by simp) ?_
  intro i h1 h2
  have hi : i < rs.length := by
    simpa using h2
  simp only [List.getElem_map, List.getElem_range]
  unfold interpRow
  have hget : ∀ (α : Type) (f : AppendCall → α) (d : α),
      (rs.map f).getD i d = f rs[i] := by
    intro α f d
    rw [List.getD_eq_getElem?_getD, List.getElem?_map,
      List.getElem?_eq_getElem hi]
    rfl
  congr 1
  · exact hget ℕ AppendCall.sid 0
  · exact hget ℚ AppendCall.epoch 0
  · exact hget (List ℤ) (fun c => σ.ints c.idxRef) []
  · exact hget (List ℚ) (fun c => σ.rats c.valRef) []
  · refine List.map_congr_left ?_
    intro col hcol
    dsimp only [Function.comp]
    rw [List.getD_eq_getElem?_getD, List.nil_append, List.getElem?_map,
      List.getElem?_eq_getElem hi]
    rfl

/-- C2 (code bug): `_BatchBuffer.append` stores the caller's index and value
arrays without copying, so a drained batch reflects mutations made after
`append` returned.  Here array `0` holds `[1]` at append time and is mutated
to `[0]` before the drain: the produced batch row shows `[0]`, not the
append-time contents `[1]` that the specification requires the buffer to own
privately. -/
theorem batch_buffer_retains_references :
    rowsOfColumns (toArrowArrays
        ⟨fun r => if r = 0 then [0] else [], fun r => if r = 1 then [2] else []⟩
        ((emptyBuffer [] 2048).append ⟨7, 2, 0, 1, []⟩)) =
      [{ sid := 7, epoch := 2, idx := [0], vals := [2], cells := [] }] ∧
    (interpRow
        ⟨fun r => if r = 0 then [1] else [], fun r => if r = 1 then [2] else []⟩
        [] ⟨7, 2, 0, 1, []⟩).idx = [1] ∧
    ([0] : List ℤ) ≠ [1] := by
  refine ⟨rfl, rfl, by decide⟩

theorem stableInsert_eq (p : ℕ × ℚ) :
    ∀ l, stableInsert p l = List.orderedInsert (fun x y => x.1 ≤ y.1) p l := by
  intro l
  induction l with
  | nil => rfl
  | cons q rest ih =>
    show (if q.1 < p.1 then q :: stableInsert p rest else p :: q :: rest) = _
    by_cases h : q.1 < p.1
    · rw [if_pos h, ih]
      show _ = if p.1 ≤ q.1 then p :: q :: rest else
        q :: List.orderedInsert (fun x y => x.1 ≤ y.1) p rest
      rw [if_neg (by omega)]
    · rw [if_neg h]
      show _ = if p.1 ≤ q.1 then p :: q :: rest else
        q :: List.orderedInsert (fun x y => x.1 ≤ y.1) p rest
      rw [if_pos (by omega)]

theorem stableSortPairs_eq (l : List (ℕ × ℚ)) :
    stableSortPairs l = List.insertionSort (fun x y => x.1 ≤ y.1) l := by
  induction l with
  | nil => rfl
  | cons p rest ih =>
    show stableInsert p (stableSortPairs rest) = _
    rw [ih, stableInsert_eq]
    rfl

theorem stableSortPairs_perm (l : List (ℕ × ℚ)) :
    (stableSortPairs l).Perm l := by
  rw [stableSortPairs_eq]
  exact List.perm_insertionSort _ l

theorem stableSortPairs_sorted (l : List (ℕ × ℚ)) :
    (stableSortPairs l).Chain' (fun x y => x.1 ≤ y.1) := by
  rw [stableSortPairs_eq]
  haveI : IsTotal (ℕ × ℚ) (fun x y => x.1 ≤ y.1) :=
    ⟨fun a b => le_total a.1 b.1⟩
  haveI : IsTrans (ℕ × ℚ) (fun x y => x.1 ≤ y.1) :=
    ⟨fun _ _ _ hab hbc => le_trans hab hbc⟩
  exact (List.sorted_insertionSort _ l).chain'

theorem chain'_lt_of_le_nodup :
    ∀ l : List (ℕ × ℚ), l.Chain' (fun x y => x.1 ≤ y.1) →
      (l.map Prod.fst).Nodup → l.Chain' (fun x y => x.1 < y.1) := by
  intro l
  induction l with
  | nil => intro _ _; exact List.chain'_nil
  | cons p rest ih =>
    intro hle hnd
    cases rest with
    | nil => simp
    | cons q t =>
      rw [List.chain'_cons] at hle ⊢
      have hnd2 : ((q :: t).map Prod.fst).Nodup := by
        rw [List.map_cons] at hnd
        exact hnd.of_cons
      refine ⟨?_, ih hle.2 hnd2⟩
      have hmem : p.1 ∉ (q :: t).map Prod.fst := by
        rw [List.map_cons] at hnd
        exact (List.nodup_cons.mp hnd).1
      have hne : p.1 ≠ q.1 := by
        intro he
        exact hmem (by rw [List.map_cons]; exact he ▸ List.mem_cons_self _ _)
      exact lt_of_le_of_ne hle.1 hne

theorem strictlyIncreasingB_iff :
    ∀ l : List ℕ, strictlyIncreasingB l = true ↔ l.Chain' (· < ·) := by
  intro l
  induction l with
  | nil => simp [strictlyIncreasingB]
  | cons a rest ih =>
    cases rest with
    | nil => simp [strictlyIncreasingB]
    | cons b t =>
      show (decide (a < b) && strictlyIncreasingB (b :: t)) = true ↔ _
      rw [List.chain'_cons, Bool.and_eq_true, decide_eq_true_eq, ih]

theorem pairsStrictIncB_iff :
    ∀ l : List (ℕ × ℚ), pairsStrictIncB l = true ↔
      l.Chain' (fun x y => x.1 < y.1) := by
  intro l
  induction l with
  | nil => simp [pairsStrictIncB]
  | cons p rest ih =>
    cases rest with
    | nil => simp [pairsStrictIncB]
    | cons q t =>
      show (decide (p.1 < q.1) && pairsStrictIncB (q :: t)) = true ↔ _
      rw [List.chain'_cons, Bool.and_eq_true, decide_eq_true_eq, ih]

theorem strictlyIncreasingB_short (l : List ℕ) (h : l.length ≤ 1) :
    strictlyIncreasingB l = true := by
  cases l with
  | nil => rfl
  | cons a rest =>
    cases rest with
    | nil => rfl
    | cons b t => simp at h

theorem stableInsert_of_chain (p : ℕ × ℚ) (l : List (ℕ × ℚ))
    (h : List.Chain' (fun x y => x.1 ≤ y.1) (p :: l)) :
    stableInsert p l = p :: l := by
  cases l with
  | nil => rfl
  | cons q rest =>
    show (if q.1 < p.1 then q :: stableInsert p rest else p :: q :: rest) = _
    rw [if_neg (by
      have := (List.chain'_cons.mp h).1
      omega)]

theorem stableSortPairs_of_sorted :
    ∀ l : List (ℕ × ℚ), List.Chain' (fun x y => x.1 ≤ y.1) l →
      stableSortPairs l = l := by
  intro l
  induction l with
  | nil =>
    intro _
    rfl
  | cons p rest ih =>
    intro h
    show stableInsert p (stableSortPairs rest) = p :: rest
    rw [ih h.tail]
    exact stableInsert_of_chain p rest h

/-- C10 (corrected; original claim refuted by `record_unsorted_raises`): a
`record` call whose indices are not strictly increasing (with indices and
values of equal length) behaves exactly as recording the `(index, value)`
pairs stably sorted by index: the two calls return the same result ---
same emissions and same state on success, and the same error when the call
raises.  The original "no error is raised" part is false: `from_coo`
without a `dup_op` rejects duplicate indices, and on an accumulator stream
the `+=` into an open bin of a different size raises `DimensionMismatch`.
-/
theorem record_sorts_unsorted_input (s : PeriodicStreamS) (e : ℚ)
    (indices : List ℕ) (values : List ℚ)
    (hlen : indices.length = values.length)
    (hunsorted : strictlyIncreasingB indices = false) :
    recordArraysS s e indices values =
      recordArraysS s e
        ((stableSortPairs (indices.zip values)).map Prod.fst)
        ((stableSortPairs (indices.zip values)).map Prod.snd) := by
  have hlen2 : 1 < indices.length := by
    by_contra hc
    push_neg at hc
    rw [strictlyIncreasingB_short indices (by omega)] at hunsorted
    cases hunsorted
  have hidem : stableSortPairs (stableSortPairs (indices.zip values)) =
      stableSortPairs (indices.zip values) :=
    stableSortPairs_of_sorted _ (stableSortPairs_sorted _)
  have hzip : ((stableSortPairs (indices.zip values)).map Prod.fst).zip
      ((stableSortPairs (indices.zip values)).map Prod.snd) =
      stableSortPairs (indices.zip values) := by
    have h := List.zip_unzip (stableSortPairs (indices.zip values))
    rw [List.unzip_eq_map] at h
    exact h
  have hL : recordArraysS s e indices values =
      (match fromCoo (stableSortPairs (indices.zip values)) with
       | none => .error "duplicate indices require a dup_op"
       | some vec => recordVectorS s e
           (cooSize ((stableSortPairs (indices.zip values)).map Prod.fst),
            vec)) := by
    unfold recordArraysS
    rw [if_neg (by omega : ¬ indices.length ≠ values.length)]
    dsimp only
    rw [if_pos ⟨hlen2, hunsorted⟩]
  have hR : recordArraysS s e
      ((stableSortPairs (indices.zip values)).map Prod.fst)
      ((stableSortPairs (indices.zip values)).map Prod.snd) =
      (match fromCoo (stableSortPairs (indices.zip values)) with
       | none => .error "duplicate indices require a dup_op"
       | some vec => recordVectorS s e
           (cooSize ((stableSortPairs (indices.zip values)).map Prod.fst),
            vec)) := by
    unfold recordArraysS
    rw [if_neg (by simp)]
    dsimp only
    rw [hzip]
    by_cases hcond : 1 <
        ((stableSortPairs (indices.zip values)).map Prod.fst).length ∧
        strictlyIncreasingB
          ((stableSortPairs (indices.zip values)).map Prod.fst) = false
    · rw [if_pos hcond, hidem]
    · rw [if_neg hcond]
  rw [hL, hR]

/-- C10 witness: the theorem applied to `record(0, [2, 1], [5, 6])` on a
fresh state stream, whose stable sort is `[1, 2] / [6, 5]`. -/
theorem record_sorts_unsorted_input_witness :
    (([2, 1] : List ℕ).length = ([5, 6] : List ℚ).length ∧
      strictlyIncreasingB [2, 1] = false) ∧
    (recordArraysS (mkStreamS 1 .state) 0 [2, 1] [5, 6] =
      recordArraysS (mkStreamS 1 .state) 0
        ((stableSortPairs ([2, 1].zip ([5, 6] : List ℚ))).map Prod.fst)
        ((stableSortPairs ([2, 1].zip ([5, 6] : List ℚ))).map Prod.snd)) :=
  ⟨⟨rfl, rfl⟩,
   record_sorts_unsorted_input (mkStreamS 1 .state) 0 [2, 1] [5, 6] rfl rfl⟩

/-- C10 counterexample: two `record` calls with non-strictly-increasing
indices that raise, refuting the original claim that no error is raised.
With duplicate indices (`[0, 0]`) `from_coo` without a `dup_op` raises; and
on an accumulator stream whose open bin holds a size-1 vector (from
`record(0.1, [0], [1])`), `record(0.2, [2, 1], [5, 6])` builds a size-3
vector and the `+=` raises `DimensionMismatch`. -/
theorem record_unsorted_raises :
    (strictlyIncreasingB [0, 0] = false ∧
      recordArraysS (mkStreamS 1 .state) 0 [0, 0] [1, 2] =
        .error "duplicate indices require a dup_op") ∧
    (strictlyIncreasingB [2, 1] = false ∧
      recordArraysS (mkStreamS 1 .accumulator) 0.1 [0] [1] =
        .ok ([], { periodicity := 1
                   kind := .accumulator
                   nextStatePeriod := 0
                   stateVector := none
                   nextAccPeriod := 0
                   accCurrentPeriod := some 0
                   accumulatorVector := some (1, [(0, 1)]) }) ∧
      recordArraysS { periodicity := 1
                      kind := .accumulator
                      nextStatePeriod := 0
                      stateVector := none
                      nextAccPeriod := 0
                      accCurrentPeriod := some 0
                      accumulatorVector := some (1, [(0, 1)]) }
          0.2 [2, 1] [5, 6] = .error "DimensionMismatch") := by
  refine ⟨⟨rfl, by decide⟩, rfl, ?_, ?_⟩
  · norm_num [recordArraysS, strictlyIncreasingB, cooSize, fromCoo,
      pairsStrictIncB, recordVectorS, recordAccumulatorStepS, mkStreamS,
      emitAccPeriodsBeforeS, accLoopFuel, emitAccGoS, materializeAccumulatorS]
  · norm_num [recordArraysS, strictlyIncreasingB, stableSortPairs,
      stableInsert, cooSize, fromCoo, pairsStrictIncB, recordVectorS,
      recordAccumulatorStepS, emitAccPeriodsBeforeS, accLoopFuel,
      emitAccGoS, materializeAccumulatorS]

theorem waitGo_no_deadline_never_false (doneAt : ℕ → ℕ → Bool) (backoff : ℕ) :
    ∀ (fuel : ℕ) (pending : List ℕ) (now : ℕ),
      waitGo doneAt backoff none fuel pending now ≠ some false := by
  intro fuel
  induction fuel with
  | zero =>
    intro pending now h
    cases h
  | succ fuel ih =>
    intro pending now
    unfold waitGo
    by_cases h1 : (pending.filter (fun p => !doneAt p now)).isEmpty
    · rw [if_pos h1]
      simp
    · rw [if_neg h1]
      simp only [Option.map_none', Option.getD_none, Bool.false_eq_true, if_false]
      exact ih _ _

theorem waitGo_never_done (doneAt : ℕ → ℕ → Bool) (backoff : ℕ) (p : ℕ)
    (hp : ∀ t, doneAt p t = false) :
    ∀ (fuel : ℕ) (pending : List ℕ) (now : ℕ), p ∈ pending →
      waitGo doneAt backoff none fuel pending now = none := by
  intro fuel
  induction fuel with
  | zero => intro pending now _; rfl
  | succ fuel ih =>
    intro pending now hmem
    unfold waitGo
    have hmem2 : p ∈ pending.filter (fun q => !doneAt q now) := by
      rw [List.mem_filter]
      exact ⟨hmem, by rw [hp now]; rfl⟩
    have hne : ¬ (pending.filter (fun q => !doneAt q now)).isEmpty := by
      rw [List.isEmpty_iff]
      intro hq
      rw [hq] at hmem2
      cases hmem2
    rw [if_neg hne]
    simp only [Option.map_none', Option.getD_none, Bool.false_eq_true, if_false]
    exact ih _ _ hmem2

/-- C8 (corrected; original claim refuted by
`collect_default_timeout_returns_false`): when `collect` is invoked with
`timeout=None` the wait has no deadline --- no poll budget makes it return
`false`, and while some selected directory lacks its `_DONE` marker it polls
forever (the model stays pending at every budget).  Invoked without an
explicit timeout argument, however, `collect` uses the default
`timeout = 60_000` ms, which is a finite deadline. -/
theorem collect_no_timeout_waits (dirs : List LoggerDir)
    (rule : Option (LabelMap → Bool)) (columns : List String) (backoff : ℤ) :
    (∀ (fuel : ℕ) (r : Bool × List OutRow),
      collectModel dirs rule columns backoff none fuel = some (.ok r) →
      r.1 = true) ∧
    (∀ p ∈ dedupFirst (((dirs.flatMap (fun d =>
          d.streams.map (fun m => (d.path, m)))).filter
        (fun q => selectedBy rule q.2)).map Prod.fst),
      ((dirFor dirs p).map LoggerDir.hasDone).getD false = false →
      ∀ fuel, collectModel dirs rule columns backoff none fuel = none) := by
  constructor
  · intro fuel r hr
    unfold collectModel at hr
    by_cases hsel : ((dirs.flatMap (fun d =>
        d.streams.map (fun m => (d.path, m)))).filter
        (fun q => selectedBy rule q.2)).isEmpty
    · rw [if_pos hsel] at hr
      cases hr
      rfl
    · rw [if_neg hsel] at hr
      dsimp only at hr
      rcases hw : waitForDone (fun p _ =>
          ((dirFor dirs p).map LoggerDir.hasDone).getD false)
          (dedupFirst (List.map Prod.fst ((dirs.flatMap (fun d =>
            d.streams.map (fun m => (d.path, m)))).filter
            (fun q => selectedBy rule q.2)))) backoff none fuel with
        hwv | hwb
      · rw [hw] at hr
        cases hr
      · rw [hw] at hr
        cases hwb with
        | false =>
          exfalso
          unfold waitForDone at hw
          by_cases hp : (dedupFirst (List.map Prod.fst ((dirs.flatMap (fun d =>
              d.streams.map (fun m => (d.path, m)))).filter
              (fun q => selectedBy rule q.2)))).isEmpty
          · rw [if_pos hp] at hw
            cases hw
          · rw [if_neg hp] at hw
            exact waitGo_no_deadline_never_false _ _ fuel _ 0 hw
        | true =>
          rcases hd : decodeAllDirs dirs ((dirs.flatMap (fun d =>
              d.streams.map (fun m => (d.path, m)))).filter
              (fun q => selectedBy rule q.2)) (dedupFirst columns)
              (dedupFirst (List.map Prod.fst ((dirs.flatMap (fun d =>
                d.streams.map (fun m => (d.path, m)))).filter
                (fun q => selectedBy rule q.2)))) with he | hrows
          · rw [hd] at hr
            cases hr
          · rw [hd] at hr
            cases hr
            rfl
  · intro p hp hdone fuel
    unfold collectModel
    have hsel : ¬ ((dirs.flatMap (fun d =>
        d.streams.map (fun m => (d.path, m)))).filter
        (fun q => selectedBy rule q.2)).isEmpty := by
      intro hq
      rw [List.isEmpty_iff] at hq
      rw [hq] at hp
      cases hp
    rw [if_neg hsel]
    dsimp only
    have hw : waitForDone (fun q _ =>
        ((dirFor dirs q).map LoggerDir.hasDone).getD false)
        (dedupFirst (List.map Prod.fst ((dirs.flatMap (fun d =>
          d.streams.map (fun m => (d.path, m)))).filter
          (fun q => selectedBy rule q.2)))) backoff none fuel = none := by
      unfold waitForDone
      have hpne : ¬ (dedupFirst (List.map Prod.fst ((dirs.flatMap (fun d =>
          d.streams.map (fun m => (d.path, m)))).filter
          (fun q => selectedBy rule q.2)))).isEmpty := by
        rw [List.isEmpty_iff]
        intro hq
        rw [hq] at hp
        cases hp
      rw [if_neg hpne]
      exact waitGo_never_done _ _ p (fun _ => hdone) fuel _ 0 hp
    rw [hw]

/-- C8 witness: the amended theorem applied to one selected directory whose
marker is absent: with `timeout=None` the collect model is still polling
after five budget units. -/
theorem collect_no_timeout_waits_witness :
    collectModel [⟨0, [⟨1, some 1, some 1, []⟩], [], false⟩] none [] 100 none 5 =
      none := by
  refine (collect_no_timeout_waits
    [⟨0, [⟨1, some 1, some 1, []⟩], [], false⟩] none [] 100).2 0 ?_ ?_ 5
  · decide
  · decide

set_option maxRecDepth 40000 in
/-- C8 counterexample: `collect`'s `timeout` parameter defaults to
`60_000` ms, not to no deadline, so a call that omits the timeout argument
returns `false` once the deadline passes (here after 601 polls at the
default backoff of 100 ms), refuting the original claim that omitting the
timeout waits forever. -/
theorem collect_default_timeout_returns_false :
    collectTimeoutDefault = some 60000 ∧
    collectBackoffDefault = 100 ∧
    collectModel [⟨0, [⟨1, some 1, some 1, []⟩], [], false⟩] none []
      collectBackoffDefault collectTimeoutDefault 601 = some (.ok (false, [])) := by
  refine ⟨rfl, rfl, ?_⟩
  decide

theorem mem_dedupFirst_aux {α : Type} [DecidableEq α] :
    ∀ (l : List α) (acc : List α) (x : α),
      x ∈ l.foldl (fun acc y => if y ∈ acc then acc else acc ++ [y]) acc ↔
        x ∈ acc ∨ x ∈ l := by
  intro l
  induction l with
  | nil => intro acc x; simp
  | cons y t ih =>
    intro acc x
    show x ∈ t.foldl _ (if y ∈ acc then acc else acc ++ [y]) ↔ _
    rw [ih]
    by_cases hy : y ∈ acc
    · rw [if_pos hy]
      constructor
      · rintro (h | h)
        · exact .inl h
        · exact .inr (List.mem_cons_of_mem _ h)
      · rintro (h | h)
        · exact .inl h
        · rcases List.mem_cons.mp h with he | ht
          · exact .inl (he ▸ hy)
          · exact .inr ht
    · rw [if_neg hy]
      constructor
      · rintro (h | h)
        · rcases List.mem_append.mp h with ha | hb
          · exact .inl ha
          · rcases List.mem_singleton.mp hb with rfl
            exact .inr (List.mem_cons_self _ _)
        · exact .inr (List.mem_cons_of_mem _ h)
      · rintro (h | h)
        · exact .inl (List.mem_append.mpr (.inl h))
        · rcases List.mem_cons.mp h with rfl | ht
          · exact .inl (List.mem_append.mpr (.inr (List.mem_singleton.mpr rfl)))
          · exact .inr ht

theorem mem_dedupFirst {α : Type} [DecidableEq α] (l : List α) (x : α) :
    x ∈ dedupFirst l ↔ x ∈ l := by
  unfold dedupFirst
  rw [mem_dedupFirst_aux]
  simp

theorem dirFor_mem {dirs : List LoggerDir} {p : ℕ} {d : LoggerDir}
    (h : dirFor dirs p = some d) : d ∈ dirs ∧ d.path = p := by
  refine ⟨List.mem_of_find?_eq_some h, ?_⟩
  have := List.find?_some h
  simpa using this

theorem dirFor_of_mem :
    ∀ (dirs : List LoggerDir), (dirs.map LoggerDir.path).Nodup →
      ∀ d ∈ dirs, dirFor dirs d.path = some d := by
  intro dirs
  induction dirs with
  | nil => intro _ d hd; cases hd
  | cons d0 rest ih =>
    intro hnd d hd
    rw [List.map_cons, List.nodup_cons] at hnd
    rcases List.mem_cons.mp hd with rfl | hdr
    · unfold dirFor
      rw [List.find?_cons_of_pos _ (by simp)]
    · have hne : d0.path ≠ d.path := by
        intro he
        exact hnd.1 (he ▸ List.mem_map_of_mem LoggerDir.path hdr)
      unfold dirFor
      rw [List.find?_cons_of_neg _ (by simpa using hne)]
      exact ih hnd.2 d hdr

theorem mem_allStreams (dirs : List LoggerDir) (p : ℕ) (m : StreamMeta) :
    (p, m) ∈ dirs.flatMap (fun d => d.streams.map (fun m => (d.path, m))) ↔
      ∃ d ∈ dirs, d.path = p ∧ m ∈ d.streams := by
  rw [List.mem_flatMap]
  constructor
  · rintro ⟨d, hd, hm⟩
    rw [List.mem_map] at hm
    obtain ⟨m2, hm2, he⟩ := hm
    injection he with h1 h2
    exact ⟨d, hd, h1, h2 ▸ hm2⟩
  · rintro ⟨d, hd, rfl, hm⟩
    exact ⟨d, hd, List.mem_map_of_mem _ hm⟩

theorem decodeLogger_missing_iff (d : LoggerDir) (ids : List ℕ)
    (cols : List String) :
    (∃ sid, decodeLogger d ids cols = .error (.missingScales sid)) ↔
      (¬ ids.isEmpty ∧ ∃ m ∈ d.streams,
        (m.epochScale.isNone || m.valueScale.isNone) = true) := by
  unfold decodeLogger
  by_cases hids : ids.isEmpty
  · rw [if_pos hids]
    simp [hids]
  · rw [if_neg hids]
    by_cases hstr : d.streams.isEmpty
    · rw [if_pos hstr]
      rw [List.isEmpty_iff] at hstr
      simp [hstr]
    · rw [if_neg hstr]
      rcases hf : d.streams.find?
          (fun m => m.epochScale.isNone || m.valueScale.isNone) with _ | m
      · have hnone := List.find?_eq_none.mp hf
        unfold scalePairsCheck
        rw [hf]
        constructor
        · rintro ⟨sid, hsid⟩
          cases hsid
        · rintro ⟨-, m, hm, hmiss⟩
          exact absurd hmiss (by simpa using hnone m hm)
      · unfold scalePairsCheck
        rw [hf]
        constructor
        · rintro ⟨sid, -⟩
          exact ⟨hids, m, List.mem_of_find?_eq_some hf,
            by simpa using List.find?_some hf⟩
        · rintro -
          exact ⟨m.streamId, rfl⟩

theorem decodeLogger_ok_or_missing (d : LoggerDir) (ids : List ℕ)
    (cols : List String) (hmeta : ¬ ids.isEmpty → ¬ d.streams.isEmpty) :
    (∃ rows, decodeLogger d ids cols = .ok rows) ∨
    (∃ sid, decodeLogger d ids cols = .error (.missingScales sid)) := by
  unfold decodeLogger
  by_cases hids : ids.isEmpty
  · rw [if_pos hids]
    exact .inl ⟨[], rfl⟩
  · rw [if_neg hids, if_neg (hmeta hids)]
    rcases hf : d.streams.find?
        (fun m => m.epochScale.isNone || m.valueScale.isNone) with _ | m
    · unfold scalePairsCheck
      rw [hf]
      exact .inl ⟨_, rfl⟩
    · unfold scalePairsCheck
      rw [hf]
      exact .inr ⟨m.streamId, rfl⟩

theorem decodeAllDirs_missing_iff (dirs : List LoggerDir)
    (selected : List (ℕ × StreamMeta)) (cols : List String) :
    ∀ plist : List ℕ,
      (∀ p ∈ plist, ∀ d, dirFor dirs p = some d →
        ¬ ((selected.filter (fun q => q.1 == p)).map
            (fun q => q.2.streamId)).isEmpty →
        ¬ d.streams.isEmpty) →
      ((∃ sid, decodeAllDirs dirs selected cols plist =
          .error (.missingScales sid)) ↔
        (∃ p ∈ plist, ∃ d, dirFor dirs p = some d ∧
          ¬ ((selected.filter (fun q => q.1 == p)).map
              (fun q => q.2.streamId)).isEmpty ∧
          ∃ m ∈ d.streams,
            (m.epochScale.isNone || m.valueScale.isNone) = true)) := by
  intro plist
  induction plist with
  | nil =>
    intro _
    simp [decodeAllDirs]
  | cons p rest ih =>
    intro hmeta
    have hmeta2 : ∀ q ∈ rest, ∀ d, dirFor dirs q = some d →
        ¬ ((selected.filter (fun r => r.1 == q)).map
            (fun r => r.2.streamId)).isEmpty →
        ¬ d.streams.isEmpty :=
      fun q hq => hmeta q (List.mem_cons_of_mem _ hq)
    unfold decodeAllDirs
    dsimp only
    split
    · rename_i hdir
      rw [ih hmeta2]
      constructor
      · rintro ⟨q, hq, hrest⟩
        exact ⟨q, List.mem_cons_of_mem _ hq, hrest⟩
      · rintro ⟨q, hq, d2, hd2, hrest⟩
        rcases List.mem_cons.mp hq with rfl | hq2
        · rw [hdir] at hd2
          cases hd2
        · exact ⟨q, hq2, d2, hd2, hrest⟩
    · rename_i d hdir
      have hokm := decodeLogger_ok_or_missing d
        ((selected.filter (fun q => q.1 == p)).map (fun q => q.2.streamId))
        cols (fun hne => hmeta p (List.mem_cons_self _ _) d hdir hne)
      split
      · rename_i e herr
        cases e with
        | missingScales sid =>
          constructor
          · rintro -
            obtain ⟨hne, m, hm, hmiss⟩ :=
              (decodeLogger_missing_iff d _ cols).mp ⟨sid, herr⟩
            exact ⟨p, List.mem_cons_self _ _, d, hdir, hne, m, hm, hmiss⟩
          · rintro -
            exact ⟨sid, rfl⟩
        | noMetadata q =>
          exfalso
          rcases hokm with ⟨rows, hok⟩ | ⟨sid2, hsid⟩
          · rw [hok] at herr
            cases herr
          · rw [hsid] at herr
            cases herr
      · rename_i rows hok
        have hnomiss : ¬ (¬ ((selected.filter (fun q => q.1 == p)).map
            (fun q => q.2.streamId)).isEmpty ∧
            ∃ m ∈ d.streams,
              (m.epochScale.isNone || m.valueScale.isNone) = true) := by
          intro hq
          obtain ⟨sid2, hsid⟩ := (decodeLogger_missing_iff d _ cols).mpr hq
          rw [hsid] at hok
          cases hok
        have hdest : (∃ q ∈ p :: rest, ∃ d2, dirFor dirs q = some d2 ∧
            ¬ ((selected.filter (fun r => r.1 == q)).map
                (fun r => r.2.streamId)).isEmpty ∧
            ∃ m ∈ d2.streams,
              (m.epochScale.isNone || m.valueScale.isNone) = true) →
            ∃ q ∈ rest, ∃ d2, dirFor dirs q = some d2 ∧
              ¬ ((selected.filter (fun r => r.1 == q)).map
                  (fun r => r.2.streamId)).isEmpty ∧
              ∃ m ∈ d2.streams,
                (m.epochScale.isNone || m.valueScale.isNone) = true := by
          rintro ⟨q, hq, d2, hd2, hne2, hmiss2⟩
          rcases List.mem_cons.mp hq with rfl | hq2
          · rw [hdir] at hd2
            injection hd2 with hd2e
            subst hd2e
            exact absurd ⟨hne2, hmiss2⟩ hnomiss
          · exact ⟨q, hq2, d2, hd2, hne2, hmiss2⟩
        split
        · rename_i e2 hrec
          constructor
          · rintro ⟨sid, hsid⟩
            injection hsid with hsid2
            subst hsid2
            obtain ⟨q, hq, hrest⟩ := (ih hmeta2).mp ⟨sid, hrec⟩
            exact ⟨q, List.mem_cons_of_mem _ hq, hrest⟩
          · intro hfull
            obtain ⟨sid, hsid⟩ := (ih hmeta2).mpr (hdest hfull)
            rw [hrec] at hsid
            injection hsid with hsid2
            exact ⟨sid, by rw [hsid2]⟩
        · rename_i rows2 hrec
          constructor
          · rintro ⟨sid, hsid⟩
            cases hsid
          · intro hfull
            exfalso
            obtain ⟨sid, hsid⟩ := (ih hmeta2).mpr (hdest hfull)
            rw [hrec] at hsid
            cases hsid

theorem waitForDone_all_done (doneAt : ℕ → ℕ → Bool) (paths : List ℕ)
    (backoff : ℤ) (timeout : Option ℤ) (f : ℕ)
    (h : ∀ p ∈ paths, doneAt p 0 = true) :
    waitForDone doneAt paths backoff timeout (f + 1) = some true := by
  unfold waitForDone
  by_cases hp : paths.isEmpty
  · rw [if_pos hp]
  · rw [if_neg hp]
    unfold waitGo
    have hfil : paths.filter (fun p => !doneAt p 0) = [] := by
      rw [List.filter_eq_nil]
      intro a ha
      simp [h a ha]
    simp [hfil]

/-- C7: during `collect`, with distinct directory paths, done markers on
every selected directory, and at least one waiter poll, the run raises
`missing scales` exactly when some directory that contains a selected stream
has ANY descriptor (selected or not) lacking a scale — the validation covers
every descriptor of the directory, not just the selected ones. -/
theorem collect_missing_scales_iff
    (dirs : List LoggerDir) (rule : Option (LabelMap → Bool))
    (cols : List String) (backoff : ℤ) (timeout : Option ℤ) (fuel : ℕ)
    (hnd : (dirs.map LoggerDir.path).Nodup)
    (hdone : ∀ d ∈ dirs, (∃ m ∈ d.streams, selectedBy rule m = true) →
      d.hasDone = true)
    (hfuel : fuel ≠ 0) :
    (∃ sid, collectModel dirs rule cols backoff timeout fuel =
        some (.error (.missingScales sid))) ↔
      ∃ d ∈ dirs, (∃ m ∈ d.streams, selectedBy rule m = true) ∧
        ∃ m ∈ d.streams,
          (m.epochScale.isNone || m.valueScale.isNone) = true := by
  obtain ⟨f, rfl⟩ := Nat.exists_eq_succ_of_ne_zero hfuel
  by_cases hsel : (dirs.flatMap (fun d => d.streams.map (fun m =>
      (d.path, m)))).filter (fun q => selectedBy rule q.2) = []
  · constructor
    · rintro ⟨sid, hsid⟩
      simp [collectModel, hsel] at hsid
    · rintro ⟨d, hd, ⟨m0, hm0, hm0sel⟩, -⟩
      exfalso
      have hmem : (d.path, m0) ∈ (dirs.flatMap (fun d => d.streams.map
          (fun m => (d.path, m)))).filter (fun q => selectedBy rule q.2) :=
        List.mem_filter.mpr ⟨(mem_allStreams dirs d.path m0).mpr
          ⟨d, hd, rfl, hm0⟩, hm0sel⟩
      rw [hsel] at hmem
      cases hmem
  · have hselne : ¬ ((dirs.flatMap (fun d => d.streams.map (fun m =>
        (d.path, m)))).filter (fun q => selectedBy rule q.2)).isEmpty = true := by
      simpa [List.isEmpty_iff] using hsel
    have hpaths : ∀ p ∈ dedupFirst (((dirs.flatMap (fun d => d.streams.map
        (fun m => (d.path, m)))).filter (fun q => selectedBy rule q.2)).map
          Prod.fst),
        ∃ d, dirFor dirs p = some d ∧ d ∈ dirs ∧
          ∃ m ∈ d.streams, selectedBy rule m = true := by
      intro p hp
      rw [mem_dedupFirst] at hp
      obtain ⟨⟨p2, m2⟩, hq, hqp⟩ := List.mem_map.mp hp
      obtain ⟨hqall, hqsel⟩ := List.mem_filter.mp hq
      obtain ⟨d, hd, hdp, hmd⟩ := (mem_allStreams dirs p2 m2).mp hqall
      have hp2 : p2 = p := hqp
      subst hp2
      refine ⟨d, ?_, hd, m2, hmd, hqsel⟩
      have hdir := dirFor_of_mem dirs hnd d hd
      rw [hdp] at hdir
      exact hdir
    have hwait : waitForDone (fun p _ => ((dirFor dirs p).map
        LoggerDir.hasDone).getD false)
        (dedupFirst (((dirs.flatMap (fun d => d.streams.map (fun m =>
          (d.path, m)))).filter (fun q => selectedBy rule q.2)).map Prod.fst))
        backoff timeout (f + 1) = some true := by
      apply waitForDone_all_done
      intro p hp
      obtain ⟨d, hdir, hd, hselstream⟩ := hpaths p hp
      rw [hdir]
      simp [hdone d hd hselstream]
    have hmeta : ∀ p ∈ dedupFirst (((dirs.flatMap (fun d => d.streams.map
        (fun m => (d.path, m)))).filter (fun q => selectedBy rule q.2)).map
          Prod.fst), ∀ d, dirFor dirs p = some d →
        ¬ ((((dirs.flatMap (fun d => d.streams.map (fun m =>
            (d.path, m)))).filter (fun q => selectedBy rule q.2)).filter
            (fun q => q.1 == p)).map (fun q => q.2.streamId)).isEmpty →
        ¬ d.streams.isEmpty := by
      intro p hp d hdir hne
      rcases hfe : ((dirs.flatMap (fun d => d.streams.map (fun m =>
          (d.path, m)))).filter (fun q => selectedBy rule q.2)).filter
          (fun q => q.1 == p) with _ | ⟨⟨p2, m2⟩, t⟩
      · rw [hfe] at hne
        simp at hne
      · have hq : (p2, m2) ∈ ((dirs.flatMap (fun d => d.streams.map (fun m =>
            (d.path, m)))).filter (fun q => selectedBy rule q.2)).filter
            (fun q => q.1 == p) := by
          rw [hfe]
          exact List.mem_cons_self _ _
        obtain ⟨hqs, hqp⟩ := List.mem_filter.mp hq
        have hp2 : p2 = p := by simpa using hqp
        subst hp2
        obtain ⟨hqall, -⟩ := List.mem_filter.mp hqs
        obtain ⟨d2, hd2, hd2p, hmd2⟩ := (mem_allStreams dirs p2 m2).mp hqall
        have hdir2 := dirFor_of_mem dirs hnd d2 hd2
        rw [hd2p, hdir] at hdir2
        injection hdir2 with hde
        subst hde
        intro hemp
        rw [List.isEmpty_iff] at hemp
        rw [hemp] at hmd2
        cases hmd2
    have hiff := decodeAllDirs_missing_iff dirs
      ((dirs.flatMap (fun d => d.streams.map (fun m =>
        (d.path, m)))).filter (fun q => selectedBy rule q.2))
      (dedupFirst cols)
      (dedupFirst (((dirs.flatMap (fun d => d.streams.map (fun m =>
        (d.path, m)))).filter (fun q => selectedBy rule q.2)).map Prod.fst))
      hmeta
    have bridgeR : (∃ p ∈ dedupFirst (((dirs.flatMap (fun d =>
        d.streams.map (fun m => (d.path, m)))).filter
          (fun q => selectedBy rule q.2)).map Prod.fst), ∃ d,
        dirFor dirs p = some d ∧
        ¬ ((((dirs.flatMap (fun d => d.streams.map (fun m =>
            (d.path, m)))).filter (fun q => selectedBy rule q.2)).filter
            (fun q => q.1 == p)).map (fun q => q.2.streamId)).isEmpty ∧
        ∃ m ∈ d.streams,
          (m.epochScale.isNone || m.valueScale.isNone) = true) ↔
        (∃ d ∈ dirs, (∃ m ∈ d.streams, selectedBy rule m = true) ∧
          ∃ m ∈ d.streams,
            (m.epochScale.isNone || m.valueScale.isNone) = true) := by
      constructor
      · rintro ⟨p, hp, d, hdir, hne, m, hm, hmiss⟩
        rcases hfe : ((dirs.flatMap (fun d => d.streams.map (fun m =>
            (d.path, m)))).filter (fun q => selectedBy rule q.2)).filter
            (fun q => q.1 == p) with _ | ⟨⟨p2, m2⟩, t⟩
        · rw [hfe] at hne
          simp at hne
        · have hq : (p2, m2) ∈ ((dirs.flatMap (fun d => d.streams.map
              (fun m => (d.path, m)))).filter
              (fun q => selectedBy rule q.2)).filter (fun q => q.1 == p) := by
            rw [hfe]
            exact List.mem_cons_self _ _
          obtain ⟨hqs, hqp⟩ := List.mem_filter.mp hq
          have hp2 : p2 = p := by simpa using hqp
          subst hp2
          obtain ⟨hqall, hqsel⟩ := List.mem_filter.mp hqs
          obtain ⟨d2, hd2, hd2p, hmd2⟩ := (mem_allStreams dirs p2 m2).mp hqall
          have hdir2 := dirFor_of_mem dirs hnd d2 hd2
          rw [hd2p, hdir] at hdir2
          injection hdir2 with hde
          subst hde
          exact ⟨d, (dirFor_mem hdir).1, ⟨m2, hmd2, hqsel⟩, m, hm, hmiss⟩
      · rintro ⟨d, hd, ⟨m0, hm0, hm0sel⟩, m, hm, hmiss⟩
        refine ⟨d.path, ?_, d, dirFor_of_mem dirs hnd d hd, ?_, m, hm, hmiss⟩
        · rw [mem_dedupFirst]
          exact List.mem_map_of_mem Prod.fst (List.mem_filter.mpr
            ⟨(mem_allStreams dirs d.path m0).mpr ⟨d, hd, rfl, hm0⟩, hm0sel⟩)
        · have hmemf : (d.path, m0) ∈ ((dirs.flatMap (fun d =>
              d.streams.map (fun m => (d.path, m)))).filter
              (fun q => selectedBy rule q.2)).filter
              (fun q => q.1 == d.path) :=
            List.mem_filter.mpr ⟨List.mem_filter.mpr ⟨(mem_allStreams dirs
              d.path m0).mpr ⟨d, hd, rfl, hm0⟩, hm0sel⟩, by simp⟩
          intro hemp
          rw [List.isEmpty_iff, List.map_eq_nil] at hemp
          rw [hemp] at hmemf
          cases hmemf
    rcases hdec : decodeAllDirs dirs
        ((dirs.flatMap (fun d => d.streams.map (fun m =>
          (d.path, m)))).filter (fun q => selectedBy rule q.2))
        (dedupFirst cols)
        (dedupFirst (((dirs.flatMap (fun d => d.streams.map (fun m =>
          (d.path, m)))).filter (fun q => selectedBy rule q.2)).map Prod.fst))
        with e | rows
    · have hcm : collectModel dirs rule cols backoff timeout (f + 1) =
          some (.error e) := by
        simp only [collectModel]
        rw [if_neg hselne, hwait, hdec]
      constructor
      · rintro ⟨sid, hsid⟩
        rw [hcm] at hsid
        injection hsid with hsid2
        injection hsid2 with hsid3
        exact bridgeR.mp (hiff.mp ⟨sid, by rw [hdec, hsid3]⟩)
      · intro hrhs
        obtain ⟨sid, hsid⟩ := hiff.mpr (bridgeR.mpr hrhs)
        rw [hdec] at hsid
        injection hsid with hsid2
        exact ⟨sid, by rw [hcm, hsid2]⟩
    · have hcm : collectModel dirs rule cols backoff timeout (f + 1) =
          some (.ok (true, rows)) := by
        simp only [collectModel]
        rw [if_neg hselne, hwait, hdec]
      constructor
      · rintro ⟨sid, hsid⟩
        rw [hcm] at hsid
        injection hsid with hsid2
        cases hsid2
      · intro hrhs
        exfalso
        obtain ⟨sid, hsid⟩ := hiff.mpr (bridgeR.mpr hrhs)
        rw [hdec] at hsid
        cases hsid

/-- Witness: on a concrete directory with a selected stream and a second,
unselected descriptor missing its epoch scale, `collect` raises. -/
theorem collect_missing_scales_iff_witness :
    ∃ sid, collectModel [⟨0, [⟨1, some 1, some 1, [("keep", "y")]⟩,
        ⟨2, none, some 1, []⟩], [], true⟩]
      (some (fun lb => lb.contains ("keep", "y"))) [] 100 (some 60000) 1 =
      some (.error (.missingScales sid)) :=
  (collect_missing_scales_iff
      [⟨0, [⟨1, some 1, some 1, [("keep", "y")]⟩, ⟨2, none, some 1, []⟩],
        [], true⟩]
      (some (fun lb => lb.contains ("keep", "y"))) [] 100 (some 60000) 1
      (by simp)
      (by
        intro d hd hsel2
        rcases List.mem_singleton.mp hd with rfl
        rfl)
      (by simp)).mpr
    ⟨⟨0, [⟨1, some 1, some 1, [("keep", "y")]⟩, ⟨2, none, some 1, []⟩],
        [], true⟩,
      List.mem_singleton.mpr rfl,
      ⟨⟨1, some 1, some 1, [("keep", "y")]⟩, by simp, rfl⟩,
      ⟨2, none, some 1, []⟩, by simp, rfl⟩

/-- Counterexample to the original C7 sentence: stream 2 is NOT selected by
the rule (and the selected stream 1 has both scales), yet `collect` raises
`missing scales` for stream 2 — unselected metadata does cause the error. -/
theorem collect_missing_scales_unselected :
    (selectedBy (some (fun lb => lb.contains ("keep", "y")))
        ⟨2, none, some 1, []⟩ = false) ∧
    (selectedBy (some (fun lb => lb.contains ("keep", "y")))
        ⟨1, some 1, some 1, [("keep", "y")]⟩ = true) ∧
    collectModel [⟨0, [⟨1, some 1, some 1, [("keep", "y")]⟩,
        ⟨2, none, some 1, []⟩], [], true⟩]
      (some (fun lb => lb.contains ("keep", "y"))) [] 100 (some 60000) 1 =
      some (.error (.missingScales 2)) :=
  ⟨rfl, rfl, rfl⟩

theorem getLastD_map_cons {α β : Type} (f : α → β) (x : α) (l : List α)
    (d : β) :
    (((x :: l).getLast?).map f).getD d = ((l.getLast?).map f).getD (f x) := by
  induction l with
  | nil => rfl
  | cons b t ih =>
    rw [List.getLast?_cons_cons]
    rcases h : (b :: t).getLast? with _ | y
    · have hs : (b :: t).getLast?.isSome = true :=
        List.getLast?_isSome.mpr (by simp)
      rw [h] at hs
      cases hs
    · rfl

theorem stateTarget_le_close (P e E : ℚ) (hP : 0 < P) (he : e ≤ E) :
    stateTarget P e false ≤ stateTarget P E true := by
  show (⌈e / P⌉).toNat ≤ (⌊E / P⌋ + 1).toNat
  have h1 : ⌈e / P⌉ ≤ ⌈E / P⌉ := Int.ceil_le_ceil (by gcongr)
  have h2 : ⌈E / P⌉ ≤ ⌊E / P⌋ + 1 := Int.ceil_le_floor_add_one _
  omega

theorem le_boundary_of_target_le (P e : ℚ) (hP : 0 < P) (k : ℕ)
    (h : stateTarget P e false ≤ k) : e ≤ (k : ℚ) * P := by
  have h2 : ⌈e / P⌉ ≤ (k : ℤ) := by
    have h3 : (⌈e / P⌉).toNat ≤ k := h
    omega
  have h4 : e / P ≤ ((k : ℤ) : ℚ) := Int.ceil_le.mp h2
  rw [div_le_iff₀ hP] at h4
  exact_mod_cast h4

theorem boundary_lt_of_lt_target (P e : ℚ) (hP : 0 < P) (k : ℕ)
    (h : k < stateTarget P e false) : (k : ℚ) * P < e := by
  refine (boundary_lt_iff P e hP k).mpr ?_
  have h3 : k < (⌈e / P⌉).toNat := h
  omega

theorem state_run_from (P E : ℚ) (hP : 0 < P) :
    ∀ (rest : List (ℚ × SparseVec)) (v₀ : SparseVec) (s : PeriodicStream),
      s.kind = RKind.state → s.periodicity = P → s.stateVector = some v₀ →
      List.Chain' (fun a b => a.1 ≤ b.1) rest →
      (∀ p ∈ rest, p.1 ≤ E) →
      (recPhase s rest).1 ++ (closeStream (recPhase s rest).2 E).1 =
        (List.range' s.nextStatePeriod
            (stateTarget P E true - s.nextStatePeriod)).map
          (fun k => ⟨k, (k : ℚ) * P,
            (((rest.filter (fun p => p.1 ≤ (k : ℚ) * P)).getLast?).map
              Prod.snd).getD v₀⟩) := by
  intro rest
  induction rest with
  | nil =>
    intro v₀ s hk hp hv _ _
    have hP' : 0 < s.periodicity := by rw [hp]; exact hP
    have hc := emitStateUpTo_closed s hP' v₀ hv E true
    show ([] : List Emission) ++ (closeStream s E).1 = _
    rw [List.nil_append]
    simp only [closeStream, hk, hc, hp]
    rfl
  | cons x rest' ih =>
    intro v₀ s hk hp hv hmono hle
    obtain ⟨e₁, v₁⟩ := x
    have hP' : 0 < s.periodicity := by rw [hp]; exact hP
    have hc := emitStateUpTo_closed s hP' v₀ hv e₁ false
    have hrec : recordVector s e₁ v₁ =
        ((List.range' s.nextStatePeriod
            (stateTarget P e₁ false - s.nextStatePeriod)).map
          (fun k => ⟨k, (k : ℚ) * P, v₀⟩),
         { s with
            nextStatePeriod := max s.nextStatePeriod (stateTarget P e₁ false)
            stateVector := some v₁ }) := by
      simp only [recordVector, hk, recordStateStep, hc, hp]
    have hT1le : stateTarget P e₁ false ≤ stateTarget P E true :=
      stateTarget_le_close P e₁ E hP (hle _ (List.mem_cons_self _ _))
    have hrest_mono : List.Chain' (fun a b => a.1 ≤ b.1) rest' := hmono.tail
    have hrest_le : ∀ p ∈ rest', p.1 ≤ E :=
      fun p hp2 => hle p (List.mem_cons_of_mem _ hp2)
    have hhead : ∀ q ∈ rest', e₁ ≤ q.1 := by
      haveI : IsTrans (ℚ × SparseVec) (fun a b => a.1 ≤ b.1) :=
        ⟨fun a b c h1 h2 => le_trans h1 h2⟩
      have hpw := List.chain'_iff_pairwise.mp hmono
      exact fun q hq => (List.pairwise_cons.mp hpw).1 q hq
    have hih := ih v₁ (recordVector s e₁ v₁).2
      (by rw [hrec]; exact hk) (by rw [hrec]; exact hp)
      (by rw [hrec]) hrest_mono hrest_le
    rw [hrec] at hih
    dsimp only at hih
    simp only [recPhase]
    rw [hrec]
    dsimp only
    rw [List.append_assoc, hih]
    have hsplit : List.range' s.nextStatePeriod
        (stateTarget P E true - s.nextStatePeriod) =
        List.range' s.nextStatePeriod
          (max s.nextStatePeriod (stateTarget P e₁ false) -
            s.nextStatePeriod) ++
        List.range' (max s.nextStatePeriod (stateTarget P e₁ false))
          (stateTarget P E true -
            max s.nextStatePeriod (stateTarget P e₁ false)) := by
      have h := List.range'_append_1 s.nextStatePeriod
        (max s.nextStatePeriod (stateTarget P e₁ false) - s.nextStatePeriod)
        (stateTarget P E true - max s.nextStatePeriod (stateTarget P e₁ false))
      rw [show s.nextStatePeriod +
          (max s.nextStatePeriod (stateTarget P e₁ false) -
            s.nextStatePeriod) =
          max s.nextStatePeriod (stateTarget P e₁ false) from by omega] at h
      rw [show stateTarget P E true - s.nextStatePeriod =
          (stateTarget P E true -
            max s.nextStatePeriod (stateTarget P e₁ false)) +
          (max s.nextStatePeriod (stateTarget P e₁ false) -
            s.nextStatePeriod) from by omega]
      exact h.symm
    rw [hsplit, List.map_append]
    congr 1
    · rw [show max s.nextStatePeriod (stateTarget P e₁ false) -
          s.nextStatePeriod =
          stateTarget P e₁ false - s.nextStatePeriod from by omega]
      refine List.map_congr_left ?_
      intro k hkmem
      rw [List.mem_range'_1] at hkmem
      have hklt : k < stateTarget P e₁ false := by omega
      have hblt : (k : ℚ) * P < e₁ := boundary_lt_of_lt_target P e₁ hP k hklt
      have hfil : ((e₁, v₁) :: rest').filter
          (fun p => p.1 ≤ (k : ℚ) * P) = [] := by
        rw [List.filter_eq_nil]
        intro q hq
        simp only [decide_eq_true_eq]
        rcases List.mem_cons.mp hq with rfl | hq2
        · exact not_le.mpr hblt
        · exact not_le.mpr (lt_of_lt_of_le hblt (hhead q hq2))
      rw [hfil]
      rfl
    · refine List.map_congr_left ?_
      intro k hkmem
      rw [List.mem_range'_1] at hkmem
      have hkge : stateTarget P e₁ false ≤ k := by omega
      have hble : e₁ ≤ (k : ℚ) * P := le_boundary_of_target_le P e₁ hP k hkge
      have hfil : ((e₁, v₁) :: rest').filter
          (fun p => p.1 ≤ (k : ℚ) * P) =
          (e₁, v₁) :: rest'.filter (fun p => p.1 ≤ (k : ℚ) * P) :=
        List.filter_cons_of_pos (by simpa using hble)
      rw [hfil, getLastD_map_cons]

/-- C1: a state-kind run with monotone record epochs all at most the close
epoch emits, once any measurement exists, one record per boundary `k * P`
for EVERY `k` with `0 ≤ k * P ≤ E` — including boundaries that precede the
first measurement — each carrying the last measurement at or before the
boundary (the first measurement when none precedes it); with no input,
nothing is emitted. -/
theorem state_run_characterization (P E : ℚ)
    (inputs : List (ℚ × SparseVec)) (hP : 0 < P)
    (hmono : List.Chain' (fun a b => a.1 ≤ b.1) inputs)
    (hle : ∀ p ∈ inputs, p.1 ≤ E) :
    runWithClose (mkStream P RKind.state) inputs E =
      (List.range (if inputs.isEmpty then 0 else stateTarget P E true)).map
        (fun k => ⟨k, (k : ℚ) * P, latchedAt P inputs k⟩) := by
  cases inputs with
  | nil =>
    simp [runWithClose, recPhase, closeStream, emitStateUpTo, mkStream]
  | cons x rest =>
    obtain ⟨e₁, v₁⟩ := x
    have hstep : recordVector (mkStream P RKind.state) e₁ v₁ =
        ([], { mkStream P RKind.state with stateVector := some v₁ }) := rfl
    have hgen := state_run_from P E hP rest v₁
      { mkStream P RKind.state with stateVector := some v₁ }
      rfl rfl rfl hmono.tail
      (fun p hp2 => hle p (List.mem_cons_of_mem _ hp2))
    have hhead : ∀ q ∈ rest, e₁ ≤ q.1 := by
      haveI : IsTrans (ℚ × SparseVec) (fun a b => a.1 ≤ b.1) :=
        ⟨fun a b c h1 h2 => le_trans h1 h2⟩
      have hpw := List.chain'_iff_pairwise.mp hmono
      exact fun q hq => (List.pairwise_cons.mp hpw).1 q hq
    simp only [runWithClose, recPhase]
    rw [hstep]
    dsimp only
    rw [List.nil_append, hgen]
    dsimp only at hgen ⊢
    rw [show ((e₁, v₁) :: rest).isEmpty = false from rfl]
    rw [if_neg (by simp)]
    rw [List.range_eq_range']
    refine List.map_congr_left ?_
    intro k _
    by_cases hcase : e₁ ≤ (k : ℚ) * P
    · have hfil : ((e₁, v₁) :: rest).filter
          (fun p => p.1 ≤ (k : ℚ) * P) =
          (e₁, v₁) :: rest.filter (fun p => p.1 ≤ (k : ℚ) * P) :=
        List.filter_cons_of_pos (by simpa using hcase)
      unfold latchedAt
      rw [hfil]
      have hor : (((e₁, v₁) :: rest.filter
          (fun p => p.1 ≤ (k : ℚ) * P)).getLast?).or
            ((e₁, v₁) :: rest).head? =
          ((e₁, v₁) :: rest.filter (fun p => p.1 ≤ (k : ℚ) * P)).getLast? := by
        rcases h : ((e₁, v₁) :: rest.filter
            (fun p => p.1 ≤ (k : ℚ) * P)).getLast? with _ | y
        · have hs := List.getLast?_isSome.mpr
            (List.cons_ne_nil (e₁, v₁) (rest.filter
              (fun p => p.1 ≤ (k : ℚ) * P)))
          rw [h] at hs
          cases hs
        · rfl
      rw [hor]
      rw [show (((e₁, v₁) :: rest.filter
          (fun p => p.1 ≤ (k : ℚ) * P)).getLast?.map Prod.snd).getD [] =
          ((rest.filter (fun p => p.1 ≤ (k : ℚ) * P)).getLast?.map
            Prod.snd).getD v₁ from getLastD_map_cons Prod.snd (e₁, v₁) _ []]
    · have hfil : ((e₁, v₁) :: rest).filter
          (fun p => p.1 ≤ (k : ℚ) * P) = [] := by
        rw [List.filter_eq_nil]
        intro q hq
        simp only [decide_eq_true_eq]
        rcases List.mem_cons.mp hq with rfl | hq2
        · exact hcase
        · exact fun hclaim =>
            hcase (le_trans (hhead q hq2) hclaim)
      have hfil2 : rest.filter (fun p => p.1 ≤ (k : ℚ) * P) = [] := by
        rw [List.filter_eq_nil]
        intro q hq2
        simp only [decide_eq_true_eq]
        exact fun hclaim => hcase (le_trans (hhead q hq2) hclaim)
      unfold latchedAt
      rw [hfil, hfil2]
      rfl

/-- Witness: the main characterization applied to the concrete S3 run
(`P = 1`, `record(0.4, [5], [4.0])`, `close(2.0)`). -/
theorem state_run_characterization_witness :
    runWithClose (mkStream 1 RKind.state) [((0.4 : ℚ), [(5, 4)])] 2 =
      (List.range (if ([((0.4 : ℚ), ([(5, 4)] : SparseVec))] :
          List (ℚ × SparseVec)).isEmpty then 0 else stateTarget 1 2 true)).map
        (fun k => ⟨k, (k : ℚ) * 1, latchedAt 1 [((0.4 : ℚ), [(5, 4)])] k⟩) :=
  state_run_characterization 1 2 [((0.4 : ℚ), [(5, 4)])] (by norm_num)
    (List.chain'_singleton _)
    (by
      intro p hp
      rcases List.mem_singleton.mp hp with rfl
      norm_num)

/-- Counterexample to the original C1 sentence: the S3 run emits THREE
records, at boundaries 0.0, 1.0 and 2.0 (the 0.0 boundary precedes the only
measurement's epoch 0.4, yet it is emitted, carrying that measurement), not
the two records the claim predicts. -/
theorem state_s3_three_records :
    runWithClose (mkStream 1 RKind.state) [((0.4 : ℚ), [(5, 4)])] 2 =
      [⟨0, 0, [(5, 4)]⟩, ⟨1, 1, [(5, 4)]⟩, ⟨2, 2, [(5, 4)]⟩] ∧
    (runWithClose (mkStream 1 RKind.state) [((0.4 : ℚ), [(5, 4)])] 2).length ≠
      2 := by
  have h1 : recordVector (mkStream 1 RKind.state) (0.4 : ℚ) [(5, 4)] =
      ([], { mkStream 1 RKind.state with stateVector := some [(5, 4)] }) := rfl
  have h2 : closeStream
      { mkStream 1 RKind.state with stateVector := some [(5, 4)] } 2 =
      ([⟨0, 0, [(5, 4)]⟩, ⟨1, 1, [(5, 4)]⟩, ⟨2, 2, [(5, 4)]⟩],
       { mkStream 1 RKind.state with
          stateVector := some [(5, 4)], nextStatePeriod := 3 }) := by
    norm_num [closeStream, emitStateUpTo, stateLoopFuel, emitStateGo,
      mkStream]
  have h3 : runWithClose (mkStream 1 RKind.state) [((0.4 : ℚ), [(5, 4)])] 2 =
      [⟨0, 0, [(5, 4)]⟩, ⟨1, 1, [(5, 4)]⟩, ⟨2, 2, [(5, 4)]⟩] := by
    simp [runWithClose, recPhase, h1, h2]
  refine ⟨h3, ?_⟩
  rw [h3]
  simp

theorem lookup_cons (i n : ℕ) (v : ℚ) (t : SparseVec) :
    lookupVal i ((n, v) :: t) = if n = i then v else lookupVal i t := by
  unfold lookupVal
  by_cases h : n = i
  · rw [List.find?_cons_of_pos _ (by simp [h])]
    simp [h]
  · rw [List.find?_cons_of_neg _ (by simp [h])]
    simp [h]

theorem lookup_eq_zero_of_not_mem (i : ℕ) (v : SparseVec)
    (h : i ∉ svIndices v) : lookupVal i v = 0 := by
  unfold lookupVal
  rw [List.find?_eq_none.mpr]
  · rfl
  · intro q hq
    simp only [beq_iff_eq]
    intro he
    exact h (he ▸ List.mem_map_of_mem Prod.fst hq)

theorem svSorted_head_lt (p : ℕ × ℚ) (t : SparseVec)
    (h : svSorted (p :: t)) : ∀ q ∈ t, p.1 < q.1 := by
  haveI : IsTrans (ℕ × ℚ) (fun a b => a.1 < b.1) :=
    ⟨fun a b c h1 h2 => lt_trans h1 h2⟩
  have hpw := List.chain'_iff_pairwise.mp h
  exact (List.pairwise_cons.mp hpw).1

theorem mergeAddGo_mem : ∀ (fuel : ℕ) (xs ys : SparseVec) (i : ℕ),
    i ∈ svIndices (mergeAddGo fuel xs ys) ↔
      i ∈ svIndices xs ∨ i ∈ svIndices ys := by
  intro fuel
  induction fuel with
  | zero =>
    intro xs ys i
    show i ∈ svIndices (xs ++ ys) ↔ i ∈ svIndices xs ∨ i ∈ svIndices ys
    simp [svIndices]
  | succ f ih =>
    intro xs ys i
    rcases xs with _ | ⟨⟨i₀, a⟩, xs⟩
    · cases ys with
      | nil =>
        rw [show mergeAddGo (f + 1) ([] : SparseVec) [] = [] from rfl]
        simp [svIndices]
      | cons y t =>
        rw [show mergeAddGo (f + 1) [] (y :: t) = y :: t from rfl]
        simp [svIndices]
    · rcases ys with _ | ⟨⟨j₀, b⟩, ys⟩
      · rw [show mergeAddGo (f + 1) ((i₀, a) :: xs) [] = (i₀, a) :: xs
          from rfl]
        simp [svIndices]
      · rw [show mergeAddGo (f + 1) ((i₀, a) :: xs) ((j₀, b) :: ys) =
            if i₀ < j₀ then (i₀, a) :: mergeAddGo f xs ((j₀, b) :: ys)
            else if j₀ < i₀ then (j₀, b) :: mergeAddGo f ((i₀, a) :: xs) ys
            else (i₀, a + b) :: mergeAddGo f xs ys from rfl]
        rcases lt_trichotomy i₀ j₀ with h1 | h1 | h1
        · rw [if_pos h1]
          have hih := ih xs ((j₀, b) :: ys) i
          simp only [svIndices, List.map_cons, List.mem_cons] at hih ⊢
          rw [hih]
          tauto
        · subst h1
          rw [if_neg (lt_irrefl _), if_neg (lt_irrefl _)]
          have hih := ih xs ys i
          simp only [svIndices, List.map_cons, List.mem_cons] at hih ⊢
          rw [hih]
          tauto
        · rw [if_neg (by omega), if_pos h1]
          have hih := ih ((i₀, a) :: xs) ys i
          simp only [svIndices, List.map_cons, List.mem_cons] at hih ⊢
          rw [hih]
          tauto

theorem mergeAdd_mem (xs ys : SparseVec) (i : ℕ) :
    i ∈ svIndices (mergeAdd xs ys) ↔
      i ∈ svIndices xs ∨ i ∈ svIndices ys :=
  mergeAddGo_mem _ xs ys i

theorem mergeAddGo_lookup : ∀ (fuel : ℕ) (xs ys : SparseVec),
    xs.length + ys.length ≤ fuel → svSorted xs → svSorted ys → ∀ i,
    lookupVal i (mergeAddGo fuel xs ys) = lookupVal i xs + lookupVal i ys := by
  intro fuel
  induction fuel with
  | zero =>
    intro xs ys h _ _ i
    have hx : xs = [] := List.length_eq_zero.mp (by omega)
    have hy : ys = [] := List.length_eq_zero.mp (by omega)
    subst hx; subst hy
    show lookupVal i ([] ++ []) = lookupVal i [] + lookupVal i []
    simp [lookupVal]
  | succ f ih =>
    intro xs ys h hxs hys i
    rcases xs with _ | ⟨⟨i₀, a⟩, xs⟩
    · cases ys with
      | nil =>
        rw [show mergeAddGo (f + 1) ([] : SparseVec) [] = [] from rfl]
        simp [lookupVal]
      | cons y t =>
        rw [show mergeAddGo (f + 1) [] (y :: t) = y :: t from rfl]
        simp [lookupVal]
    · rcases ys with _ | ⟨⟨j₀, b⟩, ys⟩
      · rw [show mergeAddGo (f + 1) ((i₀, a) :: xs) [] = (i₀, a) :: xs
          from rfl]
        simp [lookupVal]
      · have hxs2 : svSorted xs := hxs.tail
        have hys2 : svSorted ys := hys.tail
        have hxb := svSorted_head_lt _ _ hxs
        have hyb := svSorted_head_lt _ _ hys
        have hlen : xs.length + ((j₀, b) :: ys).length ≤ f := by
          simp only [List.length_cons] at h ⊢
          omega
        have hlen2 : ((i₀, a) :: xs).length + ys.length ≤ f := by
          simp only [List.length_cons] at h ⊢
          omega
        have hlen3 : xs.length + ys.length ≤ f := by
          simp only [List.length_cons] at h
          omega
        have hzxs : ∀ m : ℕ, m ≤ i₀ → lookupVal m xs = 0 := by
          intro m hm
          refine lookup_eq_zero_of_not_mem _ _ ?_
          intro hmem
          obtain ⟨q, hq, hqe⟩ := List.mem_map.mp hmem
          have := hxb q hq
          omega
        have hzys : ∀ m : ℕ, m ≤ j₀ → lookupVal m ys = 0 := by
          intro m hm
          refine lookup_eq_zero_of_not_mem _ _ ?_
          intro hmem
          obtain ⟨q, hq, hqe⟩ := List.mem_map.mp hmem
          have := hyb q hq
          omega
        rw [show mergeAddGo (f + 1) ((i₀, a) :: xs) ((j₀, b) :: ys) =
            if i₀ < j₀ then (i₀, a) :: mergeAddGo f xs ((j₀, b) :: ys)
            else if j₀ < i₀ then (j₀, b) :: mergeAddGo f ((i₀, a) :: xs) ys
            else (i₀, a + b) :: mergeAddGo f xs ys from rfl]
        rcases lt_trichotomy i₀ j₀ with h1 | h1 | h1
        · rw [if_pos h1]
          by_cases he : i₀ = i
          · subst he
            rw [lookup_cons i₀ i₀ a (mergeAddGo f xs ((j₀, b) :: ys)),
              if_pos rfl, lookup_cons i₀ i₀ a xs, if_pos rfl,
              lookup_cons i₀ j₀ b ys, if_neg (by omega),
              hzys i₀ (by omega)]
            ring
          · rw [lookup_cons i i₀ a (mergeAddGo f xs ((j₀, b) :: ys)),
              if_neg he, ih xs ((j₀, b) :: ys) hlen hxs2 hys i,
              lookup_cons i i₀ a xs, if_neg he]
        · subst h1
          rw [if_neg (lt_irrefl _), if_neg (lt_irrefl _)]
          by_cases he : i₀ = i
          · subst he
            rw [lookup_cons i₀ i₀ (a + b) (mergeAddGo f xs ys), if_pos rfl,
              lookup_cons i₀ i₀ a xs, if_pos rfl,
              lookup_cons i₀ i₀ b ys, if_pos rfl]
          · rw [lookup_cons i i₀ (a + b) (mergeAddGo f xs ys), if_neg he,
              ih xs ys hlen3 hxs2 hys2 i,
              lookup_cons i i₀ a xs, if_neg he,
              lookup_cons i i₀ b ys, if_neg he]
        · rw [if_neg (by omega), if_pos h1]
          by_cases he : j₀ = i
          · subst he
            rw [lookup_cons j₀ j₀ b (mergeAddGo f ((i₀, a) :: xs) ys),
              if_pos rfl, lookup_cons j₀ i₀ a xs, if_neg (by omega),
              hzxs j₀ (by omega), lookup_cons j₀ j₀ b ys, if_pos rfl]
            ring
          · rw [lookup_cons i j₀ b (mergeAddGo f ((i₀, a) :: xs) ys),
              if_neg he, ih ((i₀, a) :: xs) ys hlen2 hxs hys2 i,
              lookup_cons i j₀ b ys, if_neg he]

theorem mergeAdd_lookup (xs ys : SparseVec) (hxs : svSorted xs)
    (hys : svSorted ys) (i : ℕ) :
    lookupVal i (mergeAdd xs ys) = lookupVal i xs + lookupVal i ys :=
  mergeAddGo_lookup _ xs ys le_rfl hxs hys i

theorem mergeAddGo_sorted : ∀ (fuel : ℕ) (xs ys : SparseVec),
    xs.length + ys.length ≤ fuel → svSorted xs → svSorted ys →
    svSorted (mergeAddGo fuel xs ys) := by
  intro fuel
  induction fuel with
  | zero =>
    intro xs ys h _ _
    have hx : xs = [] := List.length_eq_zero.mp (by omega)
    have hy : ys = [] := List.length_eq_zero.mp (by omega)
    subst hx; subst hy
    show svSorted ([] ++ [])
    exact List.chain'_nil
  | succ f ih =>
    intro xs ys h hxs hys
    rcases xs with _ | ⟨⟨i₀, a⟩, xs⟩
    · cases ys with
      | nil =>
        rw [show mergeAddGo (f + 1) ([] : SparseVec) [] = [] from rfl]
        exact List.chain'_nil
      | cons y t =>
        rw [show mergeAddGo (f + 1) [] (y :: t) = y :: t from rfl]
        exact hys
    · rcases ys with _ | ⟨⟨j₀, b⟩, ys⟩
      · rw [show mergeAddGo (f + 1) ((i₀, a) :: xs) [] = (i₀, a) :: xs
          from rfl]
        exact hxs
      · have hxs2 : svSorted xs := hxs.tail
        have hys2 : svSorted ys := hys.tail
        have hxb := svSorted_head_lt _ _ hxs
        have hyb := svSorted_head_lt _ _ hys
        have hlen : xs.length + ((j₀, b) :: ys).length ≤ f := by
          simp only [List.length_cons] at h ⊢
          omega
        have hlen2 : ((i₀, a) :: xs).length + ys.length ≤ f := by
          simp only [List.length_cons] at h ⊢
          omega
        have hlen3 : xs.length + ys.length ≤ f := by
          simp only [List.length_cons] at h
          omega
        have hbound : ∀ (m : ℕ) (xs2 ys2 : SparseVec),
            (∀ q ∈ xs2, m < q.1) → (∀ q ∈ ys2, m < q.1) →
            ∀ q ∈ mergeAddGo f xs2 ys2, m < q.1 := by
          intro m xs2 ys2 hb1 hb2 q hq
          have hqi : q.1 ∈ svIndices (mergeAddGo f xs2 ys2) :=
            List.mem_map_of_mem Prod.fst hq
          rcases (mergeAddGo_mem f xs2 ys2 q.1).mp hqi with hm | hm
          · obtain ⟨r, hr, hre⟩ := List.mem_map.mp hm
            exact hre ▸ hb1 r hr
          · obtain ⟨r, hr, hre⟩ := List.mem_map.mp hm
            exact hre ▸ hb2 r hr
        rw [show mergeAddGo (f + 1) ((i₀, a) :: xs) ((j₀, b) :: ys) =
            if i₀ < j₀ then (i₀, a) :: mergeAddGo f xs ((j₀, b) :: ys)
            else if j₀ < i₀ then (j₀, b) :: mergeAddGo f ((i₀, a) :: xs) ys
            else (i₀, a + b) :: mergeAddGo f xs ys from rfl]
        rcases lt_trichotomy i₀ j₀ with h1 | h1 | h1
        · rw [if_pos h1]
          show List.Chain' (fun p q => p.1 < q.1)
            ((i₀, a) :: mergeAddGo f xs ((j₀, b) :: ys))
          rw [List.chain'_cons']
          refine ⟨?_, ih xs ((j₀, b) :: ys) hlen hxs2 hys⟩
          intro q hq
          refine hbound i₀ xs ((j₀, b) :: ys) hxb ?_
            q (List.mem_of_mem_head? hq)
          intro r hr
          rcases List.mem_cons.mp hr with rfl | hr2
          · exact h1
          · exact lt_trans h1 (hyb r hr2)
        · subst h1
          rw [if_neg (lt_irrefl _), if_neg (lt_irrefl _)]
          show List.Chain' (fun p q => p.1 < q.1)
            ((i₀, a + b) :: mergeAddGo f xs ys)
          rw [List.chain'_cons']
          refine ⟨?_, ih xs ys hlen3 hxs2 hys2⟩
          intro q hq
          exact hbound i₀ xs ys hxb hyb q (List.mem_of_mem_head? hq)
        · rw [if_neg (by omega), if_pos h1]
          show List.Chain' (fun p q => p.1 < q.1)
            ((j₀, b) :: mergeAddGo f ((i₀, a) :: xs) ys)
          rw [List.chain'_cons']
          refine ⟨?_, ih ((i₀, a) :: xs) ys hlen2 hxs hys2⟩
          intro q hq
          refine hbound j₀ ((i₀, a) :: xs) ys ?_ hyb q (List.mem_of_mem_head? hq)
          intro r hr
          rcases List.mem_cons.mp hr with rfl | hr2
          · exact h1
          · exact lt_trans h1 (hxb r hr2)

theorem mergeAdd_sorted (xs ys : SparseVec) (hxs : svSorted xs)
    (hys : svSorted ys) : svSorted (mergeAdd xs ys) :=
  mergeAddGo_sorted _ xs ys le_rfl hxs hys

theorem mergeAdd_nil_left (v : SparseVec) : mergeAdd [] v = v := by
  cases v <;> rfl

theorem mergeAdd_nil_right (v : SparseVec) : mergeAdd v [] = v := by
  cases v <;> rfl

theorem foldl_mergeAdd_sorted (l : List (ℚ × SparseVec)) :
    ∀ init, svSorted init → (∀ p ∈ l, svSorted p.2) →
    svSorted (l.foldl (fun a p => mergeAdd a p.2) init) := by
  induction l with
  | nil => intro init hi _; exact hi
  | cons x t ih =>
    intro init hi hl
    show svSorted (t.foldl (fun a p => mergeAdd a p.2) (mergeAdd init x.2))
    exact ih (mergeAdd init x.2)
      (mergeAdd_sorted _ _ hi (hl x (List.mem_cons_self _ _)))
      (fun p hp => hl p (List.mem_cons_of_mem _ hp))

theorem foldl_mergeAdd_lookup (l : List (ℚ × SparseVec)) :
    ∀ init, svSorted init → (∀ p ∈ l, svSorted p.2) → ∀ i,
    lookupVal i (l.foldl (fun a p => mergeAdd a p.2) init) =
      lookupVal i init + (l.map (fun p => lookupVal i p.2)).sum := by
  induction l with
  | nil => intro init _ _ i; simp
  | cons x t ih =>
    intro init hi hl i
    show lookupVal i (t.foldl (fun a p => mergeAdd a p.2)
      (mergeAdd init x.2)) = _
    rw [ih (mergeAdd init x.2)
      (mergeAdd_sorted _ _ hi (hl x (List.mem_cons_self _ _)))
      (fun p hp => hl p (List.mem_cons_of_mem _ hp)) i]
    rw [mergeAdd_lookup init x.2 hi (hl x (List.mem_cons_self _ _)) i]
    simp only [List.map_cons, List.sum_cons]
    ring

theorem foldl_mergeAdd_mem (l : List (ℚ × SparseVec)) :
    ∀ (init : SparseVec) (i : ℕ),
    i ∈ svIndices (l.foldl (fun a p => mergeAdd a p.2) init) ↔
      i ∈ svIndices init ∨ ∃ p ∈ l, i ∈ svIndices p.2 := by
  induction l with
  | nil => intro init i; simp
  | cons x t ih =>
    intro init i
    show i ∈ svIndices (t.foldl (fun a p => mergeAdd a p.2)
      (mergeAdd init x.2)) ↔ _
    rw [ih (mergeAdd init x.2) i, mergeAdd_mem init x.2 i]
    constructor
    · rintro ((h | h) | ⟨p, hp, hm⟩)
      · exact .inl h
      · exact .inr ⟨x, List.mem_cons_self _ _, h⟩
      · exact .inr ⟨p, List.mem_cons_of_mem _ hp, hm⟩
    · rintro (h | ⟨p, hp, hm⟩)
      · exact .inl (.inl h)
      · rcases List.mem_cons.mp hp with rfl | hp2
        · exact .inl (.inr hm)
        · exact .inr ⟨p, hp2, hm⟩

theorem binVec_sorted (P : ℚ) (inputs : List (ℚ × SparseVec)) (k : ℕ)
    (h : ∀ p ∈ inputs, svSorted p.2) : svSorted (binVec P inputs k) :=
  foldl_mergeAdd_sorted _ [] List.chain'_nil
    (fun p hp => h p (List.mem_of_mem_filter hp))

theorem binVec_lookup (P : ℚ) (inputs : List (ℚ × SparseVec)) (k : ℕ)
    (h : ∀ p ∈ inputs, svSorted p.2) (i : ℕ) :
    lookupVal i (binVec P inputs k) =
      ((binInputs P inputs k).map (fun p => lookupVal i p.2)).sum := by
  unfold binVec
  rw [foldl_mergeAdd_lookup (binInputs P inputs k) [] List.chain'_nil
    (fun p hp => h p (List.mem_of_mem_filter hp)) i]
  simp [lookupVal]

theorem binVec_mem (P : ℚ) (inputs : List (ℚ × SparseVec)) (k : ℕ) (i : ℕ) :
    i ∈ svIndices (binVec P inputs k) ↔
      ∃ p ∈ binInputs P inputs k, i ∈ svIndices p.2 := by
  unfold binVec
  rw [foldl_mergeAdd_mem (binInputs P inputs k) [] i]
  simp [svIndices]

theorem binVec_of_no_input (P : ℚ) (inputs : List (ℚ × SparseVec)) (k : ℕ)
    (h : binInputs P inputs k = []) : binVec P inputs k = [] := by
  unfold binVec
  rw [h]
  rfl

theorem emitAcc_cur_emissions (s : PeriodicStream) (kIn : ℤ) (c : ℤ)
    (hc : s.accCurrentPeriod = some c) :
    (emitAccPeriodsBefore s kIn).1 =
      (List.range' s.nextAccPeriod (kIn - (s.nextAccPeriod : ℤ)).toNat).map
        (fun k => ⟨k, (k : ℚ) * s.periodicity,
          if c = (k : ℤ) then
            materializeAccumulator s.accumulatorVector
          else []⟩) := by
  rw [emitAccPeriodsBefore_closed]
  dsimp only
  refine List.map_congr_left ?_
  intro k _
  rw [hc]
  by_cases he : c = (k : ℤ)
  · rw [if_pos (by rw [he]), if_pos he]
  · rw [if_neg ?_, if_neg he]
    intro hcontra
    injection hcontra with hcontra2
    exact he hcontra2

theorem emitAccPeriodsBefore_stop (s : PeriodicStream) (kIn : ℤ)
    (hk : kIn ≤ (s.nextAccPeriod : ℤ))
    (hcb : accCurConsumedB kIn s.nextAccPeriod s.accCurrentPeriod = false) :
    emitAccPeriodsBefore s kIn = ([], s) := by
  have hemit := emitAccPeriodsBefore_closed s kIn
  rw [show (kIn - (s.nextAccPeriod : ℤ)).toNat = 0 from by omega] at hemit
  rw [hemit]
  simp [hcb]

theorem recordAcc_same (s : PeriodicStream) (e : ℚ) (v : SparseVec) (c : ℤ)
    (hk : s.kind = RKind.accumulator)
    (hbin : ⌊e / s.periodicity⌋ = c)
    (hc : s.accCurrentPeriod = some c)
    (hn : s.nextAccPeriod = c.toNat) :
    (recordVector s e v).1 = [] ∧
    (recordVector s e v).2.kind = s.kind ∧
    (recordVector s e v).2.periodicity = s.periodicity ∧
    (recordVector s e v).2.nextAccPeriod = s.nextAccPeriod ∧
    (recordVector s e v).2.accCurrentPeriod = some c ∧
    materializeAccumulator (recordVector s e v).2.accumulatorVector =
      mergeAdd (materializeAccumulator s.accumulatorVector) v := by
  have hcb : accCurConsumedB c s.nextAccPeriod s.accCurrentPeriod = false := by
    rw [hc]
    simp [accCurConsumedB]
  have hstop := emitAccPeriodsBefore_stop s c (by omega) hcb
  simp only [recordVector, hk, recordAccumulatorStep, hbin, hstop]
  rw [hc]
  simp only [ne_eq, not_true_eq_false, if_false, reduceIte]
  by_cases hv : v.length = 0
  · rw [if_pos hv]
    have hv2 : v = [] := List.length_eq_zero.mp hv
    subst hv2
    refine ⟨rfl, hk, rfl, rfl, hc, ?_⟩
    rw [mergeAdd_nil_right]
  · rw [if_neg hv]
    rcases hacc : s.accumulatorVector with _ | a
    · dsimp only
      refine ⟨rfl, rfl, rfl, rfl, rfl, ?_⟩
      simp only [materializeAccumulator, hacc]
      rw [show (none : Option SparseVec).getD [] = [] from rfl,
        mergeAdd_nil_left]
      rfl
    · dsimp only
      refine ⟨rfl, rfl, rfl, rfl, rfl, ?_⟩
      simp only [materializeAccumulator, hacc]
      rfl

theorem recordAcc_advance (s : PeriodicStream) (e : ℚ) (v : SparseVec)
    (c : ℤ)
    (hk : s.kind = RKind.accumulator)
    (hbin : c < ⌊e / s.periodicity⌋)
    (hc : s.accCurrentPeriod = some c)
    (hn : s.nextAccPeriod = c.toNat) :
    (recordVector s e v).1 =
      (List.range' s.nextAccPeriod
          (⌊e / s.periodicity⌋ - (s.nextAccPeriod : ℤ)).toNat).map
        (fun k => ⟨k, (k : ℚ) * s.periodicity,
          if c = (k : ℤ) then
            materializeAccumulator s.accumulatorVector
          else []⟩) ∧
    (recordVector s e v).2.kind = s.kind ∧
    (recordVector s e v).2.periodicity = s.periodicity ∧
    (recordVector s e v).2.nextAccPeriod = (⌊e / s.periodicity⌋).toNat ∧
    (recordVector s e v).2.accCurrentPeriod = some ⌊e / s.periodicity⌋ ∧
    materializeAccumulator (recordVector s e v).2.accumulatorVector = v := by
  have hemit := emitAccPeriodsBefore_closed s ⌊e / s.periodicity⌋
  have hemis := emitAcc_cur_emissions s ⌊e / s.periodicity⌋ c hc
  by_cases hsign : 0 ≤ c
  · have hcb : accCurConsumedB ⌊e / s.periodicity⌋ s.nextAccPeriod
        s.accCurrentPeriod = true := by
      rw [hc]
      simp only [accCurConsumedB]
      rw [Bool.and_eq_true, decide_eq_true_eq, decide_eq_true_eq]
      exact ⟨by omega, hbin⟩
    simp only [recordVector, hk, recordAccumulatorStep]
    rw [hemit]
    dsimp only
    rw [hcb]
    simp only [reduceIte, ne_eq, reduceCtorEq, not_false_eq_true, if_true]
    refine ⟨?_, ?_, ?_, ?_, ?_, ?_⟩
    · first
      | trivial
      | (refine List.map_congr_left ?_
         intro k _
         rw [hc]
         by_cases he : c = (k : ℤ)
         · rw [if_pos (by rw [he]), if_pos he]
         · rw [if_neg (show ¬ (some c = some ((k : ℕ) : ℤ)) from by
             intro hcontra
             injection hcontra with h2
             exact he h2)]
           rw [if_neg he])
    · first | trivial | exact hk
    · trivial
    · first | trivial | omega
    · trivial
    · by_cases hv : v.length = 0
      · rw [if_neg (by simp [hv])]
        have hv2 : v = [] := List.length_eq_zero.mp hv
        subst hv2
        rfl
      · rw [if_pos hv]
        rfl
  · have hcb : accCurConsumedB ⌊e / s.periodicity⌋ s.nextAccPeriod
        s.accCurrentPeriod = false := by
      rw [hc]
      simp only [accCurConsumedB]
      rw [Bool.and_eq_false_iff]
      left
      rw [decide_eq_false_iff_not]
      omega
    simp only [recordVector, hk, recordAccumulatorStep]
    rw [hemit]
    dsimp only
    rw [hcb, hc]
    simp only [Bool.false_eq_true, if_false, ne_eq]
    rw [if_pos (by
      intro hcontra
      injection hcontra with hcontra2
      omega)]
    refine ⟨?_, ?_, ?_, ?_, ?_, ?_⟩
    · first
      | trivial
      | (refine List.map_congr_left ?_
         intro k _
         rw [if_neg (show ¬ (some c = some ((k : ℕ) : ℤ)) from by
           intro hcontra
           injection hcontra with hcontra2
           omega)]
         rw [if_neg (show ¬ (c = ((k : ℕ) : ℤ)) from by omega)])
    · first | trivial | exact hk
    · trivial
    · first | trivial | (dsimp only; omega)
    · trivial
    · by_cases hv : v.length = 0
      · rw [if_neg (by simp [hv])]
        have hv2 : v = [] := List.length_eq_zero.mp hv
        subst hv2
        rfl
      · rw [if_pos hv]
        rfl

theorem recordAcc_none (s : PeriodicStream) (e : ℚ) (v : SparseVec)
    (hk : s.kind = RKind.accumulator)
    (hc : s.accCurrentPeriod = none) :
    (recordVector s e v).1 =
      (List.range' s.nextAccPeriod
          (⌊e / s.periodicity⌋ - (s.nextAccPeriod : ℤ)).toNat).map
        (fun k => ⟨k, (k : ℚ) * s.periodicity, []⟩) ∧
    (recordVector s e v).2.kind = s.kind ∧
    (recordVector s e v).2.periodicity = s.periodicity ∧
    (recordVector s e v).2.nextAccPeriod =
      s.nextAccPeriod + (⌊e / s.periodicity⌋ - (s.nextAccPeriod : ℤ)).toNat ∧
    (recordVector s e v).2.accCurrentPeriod = some ⌊e / s.periodicity⌋ ∧
    materializeAccumulator (recordVector s e v).2.accumulatorVector = v := by
  have hemit := emitAccPeriodsBefore_closed s ⌊e / s.periodicity⌋
  have hcb : accCurConsumedB ⌊e / s.periodicity⌋ s.nextAccPeriod
      s.accCurrentPeriod = false := by
    rw [hc]
    rfl
  simp only [recordVector, hk, recordAccumulatorStep]
  rw [hemit]
  dsimp only
  rw [hcb, hc]
  simp only [Bool.false_eq_true, if_false, ne_eq, reduceCtorEq,
    not_false_eq_true, if_true]
  refine ⟨?_, ?_, ?_, ?_, ?_, ?_⟩
  · first
    | trivial
    | (refine List.map_congr_left ?_
       intro k _
       rw [if_neg ?_]
       intro hcontra
       cases hcontra)
  · first | trivial | exact hk
  · trivial
  · first | trivial | omega
  · trivial
  · by_cases hv : v.length = 0
    · rw [if_neg (by simp [hv])]
      have hv2 : v = [] := List.length_eq_zero.mp hv
      subst hv2
      rfl
    · rw [if_pos hv]
      rfl

theorem acc_run_from (P E : ℚ) :
    ∀ (rest : List (ℚ × SparseVec)) (s : PeriodicStream) (c : ℤ)
      (W : SparseVec),
      s.kind = RKind.accumulator → s.periodicity = P →
      s.accCurrentPeriod = some c →
      s.nextAccPeriod = c.toNat →
      materializeAccumulator s.accumulatorVector = W →
      List.Chain' (fun a b => binIndex P a.1 ≤ binIndex P b.1) rest →
      (∀ p ∈ rest, c ≤ binIndex P p.1) →
      (recPhase s rest).1 ++ (closeStream (recPhase s rest).2 E).1 =
        (List.range' c.toNat
            (max c.toNat (binMax P E rest).toNat - c.toNat)).map
          (fun k => ⟨k, (k : ℚ) * P,
            (rest.filter (fun p => binIndex P p.1 = (k : ℤ))).foldl
              (fun a p => mergeAdd a p.2)
              (if c = (k : ℤ) then W else [])⟩) := by
  intro rest
  induction rest with
  | nil =>
    intro s c W hk hp hc hn hw _ _
    show ([] : List Emission) ++ (closeStream s E).1 = _
    rw [List.nil_append]
    have hclose : (closeStream s E).1 =
        (emitAccPeriodsBefore s ⌊E / s.periodicity⌋).1 := by
      simp only [closeStream, hk]
    rw [hclose, emitAcc_cur_emissions s ⌊E / s.periodicity⌋ c hc, hp, hw, hn]
    rw [show (⌊E / P⌋ - ((c.toNat : ℕ) : ℤ)).toNat =
        max c.toNat (binMax P E []).toNat - c.toNat from by
      have hini : binMax P E [] = ⌊E / P⌋ := rfl
      omega]
    refine List.map_congr_left ?_
    intro k _
    rfl
  | cons x rest' ih =>
    intro s c W hk hp hc hn hw hmono hbins
    obtain ⟨e₁, v₁⟩ := x
    haveI : IsTrans (ℚ × SparseVec)
        (fun a b => binIndex P a.1 ≤ binIndex P b.1) :=
      ⟨fun a b c h1 h2 => le_trans h1 h2⟩
    have hpw := List.chain'_iff_pairwise.mp hmono
    have hhead : ∀ q ∈ rest', binIndex P e₁ ≤ binIndex P q.1 :=
      (List.pairwise_cons.mp hpw).1
    have hmono2 : List.Chain'
        (fun a b => binIndex P a.1 ≤ binIndex P b.1) rest' := hmono.tail
    have hheadbin : c ≤ binIndex P e₁ :=
      hbins _ (List.mem_cons_self _ _)
    have hfloor : ⌊e₁ / s.periodicity⌋ = binIndex P e₁ := by
      rw [hp]
      rfl
    have hbm : binMax P E ((e₁, v₁) :: rest') =
        max (binIndex P e₁) (binMax P E rest') := rfl
    simp only [recPhase]
    by_cases hcase : binIndex P e₁ = c
    · obtain ⟨hr1, hr2, hr3, hr4, hr5, hr6⟩ :=
        recordAcc_same s e₁ v₁ c hk (by rw [hfloor, hcase]) hc hn
      have hih := ih (recordVector s e₁ v₁).2 c (mergeAdd W v₁)
        (by rw [hr2]; exact hk) (by rw [hr3]; exact hp)
        hr5 (by rw [hr4]; exact hn) (by rw [hr6, hw])
        hmono2
        (by
          intro p hp2
          exact hcase ▸ hhead p hp2)
      rw [hr1, List.nil_append, hih, hbm, hcase]
      rw [show max c.toNat (max c (binMax P E rest')).toNat =
          max c.toNat (binMax P E rest').toNat from by omega]
      refine List.map_congr_left ?_
      intro k _
      simp only [Emission.mk.injEq, true_and]
      by_cases he : c = (k : ℤ)
      · rw [if_pos he, if_pos he,
          List.filter_cons_of_pos (by
            simp only [decide_eq_true_eq]
            rw [hcase, he])]
        rfl
      · rw [if_neg he, if_neg he,
          List.filter_cons_of_neg (by
            simp only [decide_eq_true_eq]
            rw [hcase]
            exact he)]
    · have hlt : c < binIndex P e₁ :=
        lt_of_le_of_ne hheadbin (Ne.symm hcase)
      obtain ⟨hr1, hr2, hr3, hr4, hr5, hr6⟩ :=
        recordAcc_advance s e₁ v₁ c hk (by rw [hfloor]; exact hlt) hc hn
      rw [hfloor] at hr4 hr5
      have hih := ih (recordVector s e₁ v₁).2 (binIndex P e₁) v₁
        (by rw [hr2]; exact hk) (by rw [hr3]; exact hp)
        hr5 hr4 hr6 hmono2
        (fun p hp2 => hhead p hp2)
      rw [hr1, hfloor, hp, hw, hn, List.append_assoc, hih, hbm]
      have hsplit : List.range' c.toNat
          (max c.toNat
            (max (binIndex P e₁) (binMax P E rest')).toNat -
            c.toNat) =
          List.range' c.toNat
            ((binIndex P e₁ - ((c.toNat : ℕ) : ℤ)).toNat) ++
          List.range' (binIndex P e₁).toNat
            (max (binIndex P e₁).toNat (binMax P E rest').toNat -
              (binIndex P e₁).toNat) := by
        have h := List.range'_append_1 c.toNat
          ((binIndex P e₁ - ((c.toNat : ℕ) : ℤ)).toNat)
          (max (binIndex P e₁).toNat (binMax P E rest').toNat -
            (binIndex P e₁).toNat)
        rw [show c.toNat +
            (binIndex P e₁ - ((c.toNat : ℕ) : ℤ)).toNat =
            (binIndex P e₁).toNat from by omega] at h
        rw [show max c.toNat
            (max (binIndex P e₁) (binMax P E rest')).toNat -
            c.toNat =
            (max (binIndex P e₁).toNat (binMax P E rest').toNat -
              (binIndex P e₁).toNat) +
            (binIndex P e₁ - ((c.toNat : ℕ) : ℤ)).toNat from by omega]
        exact h.symm
      rw [hsplit, List.map_append]
      congr 1
      · refine List.map_congr_left ?_
        intro k hkmem
        rw [List.mem_range'_1] at hkmem
        have hklt : (k : ℤ) < binIndex P e₁ := by omega
        simp only [Emission.mk.injEq, true_and]
        rw [show ((e₁, v₁) :: rest').filter
            (fun p => binIndex P p.1 = (k : ℤ)) = [] from by
          rw [List.filter_eq_nil]
          intro q hq
          simp only [decide_eq_true_eq]
          rcases List.mem_cons.mp hq with rfl | hq2
          · dsimp only
            omega
          · have := hhead q hq2
            omega]
        rfl
      · refine List.map_congr_left ?_
        intro k hkmem
        rw [List.mem_range'_1] at hkmem
        simp only [Emission.mk.injEq, true_and]
        have hkne : ¬ (c = (k : ℤ)) := by omega
        rw [if_neg hkne]
        by_cases he : binIndex P e₁ = (k : ℤ)
        · rw [if_pos he,
            List.filter_cons_of_pos (by
              simp only [decide_eq_true_eq]
              exact he)]
          rw [show List.foldl (fun a p => mergeAdd a p.2) []
              ((e₁, v₁) :: rest'.filter (fun p => binIndex P p.1 =
                ((k : ℕ) : ℤ))) =
              List.foldl (fun a p => mergeAdd a p.2) (mergeAdd [] v₁)
              (rest'.filter (fun p => binIndex P p.1 =
                ((k : ℕ) : ℤ))) from rfl,
            mergeAdd_nil_left]
        · rw [if_neg he,
            List.filter_cons_of_neg (by
              simp only [decide_eq_true_eq]
              exact he)]

theorem acc_run_binVec (P E : ℚ) (inputs : List (ℚ × SparseVec))
    (hP : 0 < P)
    (hmono : List.Chain' (fun a b => a.1 ≤ b.1) inputs) :
    runWithClose (mkStream P RKind.accumulator) inputs E =
      (List.range (binMax P E inputs).toNat).map
        (fun k => ⟨k, (k : ℚ) * P, binVec P inputs k⟩) := by
  have hmonoB : List.Chain'
      (fun a b => binIndex P a.1 ≤ binIndex P b.1) inputs :=
    hmono.imp (fun a b hab => Int.floor_le_floor (by gcongr))
  cases inputs with
  | nil =>
    simp only [runWithClose, recPhase]
    rw [List.nil_append]
    rw [show (closeStream (mkStream P RKind.accumulator) E).1 =
        (emitAccPeriodsBefore (mkStream P RKind.accumulator) ⌊E / P⌋).1
      from rfl]
    rw [emitAccPeriodsBefore_closed]
    dsimp only
    rw [List.range_eq_range']
    rw [show (binMax P E ([] : List (ℚ × SparseVec))).toNat =
        (⌊E / P⌋ -
          (((mkStreamS P RKind.accumulator).nextAccPeriod : ℕ) : ℤ)).toNat
      from by
        have h1 : binMax P E ([] : List (ℚ × SparseVec)) = ⌊E / P⌋ := rfl
        have h2 : (mkStreamS P RKind.accumulator).nextAccPeriod = 0 := rfl
        omega]
    refine List.map_congr_left ?_
    intro k _
    simp [mkStream, mkStreamS, binVec, binInputs]
  | cons x rest =>
    obtain ⟨e₁, v₁⟩ := x
    haveI : IsTrans (ℚ × SparseVec)
        (fun a b => binIndex P a.1 ≤ binIndex P b.1) :=
      ⟨fun a b c h1 h2 => le_trans h1 h2⟩
    have hpw := List.chain'_iff_pairwise.mp hmonoB
    have hhead : ∀ q ∈ rest, binIndex P e₁ ≤ binIndex P q.1 :=
      (List.pairwise_cons.mp hpw).1
    obtain ⟨hr1, hr2, hr3, hr4, hr5, hr6⟩ :=
      recordAcc_none (mkStream P RKind.accumulator) e₁ v₁ rfl rfl
    rw [show (mkStream P RKind.accumulator).nextAccPeriod = 0 from rfl,
      show (mkStream P RKind.accumulator).periodicity = P from rfl] at hr4
    rw [show (mkStream P RKind.accumulator).periodicity = P from rfl] at hr5
    rw [show (mkStream P RKind.accumulator).nextAccPeriod = 0 from rfl,
      show (mkStream P RKind.accumulator).periodicity = P from rfl] at hr1
    rw [show (⌊e₁ / P⌋ : ℤ) = binIndex P e₁ from rfl] at hr1 hr4 hr5
    have hn : (recordVector (mkStream P RKind.accumulator) e₁ v₁).2.nextAccPeriod =
        (binIndex P e₁).toNat := by
      rw [hr4]
      omega
    have hih := acc_run_from P E rest
      (recordVector (mkStream P RKind.accumulator) e₁ v₁).2
      (binIndex P e₁) v₁
      (by rw [hr2]; rfl) (by rw [hr3]; rfl)
      hr5 hn hr6 hmonoB.tail
      (fun p hp2 => hhead p hp2)
    simp only [runWithClose, recPhase]
    rw [hr1, List.append_assoc, hih]
    rw [List.range_eq_range']
    rw [show binMax P E ((e₁, v₁) :: rest) =
        max (binIndex P e₁) (binMax P E rest) from rfl]
    have hsplit : List.range' 0
        ((max (binIndex P e₁) (binMax P E rest)).toNat) =
        List.range' 0 ((binIndex P e₁ - ((0 : ℕ) : ℤ)).toNat) ++
        List.range' (binIndex P e₁).toNat
          (max (binIndex P e₁).toNat (binMax P E rest).toNat -
            (binIndex P e₁).toNat) := by
      have h := List.range'_append_1 0
        ((binIndex P e₁ - ((0 : ℕ) : ℤ)).toNat)
        (max (binIndex P e₁).toNat (binMax P E rest).toNat -
          (binIndex P e₁).toNat)
      rw [show 0 + (binIndex P e₁ - ((0 : ℕ) : ℤ)).toNat =
          (binIndex P e₁).toNat from by omega] at h
      rw [show (max (binIndex P e₁) (binMax P E rest)).toNat =
          (max (binIndex P e₁).toNat (binMax P E rest).toNat -
            (binIndex P e₁).toNat) +
          (binIndex P e₁ - ((0 : ℕ) : ℤ)).toNat from by omega]
      exact h.symm
    rw [hsplit, List.map_append]
    congr 1
    · refine List.map_congr_left ?_
      intro k hkmem
      rw [List.mem_range'_1] at hkmem
      have hklt : (k : ℤ) < binIndex P e₁ := by omega
      simp only [Emission.mk.injEq, true_and]
      rw [show binVec P ((e₁, v₁) :: rest) k = [] from
        binVec_of_no_input P _ k (by
          unfold binInputs
          rw [List.filter_eq_nil]
          intro q hq
          simp only [decide_eq_true_eq]
          rcases List.mem_cons.mp hq with rfl | hq2
          · dsimp only
            omega
          · have := hhead q hq2
            omega)]
    · refine List.map_congr_left ?_
      intro k hkmem
      rw [List.mem_range'_1] at hkmem
      simp only [Emission.mk.injEq, true_and]
      unfold binVec binInputs
      by_cases he : binIndex P e₁ = (k : ℤ)
      · rw [if_pos he,
          List.filter_cons_of_pos (by
            simp only [decide_eq_true_eq]
            exact he)]
        rw [show List.foldl (fun acc p => mergeAdd acc p.2) []
            ((e₁, v₁) :: rest.filter (fun p => binIndex P p.1 =
              ((k : ℕ) : ℤ))) =
            List.foldl (fun acc p => mergeAdd acc p.2) (mergeAdd [] v₁)
            (rest.filter (fun p => binIndex P p.1 =
              ((k : ℕ) : ℤ))) from rfl,
          mergeAdd_nil_left]
      · rw [if_neg he,
          List.filter_cons_of_neg (by
            simp only [decide_eq_true_eq]
            exact he)]

theorem emitAccGoS_erase (P : ℚ) (kIn : ℤ) :
    ∀ (fuel next : ℕ) (cur : Option ℤ) (acc : Option SizedVec),
      ((emitAccGoS P kIn fuel next cur acc).1 =
        (emitAccGo P kIn fuel next cur (acc.map Prod.snd)).1) ∧
      ((emitAccGoS P kIn fuel next cur acc).2.1 =
        (emitAccGo P kIn fuel next cur (acc.map Prod.snd)).2.1) ∧
      ((emitAccGoS P kIn fuel next cur acc).2.2.1 =
        (emitAccGo P kIn fuel next cur (acc.map Prod.snd)).2.2.1) ∧
      ((emitAccGoS P kIn fuel next cur acc).2.2.2.map Prod.snd =
        (emitAccGo P kIn fuel next cur (acc.map Prod.snd)).2.2.2) := by
  intro fuel
  induction fuel with
  | zero =>
    intro next cur acc
    exact ⟨rfl, rfl, rfl, rfl⟩
  | succ f ih =>
    intro next cur acc
    by_cases h : (next : ℤ) < kIn
    · simp only [emitAccGoS, emitAccGo]
      rw [if_pos h, if_pos h]
      by_cases hcur : cur = some ((next : ℕ) : ℤ)
      · rw [if_pos hcur, if_pos hcur]
        dsimp only
        obtain ⟨h1, h2, h3, h4⟩ := ih (next + 1) none none
        exact ⟨by rw [h1]; try rfl, by rw [h2]; try rfl,
          by rw [h3]; try rfl, by rw [h4]; try rfl⟩
      · rw [if_neg hcur, if_neg hcur]
        dsimp only
        obtain ⟨h1, h2, h3, h4⟩ := ih (next + 1) cur acc
        exact ⟨by rw [h1]; try rfl, by rw [h2]; try rfl,
          by rw [h3]; try rfl, by rw [h4]; try rfl⟩
    · simp only [emitAccGoS, emitAccGo]
      rw [if_neg h, if_neg h]
      exact ⟨rfl, rfl, rfl, rfl⟩

theorem emitAccPeriodsBeforeS_erase (s : PeriodicStreamS) (kIn : ℤ) :
    ((emitAccPeriodsBeforeS s kIn).1 =
      (emitAccPeriodsBefore (eraseSized s) kIn).1) ∧
    (eraseSized (emitAccPeriodsBeforeS s kIn).2 =
      (emitAccPeriodsBefore (eraseSized s) kIn).2) := by
  obtain ⟨h1, h2, h3, h4⟩ := emitAccGoS_erase s.periodicity kIn
    (accLoopFuel kIn s.nextAccPeriod) s.nextAccPeriod s.accCurrentPeriod
    s.accumulatorVector
  constructor
  · exact h1
  · simp only [emitAccPeriodsBeforeS, emitAccPeriodsBefore, eraseSized]
    rw [h2, h3, h4]

theorem emitStateUpToS_erase (s : PeriodicStreamS) (epoch : ℚ) (b : Bool) :
    ((emitStateUpToS s epoch b).1 =
      (emitStateUpTo (eraseSized s) epoch b).1) ∧
    (eraseSized (emitStateUpToS s epoch b).2 =
      (emitStateUpTo (eraseSized s) epoch b).2) := by
  rcases hsv : s.stateVector with _ | v
  · constructor <;>
      simp [emitStateUpToS, emitStateUpTo, eraseSized, hsv]
  · constructor <;>
      simp [emitStateUpToS, emitStateUpTo, eraseSized, hsv]

theorem recordVectorS_erase (s : PeriodicStreamS) (e : ℚ) (v : SizedVec)
    (r : List Emission × PeriodicStreamS)
    (h : recordVectorS s e v = .ok r) :
    (r.1 = (recordVector (eraseSized s) e v.2).1) ∧
    (eraseSized r.2 = (recordVector (eraseSized s) e v.2).2) := by
  have hke : (eraseSized s).kind = s.kind := rfl
  rcases hk : s.kind with _ | _
  · simp only [recordVectorS, hk] at h
    injection h with h2
    subst h2
    simp only [recordVector, hke, hk]
    obtain ⟨h1, h2⟩ := emitStateUpToS_erase s e false
    constructor
    · exact h1
    · show eraseSized { (emitStateUpToS s e false).2 with stateVector := some v }
        = { (emitStateUpTo (eraseSized s) e false).2 with stateVector := some v.2 }
      rw [← h2]
      rfl
  · simp only [recordVectorS, hk] at h
    simp only [recordVector, hke, hk]
    obtain ⟨hE1, hE2⟩ := emitAccPeriodsBeforeS_erase s ⌊e / s.periodicity⌋
    have hpe : ⌊e / (eraseSized s).periodicity⌋ = ⌊e / s.periodicity⌋ := rfl
    have hcureq : (emitAccPeriodsBefore (eraseSized s)
        ⌊e / s.periodicity⌋).2.accCurrentPeriod =
        (emitAccPeriodsBeforeS s ⌊e / s.periodicity⌋).2.accCurrentPeriod := by
      rw [← hE2]
      rfl
    have haccq : (emitAccPeriodsBefore (eraseSized s)
        ⌊e / s.periodicity⌋).2.accumulatorVector =
        ((emitAccPeriodsBeforeS s
          ⌊e / s.periodicity⌋).2.accumulatorVector).map Prod.snd := by
      rw [← hE2]
      rfl
    simp only [recordAccumulatorStepS] at h
    simp only [recordAccumulatorStep, hpe]
    by_cases hb1 : (emitAccPeriodsBeforeS s
        ⌊e / s.periodicity⌋).2.accCurrentPeriod = some ⌊e / s.periodicity⌋
    · rw [if_neg (by simp [hb1])] at h
      rw [if_neg (by simp [hcureq, hb1])]
      by_cases hb2 : v.2.length = 0
      · rw [if_pos hb2] at h
        rw [if_pos hb2]
        injection h with h2
        subst h2
        exact ⟨hE1, hE2⟩
      · rw [if_neg hb2] at h
        rw [if_neg hb2]
        rcases hacc : (emitAccPeriodsBeforeS s
            ⌊e / s.periodicity⌋).2.accumulatorVector with _ | a
        · rw [hacc] at h
          dsimp only at h
          rw [show (emitAccPeriodsBefore (eraseSized s)
              ⌊e / s.periodicity⌋).2.accumulatorVector = none from by
            rw [haccq, hacc]
            rfl]
          injection h with h2
          subst h2
          constructor
          · exact hE1
          · show eraseSized { (emitAccPeriodsBeforeS s
                ⌊e / s.periodicity⌋).2 with accumulatorVector := some v }
              = { (emitAccPeriodsBefore (eraseSized s)
                ⌊e / s.periodicity⌋).2 with accumulatorVector := some v.2 }
            rw [← hE2]
            rfl
        · rw [hacc] at h
          dsimp only at h
          rw [show (emitAccPeriodsBefore (eraseSized s)
              ⌊e / s.periodicity⌋).2.accumulatorVector = some a.2 from by
            rw [haccq, hacc]
            rfl]
          by_cases hsz : a.1 = v.1
          · rw [if_neg (by simp [hsz])] at h
            injection h with h2
            subst h2
            constructor
            · exact hE1
            · show eraseSized { (emitAccPeriodsBeforeS s
                  ⌊e / s.periodicity⌋).2 with
                  accumulatorVector := some (a.1, mergeAdd a.2 v.2) }
                = { (emitAccPeriodsBefore (eraseSized s)
                  ⌊e / s.periodicity⌋).2 with
                  accumulatorVector := some (mergeAdd a.2 v.2) }
              rw [← hE2]
              rfl
          · rw [if_pos (by simpa using hsz)] at h
            cases h
    · rw [if_pos hb1] at h
      rw [if_pos (by rw [hcureq]; exact hb1)]
      injection h with h2
      subst h2
      constructor
      · exact hE1
      · show eraseSized { (emitAccPeriodsBeforeS s ⌊e / s.periodicity⌋).2 with
            accCurrentPeriod := some ⌊e / s.periodicity⌋,
            accumulatorVector := if v.2.length ≠ 0 then some v else none }
          = { (emitAccPeriodsBefore (eraseSized s) ⌊e / s.periodicity⌋).2 with
            accCurrentPeriod := some ⌊e / s.periodicity⌋,
            accumulatorVector := if v.2.length ≠ 0 then some v.2 else none }
        by_cases hb2 : v.2.length = 0
        · rw [if_neg (show ¬ (v.2.length ≠ 0) from not_not_intro hb2),
            if_neg (show ¬ (v.2.length ≠ 0) from not_not_intro hb2)]
          rw [← hE2]
          rfl
        · rw [if_pos hb2, if_pos hb2]
          rw [← hE2]
          rfl

theorem recPhaseS_erase :
    ∀ (inputs : List (ℚ × SizedVec)) (s : PeriodicStreamS)
      (r : List Emission × PeriodicStreamS),
      recPhaseS s inputs = .ok r →
      (r.1 = (recPhase (eraseSized s) (unsize inputs)).1) ∧
      (eraseSized r.2 = (recPhase (eraseSized s) (unsize inputs)).2) := by
  intro inputs
  induction inputs with
  | nil =>
    intro s r h
    injection h with h2
    subst h2
    exact ⟨rfl, rfl⟩
  | cons p rest ih =>
    intro s r h
    simp only [recPhaseS] at h
    rcases hrv : recordVectorS s p.1 p.2 with err | r1
    · rw [hrv] at h
      dsimp only at h
      cases h
    · rw [hrv] at h
      dsimp only at h
      rcases hrp : recPhaseS r1.2 rest with err | r2
      · rw [hrp] at h
        dsimp only at h
        cases h
      · rw [hrp] at h
        dsimp only at h
        injection h with h2
        subst h2
        obtain ⟨hA1, hA2⟩ := recordVectorS_erase s p.1 p.2 r1 hrv
        obtain ⟨hB1, hB2⟩ := ih r1.2 r2 hrp
        rw [hA2] at hB1 hB2
        constructor
        · show r1.1 ++ r2.1 = (recPhase (eraseSized s) ((p.1, p.2.2) ::
            unsize rest)).1
          simp only [recPhase]
          rw [hA1, hB1]
        · show eraseSized r2.2 = (recPhase (eraseSized s) ((p.1, p.2.2) ::
            unsize rest)).2
          simp only [recPhase]
          rw [hB2]

theorem closeStreamS_erase (s : PeriodicStreamS) (E : ℚ) :
    (closeStreamS s E).1 = (closeStream (eraseSized s) E).1 := by
  have hke : (eraseSized s).kind = s.kind := rfl
  rcases hk : s.kind with _ | _
  · simp only [closeStreamS, closeStream, hke, hk]
    exact (emitStateUpToS_erase s E true).1
  · simp only [closeStreamS, closeStream, hke, hk]
    exact (emitAccPeriodsBeforeS_erase s ⌊E / s.periodicity⌋).1

theorem runWithCloseS_erase (s : PeriodicStreamS)
    (inputs : List (ℚ × SizedVec)) (E : ℚ) (out : List Emission)
    (h : runWithCloseS s inputs E = .ok out) :
    out = runWithClose (eraseSized s) (unsize inputs) E := by
  unfold runWithCloseS at h
  rcases hrp : recPhaseS s inputs with err | r
  · rw [hrp] at h
    cases h
  · rw [hrp] at h
    injection h with h2
    obtain ⟨hA, hB⟩ := recPhaseS_erase inputs s r hrp
    unfold runWithClose
    rw [← h2, hA, closeStreamS_erase r.2 E, hB]

theorem emitAccGoS_curacc (P : ℚ) (kIn : ℤ) :
    ∀ (fuel next : ℕ) (cur : Option ℤ) (acc : Option SizedVec),
      ((emitAccGoS P kIn fuel next cur acc).2.2.1 = cur ∧
       (emitAccGoS P kIn fuel next cur acc).2.2.2 = acc) ∨
      ((emitAccGoS P kIn fuel next cur acc).2.2.1 = none ∧
       (emitAccGoS P kIn fuel next cur acc).2.2.2 = none) := by
  intro fuel
  induction fuel with
  | zero =>
    intro next cur acc
    exact .inl ⟨rfl, rfl⟩
  | succ f ih =>
    intro next cur acc
    by_cases h : (next : ℤ) < kIn
    · simp only [emitAccGoS]
      rw [if_pos h]
      by_cases hcur : cur = some ((next : ℕ) : ℤ)
      · rw [if_pos hcur]
        dsimp only
        rcases ih (next + 1) none none with ⟨h1, h2⟩ | ⟨h1, h2⟩
        · exact .inr ⟨h1, h2⟩
        · exact .inr ⟨h1, h2⟩
      · rw [if_neg hcur]
        dsimp only
        exact ih (next + 1) cur acc
    · simp only [emitAccGoS]
      rw [if_neg h]
      exact .inl ⟨rfl, rfl⟩

theorem emitAccPeriodsBeforeS_inv (P : ℚ) (inputs : List (ℚ × SizedVec))
    (s : PeriodicStreamS) (kIn : ℤ) (hinv : accSizeInv P inputs s) :
    accSizeInv P inputs (emitAccPeriodsBeforeS s kIn).2 := by
  intro a c ha hc
  have ha2 : (emitAccGoS s.periodicity kIn
      (accLoopFuel kIn s.nextAccPeriod) s.nextAccPeriod
      s.accCurrentPeriod s.accumulatorVector).2.2.2 = some a := ha
  have hc2 : (emitAccGoS s.periodicity kIn
      (accLoopFuel kIn s.nextAccPeriod) s.nextAccPeriod
      s.accCurrentPeriod s.accumulatorVector).2.2.1 = some c := hc
  rcases emitAccGoS_curacc s.periodicity kIn
      (accLoopFuel kIn s.nextAccPeriod) s.nextAccPeriod
      s.accCurrentPeriod s.accumulatorVector with ⟨h1, h2⟩ | ⟨h1, h2⟩
  · rw [h2] at ha2
    rw [h1] at hc2
    exact hinv a c ha2 hc2
  · rw [h2] at ha2
    cases ha2

theorem recordVectorS_ok (P : ℚ) (inputs : List (ℚ × SizedVec))
    (hsz : ∀ p ∈ inputs, ∀ q ∈ inputs,
      binIndex P p.1 = binIndex P q.1 → p.2.2 ≠ [] → q.2.2 ≠ [] →
      p.2.1 = q.2.1)
    (s : PeriodicStreamS) (q : ℚ × SizedVec) (hq : q ∈ inputs)
    (hk : s.kind = RKind.accumulator) (hper : s.periodicity = P)
    (hinv : accSizeInv P inputs s) :
    ∃ r, recordVectorS s q.1 q.2 = .ok r ∧
      r.2.kind = RKind.accumulator ∧ r.2.periodicity = P ∧
      accSizeInv P inputs r.2 := by
  have hbq : binIndex P q.1 = ⌊q.1 / s.periodicity⌋ := by
    unfold binIndex
    rw [hper]
  simp only [recordVectorS, hk]
  simp only [recordAccumulatorStepS]
  obtain ⟨s1, hs1⟩ : ∃ t, (emitAccPeriodsBeforeS s
      ⌊q.1 / s.periodicity⌋).2 = t := ⟨_, rfl⟩
  have hk1 : s1.kind = RKind.accumulator := by
    rw [← hs1]
    exact hk
  have hp1 : s1.periodicity = P := by
    rw [← hs1]
    exact hper
  have hin1 : accSizeInv P inputs s1 :=
    hs1 ▸ emitAccPeriodsBeforeS_inv P inputs s ⌊q.1 / s.periodicity⌋ hinv
  rw [hs1]
  by_cases hb1 : s1.accCurrentPeriod = some ⌊q.1 / s.periodicity⌋
  · rw [if_neg (not_not_intro hb1)]
    by_cases hb2 : q.2.2.length = 0
    · rw [if_pos hb2]
      exact ⟨_, rfl, hk1, hp1, hin1⟩
    · rw [if_neg hb2]
      rcases hacc : s1.accumulatorVector with _ | a
      · refine ⟨_, rfl, hk1, hp1, ?_⟩
        intro a c ha hc
        have ha2 : some q.2 = some a := ha
        have hc2 : s1.accCurrentPeriod = some c := hc
        rw [hb1] at hc2
        injection hc2 with hc3
        injection ha2 with ha3
        refine ⟨q, hq, ?_, ?_, ?_⟩
        · rw [hbq, hc3]
        · intro hemp
          exact hb2 (by rw [hemp]; rfl)
        · rw [← ha3]
      · have hsize : a.1 = q.2.1 := by
          obtain ⟨p, hp, hpbin, hpne, hpsz⟩ :=
            hin1 a ⌊q.1 / s.periodicity⌋ hacc hb1
          have := hsz p hp q hq (by rw [hpbin, hbq]) hpne
            (fun h => hb2 (by rw [h]; rfl))
          rw [← this, hpsz]
        dsimp only
        rw [if_neg (not_not_intro hsize)]
        refine ⟨_, rfl, hk1, hp1, ?_⟩
        intro a' c ha' hc'
        have ha2 : some (a.1, mergeAdd a.2 q.2.2) = some a' := ha'
        have hc2 : s1.accCurrentPeriod = some c := hc'
        obtain ⟨p, hp, hpbin, hpne, hpsz⟩ := hin1 a c hacc hc2
        injection ha2 with he
        exact ⟨p, hp, hpbin, hpne, by rw [hpsz, ← he]⟩
  · rw [if_pos hb1]
    refine ⟨_, rfl, hk1, hp1, ?_⟩
    intro a c ha hc
    have ha2 : (if q.2.2.length ≠ 0 then some q.2 else none) = some a := ha
    have hc2 : some ⌊q.1 / s.periodicity⌋ = some c := hc
    injection hc2 with hc3
    by_cases hb2 : q.2.2.length = 0
    · rw [if_neg (not_not_intro hb2)] at ha2
      cases ha2
    · rw [if_pos hb2] at ha2
      injection ha2 with he
      refine ⟨q, hq, ?_, ?_, ?_⟩
      · rw [hbq, hc3]
      · intro hemp
        exact hb2 (by rw [hemp]; rfl)
      · rw [← he]

theorem recPhaseS_ok (P : ℚ) (inputs : List (ℚ × SizedVec))
    (hsz : ∀ p ∈ inputs, ∀ q ∈ inputs,
      binIndex P p.1 = binIndex P q.1 → p.2.2 ≠ [] → q.2.2 ≠ [] →
      p.2.1 = q.2.1) :
    ∀ rest : List (ℚ × SizedVec), (∀ q ∈ rest, q ∈ inputs) →
    ∀ s : PeriodicStreamS, s.kind = RKind.accumulator →
      s.periodicity = P → accSizeInv P inputs s →
      ∃ r, recPhaseS s rest = .ok r := by
  intro rest
  induction rest with
  | nil =>
    intro _ s _ _ _
    exact ⟨([], s), rfl⟩
  | cons p rest ih =>
    intro hsub s hk hper hinv
    obtain ⟨r1, hr1, hr1k, hr1p, hr1inv⟩ := recordVectorS_ok P inputs hsz s p
      (hsub p (List.mem_cons_self p rest)) hk hper hinv
    obtain ⟨r2, hr2⟩ := ih (fun q hq => hsub q (List.mem_cons_of_mem p hq))
      r1.2 hr1k hr1p hr1inv
    refine ⟨(r1.1 ++ r2.1, r2.2), ?_⟩
    simp only [recPhaseS]
    rw [hr1]
    dsimp only
    rw [hr2]

theorem runWithCloseS_ok (P E : ℚ) (inputs : List (ℚ × SizedVec))
    (hsz : ∀ p ∈ inputs, ∀ q ∈ inputs,
      binIndex P p.1 = binIndex P q.1 → p.2.2 ≠ [] → q.2.2 ≠ [] →
      p.2.1 = q.2.1) :
    ∃ out, runWithCloseS (mkStreamS P RKind.accumulator) inputs E =
      .ok out := by
  obtain ⟨r, hr⟩ := recPhaseS_ok P inputs hsz inputs (fun q hq => hq)
    (mkStreamS P RKind.accumulator) rfl rfl
    (by
      intro a c ha hc
      cases ha)
  refine ⟨r.1 ++ (closeStreamS r.2 E).1, ?_⟩
  simp only [runWithCloseS]
  rw [hr]

/-- C3 (corrected): on an accumulator stream of periodicity `P > 0`, for
record calls with nondecreasing epochs, per-call sorted vectors, and any
two nonempty vectors falling in the same bin built with the same size
(`from_coo`'s `max(indices) + 1` --- otherwise the `+=` raises
`DimensionMismatch`), the run followed by `close(E)` raises nothing and
emits one record per bin below the last touched bin or `floor(E/P)`: each
emitted bin's index set is the union of the index sets of the inputs whose
`floor(epoch/P)` equals the bin, the value at each index is the sum of
those inputs' values there, and bins with no input emit `([], [])`.  The
epoch ordering hypothesis is essential: out-of-order epochs silently drop
data (see the counterexample). -/
theorem accumulator_bins_union_sum (P E : ℚ)
    (inputs : List (ℚ × SizedVec))
    (hP : 0 < P)
    (hmono : List.Chain' (fun a b => a.1 ≤ b.1) inputs)
    (hsorted : ∀ p ∈ inputs, svSorted p.2.2)
    (hsz : ∀ p ∈ inputs, ∀ q ∈ inputs,
      binIndex P p.1 = binIndex P q.1 → p.2.2 ≠ [] → q.2.2 ≠ [] →
      p.2.1 = q.2.1) :
    runWithCloseS (mkStreamS P RKind.accumulator) inputs E =
      .ok ((List.range (binMax P E (unsize inputs)).toNat).map
        (fun k => ⟨k, (k : ℚ) * P, binVec P (unsize inputs) k⟩)) ∧
    (∀ k i, i ∈ svIndices (binVec P (unsize inputs) k) ↔
      ∃ p ∈ binInputs P (unsize inputs) k, i ∈ svIndices p.2) ∧
    (∀ k i, lookupVal i (binVec P (unsize inputs) k) =
      ((binInputs P (unsize inputs) k).map (fun p => lookupVal i p.2)).sum) ∧
    (∀ k, binInputs P (unsize inputs) k = [] →
      binVec P (unsize inputs) k = []) := by
  have hmono' : List.Chain' (fun a b => a.1 ≤ b.1) (unsize inputs) := by
    unfold unsize
    rw [List.chain'_map]
    exact hmono
  have hsorted' : ∀ p ∈ unsize inputs, svSorted p.2 := by
    intro p hp
    rw [unsize, List.mem_map] at hp
    obtain ⟨q, hq, rfl⟩ := hp
    exact hsorted q hq
  refine ⟨?_, ?_, ?_, ?_⟩
  · obtain ⟨out, hout⟩ := runWithCloseS_ok P E inputs hsz
    rw [hout,
      runWithCloseS_erase (mkStreamS P RKind.accumulator) inputs E out hout,
      show eraseSized (mkStreamS P RKind.accumulator) =
        mkStream P RKind.accumulator from rfl,
      acc_run_binVec P E (unsize inputs) hP hmono']
  · intro k i
    exact binVec_mem P (unsize inputs) k i
  · intro k i
    exact binVec_lookup P (unsize inputs) k hsorted' i
  · intro k
    exact binVec_of_no_input P (unsize inputs) k

/-- C3 witness: the characterization applied to the concrete run
`record(0.5, size 1, [(0,1)])`, `record(2.5, size 1, [(0,2)])`, `close(3)`
with `P = 1`. -/
theorem accumulator_bins_union_sum_witness :
    runWithCloseS (mkStreamS 1 RKind.accumulator)
        [((0.5 : ℚ), ((1 : ℕ), ([(0, 1)] : SparseVec))),
         ((2.5 : ℚ), (1, [(0, 2)]))] 3 =
      .ok ((List.range (binMax 1 3 (unsize
          [((0.5 : ℚ), ((1 : ℕ), ([(0, 1)] : SparseVec))),
           ((2.5 : ℚ), (1, [(0, 2)]))])).toNat).map
        (fun k => ⟨k, (k : ℚ) * 1, binVec 1 (unsize
          [((0.5 : ℚ), ((1 : ℕ), ([(0, 1)] : SparseVec))),
           ((2.5 : ℚ), (1, [(0, 2)]))]) k⟩)) :=
  (accumulator_bins_union_sum 1 3
    [((0.5 : ℚ), ((1 : ℕ), ([(0, 1)] : SparseVec))),
     ((2.5 : ℚ), (1, [(0, 2)]))]
    (by norm_num)
    (by
      refine List.chain'_cons.mpr ⟨?_, List.chain'_singleton _⟩
      norm_num)
    (by
      intro p hp
      rcases List.mem_cons.mp hp with rfl | hp2
      · exact List.chain'_singleton _
      · rcases List.mem_singleton.mp hp2 with rfl
        exact List.chain'_singleton _)
    (by
      intro p hp q hq hbin hpne hqne
      rcases List.mem_cons.mp hp with rfl | hp2
      · rcases List.mem_cons.mp hq with rfl | hq2
        · rfl
        · rcases List.mem_singleton.mp hq2 with rfl
          rfl
      · rcases List.mem_singleton.mp hp2 with rfl
        rcases List.mem_cons.mp hq with rfl | hq2
        · rfl
        · rcases List.mem_singleton.mp hq2 with rfl
          rfl)).1

/-- C3 counterexample to the original sentence (quantifying over EVERY
sequence of record calls): with out-of-order epochs --- `record(2.5,
[(0,1)])` then `record(0.5, [(0,2)])`, `close(3)`, `P = 1`, all vectors of
size 1 --- every emitted bin is empty although bin 2 received `[(0,1)]`:
the accumulator resets on the stale epoch and the data is dropped.
Moreover the claim's union-sum emissions are not even reached for every
input sequence: two nonempty same-bin vectors of different sizes abort the
run with `DimensionMismatch`. -/
theorem accumulator_out_of_order_drops :
    (runWithCloseS (mkStreamS 1 RKind.accumulator)
        [((2.5 : ℚ), ((1 : ℕ), ([(0, 1)] : SparseVec))),
         ((0.5 : ℚ), (1, [(0, 2)]))] 3 =
      .ok [⟨0, 0, []⟩, ⟨1, 1, []⟩, ⟨2, 2, []⟩] ∧
    binVec 1 [((2.5 : ℚ), [(0, 1)]), ((0.5 : ℚ), [(0, 2)])] 2 = [(0, 1)]) ∧
    runWithCloseS (mkStreamS 1 RKind.accumulator)
        [((0.1 : ℚ), ((1 : ℕ), ([(0, 1)] : SparseVec))),
         ((0.2 : ℚ), (2, [(1, 2)]))] 1 =
      .error "DimensionMismatch" := by
  have h1 : recordVectorS (mkStreamS 1 RKind.accumulator) 2.5 (1, [(0, 1)]) =
      .ok ([⟨0, 0, []⟩, ⟨1, 1, []⟩],
        { periodicity := 1, kind := RKind.accumulator,
          nextStatePeriod := 0, stateVector := none,
          nextAccPeriod := 2, accCurrentPeriod := some 2,
          accumulatorVector := some (1, [(0, 1)]) }) := by
    norm_num [recordVectorS, recordAccumulatorStepS, mkStreamS,
      emitAccPeriodsBeforeS, accLoopFuel, emitAccGoS,
      materializeAccumulatorS]
  have h2 : recordVectorS
      { periodicity := 1, kind := RKind.accumulator,
        nextStatePeriod := 0, stateVector := none,
        nextAccPeriod := 2, accCurrentPeriod := some 2,
        accumulatorVector := some (1, [(0, 1)]) } 0.5 (1, [(0, 2)]) =
      .ok ([],
        { periodicity := 1, kind := RKind.accumulator,
          nextStatePeriod := 0, stateVector := none,
          nextAccPeriod := 2, accCurrentPeriod := some 0,
          accumulatorVector := some (1, [(0, 2)]) }) := by
    norm_num [recordVectorS, recordAccumulatorStepS, mkStreamS,
      emitAccPeriodsBeforeS, accLoopFuel, emitAccGoS,
      materializeAccumulatorS]
  have h3 : closeStreamS
      { periodicity := 1, kind := RKind.accumulator,
        nextStatePeriod := 0, stateVector := none,
        nextAccPeriod := 2, accCurrentPeriod := some 0,
        accumulatorVector := some (1, [(0, 2)]) } 3 =
      ([⟨2, 2, []⟩],
       { periodicity := 1, kind := RKind.accumulator,
         nextStatePeriod := 0, stateVector := none,
         nextAccPeriod := 3, accCurrentPeriod := some 0,
         accumulatorVector := some (1, [(0, 2)]) }) := by
    norm_num [closeStreamS, mkStreamS, emitAccPeriodsBeforeS, accLoopFuel,
      emitAccGoS, materializeAccumulatorS]
  have g1 : recordVectorS (mkStreamS 1 RKind.accumulator) 0.1 (1, [(0, 1)]) =
      .ok ([],
        { periodicity := 1, kind := RKind.accumulator,
          nextStatePeriod := 0, stateVector := none,
          nextAccPeriod := 0, accCurrentPeriod := some 0,
          accumulatorVector := some (1, [(0, 1)]) }) := by
    norm_num [recordVectorS, recordAccumulatorStepS, mkStreamS,
      emitAccPeriodsBeforeS, accLoopFuel, emitAccGoS,
      materializeAccumulatorS]
  have g2 : recordVectorS
      { periodicity := 1, kind := RKind.accumulator,
        nextStatePeriod := 0, stateVector := none,
        nextAccPeriod := 0, accCurrentPeriod := some 0,
        accumulatorVector := some (1, [(0, 1)]) } 0.2 (2, [(1, 2)]) =
      .error "DimensionMismatch" := by
    norm_num [recordVectorS, recordAccumulatorStepS, mkStreamS,
      emitAccPeriodsBeforeS, accLoopFuel, emitAccGoS,
      materializeAccumulatorS]
  refine ⟨⟨?_, ?_⟩, ?_⟩
  · simp [runWithCloseS, recPhaseS, h1, h2, h3]
  · norm_num [binVec, binInputs, binIndex, mergeAdd, mergeAddGo]
  · simp [runWithCloseS, recPhaseS, g1, g2]

end DataLogger
